import Mathlib

/-!
# go-set: a shallow embedding of `set.go`

The package is one type, `Set[T comparable]`, wrapping a Go `map[T]struct{}`,
used through pointers (`*Set[T]`).  The embedding has four layers.

* `Comparable`: what Go's `comparable` constraint leaves open about a key.  A
  key may be unhashable (an interface value whose dynamic type cannot be
  compared: every map operation with it panics) and it may differ from itself
  (a floating-point NaN: no lookup ever finds it, every assignment adds a new
  entry, `delete` never removes it).
* `GoMap`: a hash table with `struct{}` values, i.e. its keys.  The keys are
  kept in a list whose order stands for the order in which a `range` loop
  visits them; Go leaves that order unspecified, and every statement below is
  proved for every such list.
* the built-in map operations (`len`, the comma-ok index, `delete`, `range`,
  assignment, `make`) on a map value, which is nil or the address of a table;
* a heap of `Set` objects addressed by `Ref` (a `*Set[T]`, `none` being the nil
  pointer) and of tables.  Two objects may hold the same table, as after the
  struct copy `bv := *a`.  Every function of `set.go` is a function on heaps; a
  result of `none` is a run-time panic.
-/

namespace GoSet

/-! ## Keys -/

/-- What a key type satisfying Go's `comparable` may do at run time.  An
element of `T` is a key value up to Go's `==`: two keys that `==` identifies
are one element of `T`. -/
class Comparable (T : Type) where
  /-- The key can be hashed; false for an interface value of an uncomparable
  dynamic type, with which every map operation panics. -/
  hashable : T → Bool
  /-- The comparison `k == k`; false for a floating-point NaN and for a value
  that contains one. -/
  selfEq : T → Bool

/-- Keys of type `int`: always hashable, always equal to themselves. -/
instance : Comparable Nat := ⟨fun _ => true, fun _ => true⟩

/-- Keys of type `float64`: a number, or NaN. -/
inductive Float64 where
  | num (n : Nat)
  | nan
deriving DecidableEq

/-- A `float64` is always hashable; NaN differs from itself. -/
instance : Comparable Float64 :=
  ⟨fun _ => true, fun x => match x with
    | .num _ => true
    | .nan => false⟩

/-- Keys of type `any`: an `int`, or a slice `[]int`. -/
inductive AnyVal where
  | int (n : Nat)
  | ints (xs : List Nat)
deriving DecidableEq

/-- A slice held in an `any` is unhashable. -/
instance : Comparable AnyVal :=
  ⟨fun x => match x with
    | .int _ => true
    | .ints _ => false, fun _ => true⟩

variable {T : Type} [DecidableEq T] [Comparable T]

/-- The lookup of `k` among the keys `l`: a key that differs from itself is
never found. -/
def keyFound (k : T) (l : List T) : Bool :=
  Comparable.selfEq k && decide (k ∈ l)

/-- The keys after the assignment of `k`: a key that is found stays where it
is, any other key becomes a new entry. -/
def keyInsert (k : T) (l : List T) : List T :=
  if Comparable.selfEq k = true ∧ k ∈ l then l else k :: l

/-- The keys after the deletion of `k`: the entry found for `k`, if any, is
removed. -/
def keyDelete (k : T) (l : List T) : List T :=
  if Comparable.selfEq k = true then l.erase k else l

/-! ## Go maps -/

/-- A hash table of type `map[T]struct{}`: its keys, in the order a `range`
loop visits them.  Every key is hashable, and a key that is equal to itself
occurs once. -/
structure GoMap (T : Type) [Comparable T] where
  keys : List T
  hashed : ∀ k ∈ keys, Comparable.hashable k = true
  nodup : (keys.filter Comparable.selfEq).Nodup

/-- The table allocated by `make(map[T]struct{})`, also with a capacity hint. -/
def GoMap.make : GoMap T :=
  ⟨[], fun _ hk => absurd hk (List.not_mem_nil _), List.nodup_nil⟩

/-- The assignment `m[k] = struct{}{}` of a hashable key on a table. -/
def GoMap.assign (m : GoMap T) (k : T) (hk : Comparable.hashable k = true) : GoMap T :=
  ⟨keyInsert k m.keys,
    by
      intro x hx
      unfold keyInsert at hx
      split at hx
      · exact m.hashed x hx
      · rcases List.mem_cons.mp hx with rfl | hx
        · exact hk
        · exact m.hashed x hx,
    by
      unfold keyInsert
      split
      · exact m.nodup
      · rename_i hn
        by_cases hs : Comparable.selfEq k = true
        · have hnot : k ∉ m.keys := fun hin => hn ⟨hs, hin⟩
          rw [List.filter_cons_of_pos hs]
          exact List.nodup_cons.mpr ⟨fun hmem => hnot (List.mem_of_mem_filter hmem), m.nodup⟩
        · rw [List.filter_cons_of_neg hs]
          exact m.nodup⟩

/-- The built-in `delete(m, k)` of a hashable key on a table. -/
def GoMap.delete (m : GoMap T) (k : T) : GoMap T :=
  ⟨keyDelete k m.keys,
    by
      intro x hx
      unfold keyDelete at hx
      split at hx
      · exact m.hashed x (List.mem_of_mem_erase hx)
      · exact m.hashed x hx,
    by
      unfold keyDelete
      split
      · exact m.nodup.sublist ((List.erase_sublist k m.keys).filter _)
      · exact m.nodup⟩

/-! ## Sets, pointers and the heap -/

/-- The struct `Set[T]`: its one field is a map value, nil (`none`) or the
address of a table.  The zero value has a nil map. -/
structure Set where
  elements : Option Nat
deriving DecidableEq

/-- A `*Set[T]`: `none` is the nil pointer, `some i` points at object `i`. -/
abbrev Ref := Option Nat

/-- The `Set` objects and the tables allocated so far; object `i` is
`objs[i]`, table `t` is `tables[t]`, and every map value held by an object is
nil or the address of an allocated table. -/
structure Heap (T : Type) [Comparable T] where
  objs : List Set
  tables : List (GoMap T)
  valid : ∀ o ∈ objs, ∀ t ∈ o.elements, t < tables.length

/-- Reading the struct through a pointer; a nil pointer panics. -/
def load (h : Heap T) : Ref → Option Set
  | none => none
  | some i => h.objs[i]?

/-- The keys a `for key := range m` loop visits, in visiting order; a nil map
gives no iteration. -/
def mapRange (h : Heap T) : Option Nat → List T
  | none => []
  | some t =>
    match h.tables[t]? with
    | some m => m.keys
    | none => []

/-- The built-in `len(m)`; the nil map has length 0. -/
def mapLen (h : Heap T) : Option Nat → Nat
  | none => 0
  | some t =>
    match h.tables[t]? with
    | some m => m.keys.length
    | none => 0

/-- The second result of `_, exists := m[k]`.  An unhashable key panics, also
on a nil map; reading a nil map finds nothing. -/
def mapIndex (h : Heap T) (m : Option Nat) (k : T) : Option Bool :=
  if Comparable.hashable k = true then
    match m with
    | none => some false
    | some t =>
      match h.tables[t]? with
      | some tbl => some (keyFound k tbl.keys)
      | none => some false
  else none

/-- The heap with table `t` replaced by `m`. -/
def Heap.setTable (h : Heap T) (t : Nat) (m : GoMap T) : Heap T :=
  ⟨h.objs, h.tables.set t m, by
    intro o ho u hu
    rw [List.length_set]
    exact h.valid o ho u hu⟩

/-- The built-in `delete(m, k)`.  An unhashable key panics, also on a nil map;
deleting from a nil map does nothing. -/
def mapDelete (h : Heap T) (m : Option Nat) (k : T) : Option (Heap T) :=
  if Comparable.hashable k = true then
    match m with
    | none => some h
    | some t =>
      match h.tables[t]? with
      | some tbl => some (h.setTable t (tbl.delete k))
      | none => some h
  else none

/-- The assignment `m[k] = struct{}{}`; it panics on a nil map and on an
unhashable key. -/
def mapAssign (h : Heap T) (m : Option Nat) (k : T) : Option (Heap T) :=
  match m with
  | none => none
  | some t =>
    match h.tables[t]? with
    | some tbl =>
      if hk : Comparable.hashable k = true then some (h.setTable t (tbl.assign k hk))
      else none
    | none => none

/-- The statement `s.elements = make(map[T]struct{})`: a fresh empty table,
whose address is stored in the object; a nil pointer panics. -/
def storeMake (h : Heap T) : Ref → Option (Heap T)
  | none => none
  | some i =>
    if i < h.objs.length then
      some ⟨h.objs.set i ⟨some h.tables.length⟩, h.tables ++ [GoMap.make], by
        intro o ho u hu
        rw [List.length_append, List.length_singleton]
        rcases List.mem_or_eq_of_mem_set ho with ho | rfl
        · exact Nat.lt_succ_of_lt (h.valid o ho u hu)
        · cases hu
          exact Nat.lt_succ_self _⟩
    else none

/-- The allocation `&Set[T]{elements: make(map[T]struct{})}`: a fresh object
holding a fresh empty table, and the address of the object. -/
def alloc (h : Heap T) : Heap T × Ref :=
  (⟨h.objs ++ [⟨some h.tables.length⟩], h.tables ++ [GoMap.make], by
    intro o ho u hu
    rw [List.length_append, List.length_singleton]
    rcases List.mem_append.mp ho with ho | ho
    · exact Nat.lt_succ_of_lt (h.valid o ho u hu)
    · rw [List.mem_singleton] at ho
      subst ho
      cases hu
      exact Nat.lt_succ_self _⟩, some h.objs.length)

/-- The declaration `var s Set[T]` followed by `&s`: a fresh zero-valued
object, whose map is nil, and its address. -/
def allocZero (h : Heap T) : Heap T × Ref :=
  (⟨h.objs ++ [⟨none⟩], h.tables, by
    intro o ho u hu
    rcases List.mem_append.mp ho with ho | ho
    · exact h.valid o ho u hu
    · rw [List.mem_singleton] at ho
      subst ho
      cases hu⟩, some h.objs.length)

/-- What a program can see of the object behind a pointer: the struct, that is
the map value it holds, and the keys of that map in visiting order. -/
def observe (h : Heap T) (s : Ref) : Option (Set × List T) :=
  (load h s).map (fun o => (o, mapRange h o.elements))

/-! ## The functions of `set.go` -/

/-- New returns a new empty set. -/
def New (h : Heap T) : Heap T × Ref :=
  alloc h

/-- Len returns the number of elements in the set. -/
def Set.Len (h : Heap T) (s : Ref) : Option Nat := do
  let o ← load h s
  pure (mapLen h o.elements)

/-- Add adds the given element to the set, allocating the map when it is nil. -/
def Set.Add (h : Heap T) (s : Ref) (element : T) : Option (Heap T) := do
  let o ← load h s
  let h1 ← if o.elements.isNone then storeMake h s else some h
  let o1 ← load h1 s
  mapAssign h1 o1.elements element

/-- Of returns a new set with the given elements. -/
def Of (h : Heap T) (elements : List T) : Option (Heap T × Ref) := do
  let (h1, s) := alloc h
  let h2 ← elements.foldlM (fun hh e => Set.Add hh s e) h1
  pure (h2, s)

/-- AddAll adds all of the elements of the given set to the receiver set.  The
loop runs over the keys the argument holds when the loop starts.  (When the
receiver and the argument hold the same table and a key differs from itself,
the loop creates entries in the map it ranges over, and Go leaves open whether
it visits them; no statement below covers that case.) -/
def Set.AddAll (h : Heap T) (s other : Ref) : Option (Heap T) := do
  let o ← load h other
  (mapRange h o.elements).foldlM (fun hh key => Set.Add hh s key) h

/-- AsSlice returns a slice that includes all of the elements in the set. -/
def Set.AsSlice (h : Heap T) (s : Ref) : Option (List T) := do
  let _ ← Set.Len h s
  let o ← load h s
  pure ((mapRange h o.elements).foldl (fun xs key => xs ++ [key]) [])

/-- Contains returns true iff the given element is in the set. -/
def Set.Contains (h : Heap T) (s : Ref) (element : T) : Option Bool := do
  let o ← load h s
  mapIndex h o.elements element

/-- The loop of `ContainsAll` over the keys still to visit: the first key
missing from `s` returns false, the end of the loop returns true. -/
def Set.ContainsAll.loop (h : Heap T) (s : Ref) : List T → Option Bool
  | [] => some true
  | key :: rest => do
    let c ← Set.Contains h s key
    if !c then pure false else Set.ContainsAll.loop h s rest

/-- ContainsAll returns true iff all of the elements of the given set are
contained within the set. -/
def Set.ContainsAll (h : Heap T) (s xs : Ref) : Option Bool := do
  let o ← load h xs
  Set.ContainsAll.loop h s (mapRange h o.elements)

/-- Equal returns true iff the given set and this set are both nil or they have
the same length and include exactly the same elements.  The first test is
pointer equality; `||` is evaluated left to right and stops at the first true
operand. -/
def Set.Equal (h : Heap T) (s other : Ref) : Option Bool :=
  if s = other then some true
  else if s = none then some false
  else if other = none then some false
  else do
    let ls ← Set.Len h s
    let lo ← Set.Len h other
    if ls ≠ lo then pure false else Set.ContainsAll h s other

/-- IsEmpty returns true iff the set has no elements. -/
def Set.IsEmpty (h : Heap T) (s : Ref) : Option Bool := do
  let n ← Set.Len h s
  pure (n == 0)

/-- IsSubsetOf returns true iff the receiver set is a subset of `other`. -/
def Set.IsSubsetOf (h : Heap T) (s other : Ref) : Option Bool := do
  let ls ← Set.Len h s
  let lo ← Set.Len h other
  if ls > lo then pure false else Set.ContainsAll h other s

/-- IsProperSubsetOf returns true iff the receiver set is a proper subset of
`other`. -/
def Set.IsProperSubsetOf (h : Heap T) (s other : Ref) : Option Bool := do
  let ls ← Set.Len h s
  let lo ← Set.Len h other
  if ls ≥ lo then pure false else Set.ContainsAll h other s

/-- IsSupersetOf returns true iff the receiver set is a superset of `other`. -/
def Set.IsSupersetOf (h : Heap T) (s other : Ref) : Option Bool := do
  let ls ← Set.Len h s
  let lo ← Set.Len h other
  if ls < lo then pure false else Set.ContainsAll h s other

/-- IsProperSupersetOf returns true iff the receiver set is a proper superset of
`other`. -/
def Set.IsProperSupersetOf (h : Heap T) (s other : Ref) : Option Bool := do
  let ls ← Set.Len h s
  let lo ← Set.Len h other
  if ls ≤ lo then pure false else Set.ContainsAll h s other

/-- Remove removes the given element from the set. -/
def Set.Remove (h : Heap T) (s : Ref) (element : T) : Option (Heap T) := do
  let o ← load h s
  mapDelete h o.elements element

/-- RemoveAll removes all of the elements contained within the given set from
the receiver set.  The loop runs over the keys the argument holds when the loop
starts; a key deleted by the loop is the key being visited. -/
def Set.RemoveAll (h : Heap T) (s other : Ref) : Option (Heap T) := do
  let o ← load h other
  (mapRange h o.elements).foldlM (fun hh key => Set.Remove hh s key) h

/-- Difference returns a new set that contains all of the elements of the first
set that are not in the second set. -/
def Difference (h : Heap T) (a b : Ref) : Option (Heap T × Ref) := do
  let (h1, s) := New h
  let h2 ← Set.AddAll h1 s a
  let ob ← load h2 b
  let h3 ← (mapRange h2 ob.elements).foldlM (fun hh key => Set.Remove hh s key) h2
  pure (h3, s)

/-- The body of the loop of `SymmetricDifference`: a key already in `s` is
removed, any other key is added. -/
def SymmetricDifference.step (s : Ref) (hh : Heap T) (key : T) : Option (Heap T) := do
  let c ← Set.Contains hh s key
  if c then Set.Remove hh s key else Set.Add hh s key

/-- SymmetricDifference returns a new set that contains the elements that are in
either set but not both. -/
def SymmetricDifference (h : Heap T) (a b : Ref) : Option (Heap T × Ref) := do
  let (h1, s) := New h
  let h2 ← Set.AddAll h1 s a
  let ob ← load h2 b
  let h3 ← (mapRange h2 ob.elements).foldlM (SymmetricDifference.step s) h2
  pure (h3, s)

/-- The body of the loop of `Intersection`: a key of `a` that `b` contains is
added to `s`. -/
def Intersection.step (s b : Ref) (hh : Heap T) (key : T) : Option (Heap T) := do
  let c ← Set.Contains hh b key
  if c then Set.Add hh s key else pure hh

/-- Intersection returns a new set that contains all of the elements that are in
both sets. -/
def Intersection (h : Heap T) (a b : Ref) : Option (Heap T × Ref) := do
  let (h1, s) := New h
  let oa ← load h1 a
  (do
    let h2 ← (mapRange h1 oa.elements).foldlM (Intersection.step s b) h1
    pure (h2, s))

/-- Union returns a new set that contains all of the elements in both sets. -/
def Union (h : Heap T) (a b : Ref) : Option (Heap T × Ref) := do
  let (h1, s) := New h
  let h2 ← Set.AddAll h1 s a
  let h3 ← Set.AddAll h2 s b
  pure (h3, s)

/-! ## Abstraction: the keys of an object -/

/-- The keys of the object at address `i`, in visiting order; nothing when the
address is not allocated. -/
def keysOf (h : Heap T) (i : Nat) : List T :=
  match h.objs[i]? with
  | some o => mapRange h o.elements
  | none => []

/-- The objects `i` and `j` hold the same table. -/
def Shares (h : Heap T) (i j : Nat) : Prop :=
  ∃ t, load h (some i) = some ⟨some t⟩ ∧ load h (some j) = some ⟨some t⟩

/-- Every element the set holds is equal to itself: the set holds no NaN. -/
def SelfEqual (h : Heap T) (s : Ref) : Prop :=
  ∀ l, Set.AsSlice h s = some l → ∀ k ∈ l, Comparable.selfEq k = true

/-- Heap `hh` is heap `h` after writes through object `i`, whose keys are now
`ks`: no object is created, every other object holds the map value it held,
object `i` holds the table it held or, if its map was nil, a nil map or a new
table, and every table of `h` other than the one of object `i` is unchanged. -/
def Updates (h hh : Heap T) (i : Nat) (ks : List T) : Prop :=
  hh.objs.length = h.objs.length ∧
  keysOf hh i = ks ∧
  (∀ j, j ≠ i → hh.objs[j]? = h.objs[j]?) ∧
  h.tables.length ≤ hh.tables.length ∧
  (∀ t, t < h.tables.length → h.objs[i]? ≠ some ⟨some t⟩ → hh.tables[t]? = h.tables[t]?) ∧
  (∀ t, h.objs[i]? = some ⟨some t⟩ → hh.objs[i]? = some ⟨some t⟩) ∧
  (h.objs[i]? = some ⟨none⟩ →
    hh.objs[i]? = some ⟨none⟩ ∨ ∃ t, h.tables.length ≤ t ∧ hh.objs[i]? = some ⟨some t⟩)

/-- The keys of `l` that are equal to themselves. -/
def proper (l : List T) : List T :=
  l.filter Comparable.selfEq

/-- The keys of `l` that differ from themselves. -/
def nans (l : List T) : List T :=
  l.filter (fun k => !Comparable.selfEq k)

/-! ## Sample heaps -/

/-- The heap of a program that has allocated nothing yet. -/
def emptyHeap : Heap Nat :=
  ⟨[], [], by decide⟩

/-- A heap of four objects over `int` keys: `Of(1, 2, 3)` at address 0,
`Of(2, 3, 4)` at 1, a zero-valued `Set` at 2 and a second set with the members
1, 2, 3, stored in another order, at 3. -/
def sampleHeap : Heap Nat :=
  ⟨[⟨some 0⟩, ⟨some 1⟩, ⟨none⟩, ⟨some 2⟩],
    [⟨[3, 2, 1], by decide, by decide⟩, ⟨[4, 3, 2], by decide, by decide⟩,
      ⟨[1, 2, 3], by decide, by decide⟩],
    by decide⟩

/-- A heap holding `Of(1, 2)` at address 0 and `Of(1, 2, 3)` at address 1. -/
def nestedHeap : Heap Nat :=
  ⟨[⟨some 0⟩, ⟨some 1⟩],
    [⟨[2, 1], by decide, by decide⟩, ⟨[3, 2, 1], by decide, by decide⟩],
    by decide⟩

/-- A heap holding the single set `a = Of(1)`, at address 0. -/
def aliasHeap : Heap Nat :=
  ⟨[⟨some 0⟩], [⟨[1], by decide, by decide⟩], by decide⟩

/-- A heap holding `a = Of(1)` at address 0 and, at address 1, the struct copy
made by `bv := *a`: two objects on one table. -/
def sharedHeap : Heap Nat :=
  ⟨[⟨some 0⟩, ⟨some 0⟩], [⟨[1], by decide, by decide⟩], by decide⟩

/-- A heap over `float64` keys holding `Of(NaN)` at address 0, `New()` at
address 1 and a second `Of(NaN)` at address 2. -/
def nanHeap : Heap Float64 :=
  ⟨[⟨some 0⟩, ⟨some 1⟩, ⟨some 2⟩],
    [⟨[Float64.nan], by decide, by decide⟩, ⟨[], by decide, by decide⟩,
      ⟨[Float64.nan], by decide, by decide⟩],
    by decide⟩

/-- A heap over `any` keys holding a zero-valued `Set` at address 0 and
`Of(1)` at address 1. -/
def anyHeap : Heap AnyVal :=
  ⟨[⟨none⟩, ⟨some 0⟩], [⟨[AnyVal.int 1], by decide, by decide⟩], by decide⟩

/-! ## References -/

/-- A reference a Go program can hold: the nil pointer or the address of an
allocated object. -/
def Valid (h : Heap T) : Ref → Prop
  | none => True
  | some i => i < h.objs.length

/-! ## Call sequences -/

/-- One mutating call on a receiver: `Add(e)`, `Remove(e)`, `AddAll(other)` or
`RemoveAll(other)`, the argument set being given by its address. -/
inductive Call (T : Type) where
  | add (e : T)
  | remove (e : T)
  | addAll (other : Nat)
  | removeAll (other : Nat)

/-- The call `c` made on the receiver `s`. -/
def Call.run (h : Heap T) (s : Ref) : Call T → Option (Heap T)
  | .add e => Set.Add h s e
  | .remove e => Set.Remove h s e
  | .addAll other => Set.AddAll h s (some other)
  | .removeAll other => Set.RemoveAll h s (some other)

/-- The calls `cs` made one after the other on the receiver `s`. -/
def runCalls (h : Heap T) (s : Ref) (cs : List (Call T)) : Option (Heap T) :=
  cs.foldlM (fun hh c => c.run hh s) h

/-- The call can be made on the receiver at address `n`: an element is
hashable, and an argument set is a set allocated before the receiver or the
receiver itself. -/
def Call.ok (n : Nat) : Call T → Prop
  | .add e => Comparable.hashable e = true
  | .remove e => Comparable.hashable e = true
  | .addAll other => other ≤ n
  | .removeAll other => other ≤ n

/-- The call brings no element that differs from itself into a receiver
allocated next in the heap `h`: the element of `Add` is equal to itself, and
the argument of `AddAll` is the receiver or a set of `h` that holds no element
differing from itself. -/
def Call.lawful (h : Heap T) : Call T → Prop
  | .add e => Comparable.selfEq e = true
  | .remove _ => True
  | .addAll other => other = h.objs.length ∨ SelfEqual h (some other)
  | .removeAll _ => True

/-- The calls `cs` can be made one after the other on a receiver allocated
next in the heap `h`: each of them can be made, and when one of them adds the
receiver to itself, no call of the sequence brings in an element differing from
itself, so that no entry is created in a map while it is visited. -/
def okCalls (h : Heap T) (cs : List (Call T)) : Prop :=
  (∀ c ∈ cs, Call.ok h.objs.length c) ∧
  (Call.addAll h.objs.length ∈ cs → ∀ c ∈ cs, Call.lawful h c)

/-- Two heaps with the same objects up to the difference between a nil map and
an allocated empty map: the same addresses, holding the same keys, and the same
pairs of objects holding one table. -/
def Similar (h1 h2 : Heap T) : Prop :=
  h1.objs.length = h2.objs.length ∧ (∀ j, keysOf h1 j = keysOf h2 j) ∧
  ∀ i j, i ≠ j → (Shares h1 i j ↔ Shares h2 i j)

set_option linter.unusedSectionVars false

/-! ## Keys of a list -/

theorem keyFound_eq (k : T) (l : List T) :
    keyFound k l = decide (k ∈ l.filter Comparable.selfEq) := by
  unfold keyFound
  by_cases hs : Comparable.selfEq k = true <;> by_cases hk : k ∈ l <;>
    simp [hs, hk, List.mem_filter]

theorem keyFound_true (k : T) (l : List T) :
    keyFound k l = true ↔ (k ∈ l ∧ Comparable.selfEq k = true) := by
  unfold keyFound
  simp [and_comm]

/-! ## Reading the heap -/

theorem exists_obj (h : Heap T) (i : Nat) (hi : i < h.objs.length) :
    ∃ o, h.objs[i]? = some o :=
  ⟨h.objs[i], List.getElem?_eq_getElem hi⟩

theorem lt_of_obj (h : Heap T) (i : Nat) (o : Set) (ho : h.objs[i]? = some o) :
    i < h.objs.length := by
  by_contra hcon
  rw [List.getElem?_eq_none (Nat.le_of_not_lt hcon)] at ho
  exact absurd ho (by simp)

theorem table_of_obj (h : Heap T) (i t : Nat) (ho : h.objs[i]? = some ⟨some t⟩) :
    t < h.tables.length ∧ ∃ tbl, h.tables[t]? = some tbl := by
  have hmem : (⟨some t⟩ : Set) ∈ h.objs := List.getElem?_mem ho
  have ht : t < h.tables.length := h.valid _ hmem t rfl
  exact ⟨ht, h.tables[t], List.getElem?_eq_getElem ht⟩

theorem mapRange_table (h : Heap T) (t : Nat) (tbl : GoMap T) (ht : h.tables[t]? = some tbl) :
    mapRange h (some t) = tbl.keys := by
  simp [mapRange, ht]

theorem mapRange_hashable (h : Heap T) (m : Option Nat) :
    ∀ k ∈ mapRange h m, Comparable.hashable k = true := by
  intro k hk
  cases m with
  | none => simp [mapRange] at hk
  | some t =>
    cases ht : h.tables[t]? with
    | none => simp [mapRange, ht] at hk
    | some tbl =>
      rw [mapRange_table h t tbl ht] at hk
      exact tbl.hashed k hk

theorem mapRange_nodup (h : Heap T) (m : Option Nat) :
    ((mapRange h m).filter Comparable.selfEq).Nodup := by
  cases m with
  | none => simp [mapRange]
  | some t =>
    cases ht : h.tables[t]? with
    | none => simp [mapRange, ht]
    | some tbl =>
      rw [mapRange_table h t tbl ht]
      exact tbl.nodup

theorem mapLen_eq (h : Heap T) (m : Option Nat) : mapLen h m = (mapRange h m).length := by
  cases m with
  | none => rfl
  | some t =>
    cases ht : h.tables[t]? <;> simp [mapLen, mapRange, ht]

theorem mapIndex_eq (h : Heap T) (m : Option Nat) (k : T)
    (hk : Comparable.hashable k = true) :
    mapIndex h m k = some (keyFound k (mapRange h m)) := by
  cases m with
  | none => simp [mapIndex, hk, mapRange, keyFound]
  | some t =>
    cases ht : h.tables[t]? <;> simp [mapIndex, mapRange, ht, hk, keyFound]

theorem keysOf_hashable (h : Heap T) (i : Nat) :
    ∀ k ∈ keysOf h i, Comparable.hashable k = true := by
  intro k hk
  unfold keysOf at hk
  cases ho : h.objs[i]? with
  | none => simp [ho] at hk
  | some o =>
    simp only [ho] at hk
    exact mapRange_hashable h o.elements k hk

theorem keysOf_nodup (h : Heap T) (i : Nat) :
    ((keysOf h i).filter Comparable.selfEq).Nodup := by
  unfold keysOf
  cases h.objs[i]? with
  | none => simp
  | some o => exact mapRange_nodup h o.elements

theorem keysOf_of_obj (h : Heap T) (i : Nat) (o : Set) (ho : h.objs[i]? = some o) :
    keysOf h i = mapRange h o.elements := by
  simp [keysOf, ho]

theorem load_range (h : Heap T) (i : Nat) (hi : i < h.objs.length) :
    ∃ o, load h (some i) = some o ∧ mapRange h o.elements = keysOf h i := by
  obtain ⟨o, ho⟩ := exists_obj h i hi
  exact ⟨o, ho, (keysOf_of_obj h i o ho).symm⟩

theorem contains_eq (h : Heap T) (i : Nat) (hi : i < h.objs.length) (e : T)
    (he : Comparable.hashable e = true) :
    Set.Contains h (some i) e = some (keyFound e (keysOf h i)) := by
  obtain ⟨o, ho, hr⟩ := load_range h i hi
  simp [Set.Contains, ho, mapIndex_eq h o.elements e he, hr]

theorem contains_unhashable (h : Heap T) (s : Ref) (e : T)
    (he : Comparable.hashable e = false) : Set.Contains h s e = none := by
  unfold Set.Contains
  cases load h s with
  | none => rfl
  | some o => simp [mapIndex, he]

theorem len_eq (h : Heap T) (i : Nat) (hi : i < h.objs.length) :
    Set.Len h (some i) = some (keysOf h i).length := by
  obtain ⟨o, ho, hr⟩ := load_range h i hi
  simp [Set.Len, ho, mapLen_eq, hr]

theorem isEmpty_eq (h : Heap T) (i : Nat) (hi : i < h.objs.length) :
    Set.IsEmpty h (some i) = some ((keysOf h i).length == 0) := by
  simp [Set.IsEmpty, len_eq h i hi]

theorem foldl_snoc (ks acc : List T) :
    ks.foldl (fun xs key => xs ++ [key]) acc = acc ++ ks := by
  induction ks generalizing acc with
  | nil => simp
  | cons k ks ih => simp [List.foldl_cons, ih]

theorem asSlice_eq (h : Heap T) (i : Nat) (hi : i < h.objs.length) :
    Set.AsSlice h (some i) = some (keysOf h i) := by
  obtain ⟨o, ho, hr⟩ := load_range h i hi
  simp [Set.AsSlice, len_eq h i hi, ho, hr, foldl_snoc]

theorem observe_eq (h : Heap T) (i : Nat) (o : Set) (ho : h.objs[i]? = some o) :
    observe h (some i) = some (o, keysOf h i) := by
  have hl : load h (some i) = some o := ho
  simp [observe, hl, keysOf_of_obj h i o ho]

theorem selfEqual_iff (h : Heap T) (i : Nat) (hi : i < h.objs.length) :
    SelfEqual h (some i) ↔ ∀ k ∈ keysOf h i, Comparable.selfEq k = true := by
  unfold SelfEqual
  rw [asSlice_eq h i hi]
  constructor
  · intro hall k hk
    exact hall _ rfl k hk
  · intro hall l hl k hk
    rw [← Option.some.inj hl] at hk
    exact hall k hk

theorem containsAll_loop_eq (h : Heap T) (i : Nat) (hi : i < h.objs.length) (ks : List T)
    (hks : ∀ k ∈ ks, Comparable.hashable k = true) :
    Set.ContainsAll.loop h (some i) ks = some (ks.all (fun k => keyFound k (keysOf h i))) := by
  induction ks with
  | nil => rfl
  | cons k ks ih =>
    have hk := hks k (List.mem_cons_self k ks)
    have ih1 := ih (fun x hx => hks x (List.mem_cons_of_mem k hx))
    cases hf : keyFound k (keysOf h i) <;>
      simp [Set.ContainsAll.loop, contains_eq h i hi k hk, hf, ih1]

theorem containsAll_eq (h : Heap T) (i j : Nat) (hi : i < h.objs.length)
    (hj : j < h.objs.length) :
    Set.ContainsAll h (some i) (some j) =
      some ((keysOf h j).all (fun k => keyFound k (keysOf h i))) := by
  obtain ⟨o, ho, hr⟩ := load_range h j hj
  simp only [Set.ContainsAll, ho, Option.bind_eq_bind, Option.some_bind, hr]
  exact containsAll_loop_eq h i hi (keysOf h j) (keysOf_hashable h j)

/-! ## Writes through one object -/

theorem updates_refl (h : Heap T) (i : Nat) : Updates h h i (keysOf h i) :=
  ⟨rfl, rfl, fun _ _ => rfl, Nat.le_refl _, fun _ _ _ => rfl, fun _ ht => ht,
    fun hn => Or.inl hn⟩

theorem updates_obj_ne (h hh : Heap T) (i t : Nat) (ks : List T) (u : Updates h hh i ks)
    (ht : t < h.tables.length) (hne : h.objs[i]? ≠ some ⟨some t⟩) :
    hh.objs[i]? ≠ some ⟨some t⟩ := by
  intro hcon
  have hi : i < h.objs.length := by
    rw [← u.1]
    exact lt_of_obj hh i _ hcon
  obtain ⟨o, ho⟩ := exists_obj h i hi
  rcases o with ⟨_ | t1⟩
  · rcases u.2.2.2.2.2.2 ho with hn | ⟨t2, ht2, hs⟩
    · rw [hn] at hcon
      exact absurd hcon (by simp)
    · rw [hs] at hcon
      have : t2 = t := by simpa using hcon
      omega
  · have := u.2.2.2.2.2.1 t1 ho
    rw [this] at hcon
    have h1 : t1 = t := by simpa using hcon
    rw [h1] at ho
    exact hne ho

theorem updates_trans (h h1 h2 : Heap T) (i : Nat) (k1 k2 : List T)
    (u1 : Updates h h1 i k1) (u2 : Updates h1 h2 i k2) : Updates h h2 i k2 := by
  refine ⟨u2.1.trans u1.1, u2.2.1, fun j hj => (u2.2.2.1 j hj).trans (u1.2.2.1 j hj),
    Nat.le_trans u1.2.2.2.1 u2.2.2.2.1, ?_, ?_, ?_⟩
  · intro t ht hne
    have ht1 : t < h1.tables.length := Nat.lt_of_lt_of_le ht u1.2.2.2.1
    rw [u2.2.2.2.2.1 t ht1 (updates_obj_ne h h1 i t k1 u1 ht hne)]
    exact u1.2.2.2.2.1 t ht hne
  · intro t ho
    exact u2.2.2.2.2.2.1 t (u1.2.2.2.2.2.1 t ho)
  · intro hn
    rcases u1.2.2.2.2.2.2 hn with hn1 | ⟨t, ht, hs⟩
    · rcases u2.2.2.2.2.2.2 hn1 with hn2 | ⟨t, ht, hs⟩
      · exact Or.inl hn2
      · exact Or.inr ⟨t, Nat.le_trans u1.2.2.2.1 ht, hs⟩
    · exact Or.inr ⟨t, ht, u2.2.2.2.2.2.1 t hs⟩

theorem updates_setTable (h : Heap T) (i t : Nat) (m : GoMap T)
    (ho : h.objs[i]? = some ⟨some t⟩) : Updates h (h.setTable t m) i m.keys := by
  have ht := (table_of_obj h i t ho).1
  refine ⟨rfl, ?_, fun _ _ => rfl, ?_, ?_, fun _ hx => hx, ?_⟩
  · have ho1 : (h.setTable t m).objs[i]? = some ⟨some t⟩ := ho
    rw [keysOf_of_obj _ i _ ho1]
    apply mapRange_table
    show (h.tables.set t m)[t]? = some m
    exact List.getElem?_set_self ht
  · show h.tables.length ≤ (h.tables.set t m).length
    rw [List.length_set]
  · intro u _ hne
    have hut : t ≠ u := by
      intro hc
      rw [hc] at ho
      exact hne ho
    show (h.tables.set t m)[u]? = h.tables[u]?
    exact List.getElem?_set_ne hut
  · intro hn
    rw [hn] at ho
    exact absurd ho (by simp)

theorem add_table (h : Heap T) (i t : Nat) (tbl : GoMap T) (e : T)
    (he : Comparable.hashable e = true)
    (ho : h.objs[i]? = some ⟨some t⟩) (ht : h.tables[t]? = some tbl) :
    Set.Add h (some i) e = some (h.setTable t (tbl.assign e he)) := by
  have hl : load h (some i) = some ⟨some t⟩ := ho
  simp [Set.Add, hl, mapAssign, ht, he]

theorem remove_table (h : Heap T) (i t : Nat) (tbl : GoMap T) (e : T)
    (he : Comparable.hashable e = true)
    (ho : h.objs[i]? = some ⟨some t⟩) (ht : h.tables[t]? = some tbl) :
    Set.Remove h (some i) e = some (h.setTable t (tbl.delete e)) := by
  have hl : load h (some i) = some ⟨some t⟩ := ho
  simp [Set.Remove, hl, mapDelete, ht, he]

theorem remove_nil (h : Heap T) (i : Nat) (e : T) (he : Comparable.hashable e = true)
    (ho : h.objs[i]? = some ⟨none⟩) : Set.Remove h (some i) e = some h := by
  have hl : load h (some i) = some ⟨none⟩ := ho
  simp [Set.Remove, hl, mapDelete, he]

/-- The heap after `Add` on an object whose map is nil: the object holds a new
table, whose one key is the element. -/
theorem add_nil (h : Heap T) (i : Nat) (e : T) (he : Comparable.hashable e = true)
    (ho : h.objs[i]? = some ⟨none⟩) :
    ∃ hh, Set.Add h (some i) e = some hh ∧
      hh.objs = h.objs.set i ⟨some h.tables.length⟩ ∧
      hh.tables = h.tables ++ [GoMap.make.assign e he] := by
  have hl : load h (some i) = some ⟨none⟩ := ho
  have hi : i < h.objs.length := lt_of_obj h i _ ho
  refine ⟨⟨h.objs.set i ⟨some h.tables.length⟩, h.tables ++ [GoMap.make.assign e he], ?_⟩,
    ?_, rfl, rfl⟩
  · intro o hmem u hu
    rw [List.length_append, List.length_singleton]
    rcases List.mem_or_eq_of_mem_set hmem with hmem | rfl
    · exact Nat.lt_succ_of_lt (h.valid o hmem u hu)
    · cases hu
      exact Nat.lt_succ_self _
  · simp only [Set.Add, hl, storeMake, hi, Option.bind_eq_bind, Option.some_bind,
      Option.isNone_none, if_true]
    simp [load, mapAssign, he, Heap.setTable, hi]

theorem add_updates (h : Heap T) (i : Nat) (hi : i < h.objs.length) (e : T)
    (he : Comparable.hashable e = true) :
    ∃ hh, Set.Add h (some i) e = some hh ∧ Updates h hh i (keyInsert e (keysOf h i)) := by
  obtain ⟨o, ho⟩ := exists_obj h i hi
  rcases o with ⟨_ | t⟩
  · obtain ⟨hh, e1, eo, et⟩ := add_nil h i e he ho
    have hoi : hh.objs[i]? = some ⟨some h.tables.length⟩ := by
      rw [eo]
      exact List.getElem?_set_self hi
    have hti : hh.tables[h.tables.length]? = some (GoMap.make.assign e he) := by
      rw [et]
      simp
    have hk : keysOf h i = [] := by
      rw [keysOf_of_obj h i _ ho]
      rfl
    refine ⟨hh, e1, ?_, ?_, ?_, ?_, ?_, ?_, ?_⟩
    · rw [eo, List.length_set]
    · rw [keysOf_of_obj hh i _ hoi, mapRange_table hh _ _ hti, hk]
      rfl
    · intro j hj
      rw [eo]
      exact List.getElem?_set_ne (Ne.symm hj)
    · rw [et, List.length_append]
      exact Nat.le_add_right _ _
    · intro u hu _
      rw [et]
      exact List.getElem?_append_left hu
    · intro u hu
      rw [ho] at hu
      exact absurd hu (by simp)
    · intro _
      exact Or.inr ⟨h.tables.length, Nat.le_refl _, hoi⟩
  · obtain ⟨_, tbl, htb⟩ := table_of_obj h i t ho
    refine ⟨_, add_table h i t tbl e he ho htb, ?_⟩
    have := updates_setTable h i t (tbl.assign e he) ho
    rw [keysOf_of_obj h i _ ho, mapRange_table h t tbl htb]
    exact this

theorem remove_updates (h : Heap T) (i : Nat) (hi : i < h.objs.length) (e : T)
    (he : Comparable.hashable e = true) :
    ∃ hh, Set.Remove h (some i) e = some hh ∧ Updates h hh i (keyDelete e (keysOf h i)) := by
  obtain ⟨o, ho⟩ := exists_obj h i hi
  rcases o with ⟨_ | t⟩
  · refine ⟨h, remove_nil h i e he ho, ?_⟩
    have hk : keysOf h i = [] := by
      rw [keysOf_of_obj h i _ ho]
      rfl
    have hd : keyDelete e (keysOf h i) = keysOf h i := by
      rw [hk]
      unfold keyDelete
      split <;> simp
    rw [hd]
    exact updates_refl h i
  · obtain ⟨_, tbl, htb⟩ := table_of_obj h i t ho
    refine ⟨_, remove_table h i t tbl e he ho htb, ?_⟩
    have := updates_setTable h i t (tbl.delete e) ho
    rw [keysOf_of_obj h i _ ho, mapRange_table h t tbl htb]
    exact this

/-! ## Keys that are equal to themselves and keys that are not -/

theorem mem_proper (e : T) (l : List T) :
    e ∈ proper l ↔ (e ∈ l ∧ Comparable.selfEq e = true) := by
  simp [proper, List.mem_filter]

theorem keyFound_iff (k : T) (l : List T) : keyFound k l = true ↔ k ∈ proper l := by
  rw [keyFound_true, mem_proper]

theorem keyFound_decide (k : T) (l : List T) : keyFound k l = decide (k ∈ proper l) := by
  rw [Bool.eq_iff_iff, keyFound_iff]
  simp

theorem length_proper_add_nans (l : List T) :
    (proper l).length + (nans l).length = l.length := by
  induction l with
  | nil => rfl
  | cons a l ih =>
    by_cases ha : Comparable.selfEq a = true
    · simp only [proper, nans, List.filter_cons, ha, if_true, Bool.not_true, Bool.false_eq_true,
        if_false, List.length_cons] at ih ⊢
      omega
    · have hf : Comparable.selfEq a = false := by simpa using ha
      simp only [proper, nans, List.filter_cons, hf, Bool.false_eq_true, if_false, Bool.not_false,
        if_true, List.length_cons] at ih ⊢
      omega

theorem proper_eq_self (l : List T) (hl : ∀ k ∈ l, Comparable.selfEq k = true) :
    proper l = l :=
  List.filter_eq_self.mpr hl

theorem nans_eq_nil (l : List T) (hl : ∀ k ∈ l, Comparable.selfEq k = true) :
    nans l = [] := by
  unfold nans
  rw [List.filter_eq_nil_iff]
  intro k hk
  simp [hl k hk]

theorem filter_erase_pos (p : T → Bool) (k : T) (hk : p k = true) (l : List T) :
    (l.erase k).filter p = (l.filter p).erase k := by
  induction l with
  | nil => rfl
  | cons a l ih =>
    by_cases hak : a = k
    · subst hak
      simp [List.filter_cons, hk]
    · have hne : (a == k) = false := by simpa using hak
      rw [List.erase_cons_tail (by simpa using hak)]
      by_cases hp : p a = true
      · rw [List.filter_cons_of_pos hp, List.filter_cons_of_pos hp,
          List.erase_cons_tail (by simpa using hak), ih]
      · rw [List.filter_cons_of_neg hp, List.filter_cons_of_neg hp, ih]

theorem filter_erase_neg (p : T → Bool) (k : T) (hk : p k = false) (l : List T) :
    (l.erase k).filter p = l.filter p := by
  induction l with
  | nil => rfl
  | cons a l ih =>
    by_cases hak : a = k
    · subst hak
      simp [List.filter_cons, hk]
    · rw [List.erase_cons_tail (by simpa using hak)]
      by_cases hp : p a = true
      · rw [List.filter_cons_of_pos hp, List.filter_cons_of_pos hp, ih]
      · rw [List.filter_cons_of_neg hp, List.filter_cons_of_neg hp, ih]

theorem proper_keyInsert (k : T) (l : List T) :
    proper (keyInsert k l) =
      if Comparable.selfEq k = true then (proper l).insert k else proper l := by
  unfold keyInsert
  by_cases hs : Comparable.selfEq k = true
  · by_cases hk : k ∈ l
    · have hp : k ∈ proper l := (mem_proper k l).mpr ⟨hk, hs⟩
      simp [hs, hk, List.insert_of_mem hp]
    · have hp : k ∉ proper l := fun hc => hk ((mem_proper k l).mp hc).1
      simp [hs, hk, List.insert_of_not_mem hp, proper, List.filter_cons]
  · simp [hs, proper, List.filter_cons]

theorem nans_keyInsert (k : T) (l : List T) :
    nans (keyInsert k l) = if Comparable.selfEq k = true then nans l else k :: nans l := by
  unfold keyInsert
  by_cases hs : Comparable.selfEq k = true
  · by_cases hk : k ∈ l <;> simp [hs, hk, nans, List.filter_cons]
  · simp [hs, nans, List.filter_cons]

theorem proper_keyDelete (k : T) (l : List T) :
    proper (keyDelete k l) =
      if Comparable.selfEq k = true then (proper l).erase k else proper l := by
  unfold keyDelete
  by_cases hs : Comparable.selfEq k = true
  · simp only [hs, if_true]
    exact filter_erase_pos _ k hs l
  · simp [hs]

theorem nans_keyDelete (k : T) (l : List T) : nans (keyDelete k l) = nans l := by
  unfold keyDelete
  by_cases hs : Comparable.selfEq k = true
  · simp only [hs, if_true]
    exact filter_erase_neg _ k (by simp [hs]) l
  · simp [hs]

theorem proper_cons (k : T) (ks : List T) :
    proper (k :: ks) = if Comparable.selfEq k = true then k :: proper ks else proper ks := by
  simp [proper, List.filter_cons]

theorem nans_cons (k : T) (ks : List T) :
    nans (k :: ks) = if Comparable.selfEq k = true then nans ks else k :: nans ks := by
  by_cases hs : Comparable.selfEq k = true <;> simp [nans, List.filter_cons, hs]

/-! ## The loops, on keys -/

theorem mem_proper_foldl_insert (e : T) (ks l : List T) :
    e ∈ proper (ks.foldl (fun acc k => keyInsert k acc) l) ↔
      (e ∈ proper l ∨ e ∈ proper ks) := by
  induction ks generalizing l with
  | nil => simp [proper]
  | cons k ks ih =>
    rw [List.foldl_cons, ih, proper_keyInsert]
    by_cases hs : Comparable.selfEq k = true
    · simp only [hs, if_true, List.mem_insert_iff, mem_proper, List.mem_cons]
      constructor
      · rintro ((rfl | h1) | h2)
        · exact Or.inr ⟨Or.inl rfl, hs⟩
        · exact Or.inl h1
        · exact Or.inr ⟨Or.inr h2.1, h2.2⟩
      · rintro (h1 | ⟨rfl | h2, h3⟩)
        · exact Or.inl (Or.inr h1)
        · exact Or.inl (Or.inl rfl)
        · exact Or.inr ⟨h2, h3⟩
    · rw [if_neg hs]
      simp only [mem_proper, List.mem_cons]
      constructor
      · rintro (h1 | h2)
        · exact Or.inl h1
        · exact Or.inr ⟨Or.inr h2.1, h2.2⟩
      · rintro (h1 | ⟨rfl | h2, h3⟩)
        · exact Or.inl h1
        · exact absurd h3 hs
        · exact Or.inr ⟨h2, h3⟩

theorem nans_foldl_insert (ks l : List T) :
    (nans (ks.foldl (fun acc k => keyInsert k acc) l)).length =
      (nans l).length + (nans ks).length := by
  induction ks generalizing l with
  | nil => simp [nans]
  | cons k ks ih =>
    rw [List.foldl_cons, ih, nans_keyInsert, nans_cons]
    by_cases hs : Comparable.selfEq k = true
    · rw [if_pos hs, if_pos hs]
    · rw [if_neg hs, if_neg hs]
      simp only [List.length_cons]
      omega

theorem mem_proper_foldl_delete (e : T) (ks l : List T) (hl : (proper l).Nodup) :
    e ∈ proper (ks.foldl (fun acc k => keyDelete k acc) l) ↔
      (e ∈ proper l ∧ e ∉ proper ks) := by
  induction ks generalizing l with
  | nil => simp [proper]
  | cons k ks ih =>
    have hl1 : (proper (keyDelete k l)).Nodup := by
      rw [proper_keyDelete]
      split
      · exact hl.erase k
      · exact hl
    rw [List.foldl_cons, ih _ hl1, proper_keyDelete]
    by_cases hs : Comparable.selfEq k = true
    · simp only [hs, if_true, hl.mem_erase_iff, mem_proper, List.mem_cons]
      constructor
      · rintro ⟨⟨hne, h1⟩, h2⟩
        refine ⟨h1, ?_⟩
        rintro ⟨rfl | h3, h4⟩
        · exact hne rfl
        · exact h2 ⟨h3, h4⟩
      · rintro ⟨h1, h2⟩
        refine ⟨⟨?_, h1⟩, fun h3 => h2 ⟨Or.inr h3.1, h3.2⟩⟩
        rintro rfl
        exact h2 ⟨Or.inl rfl, hs⟩
    · rw [if_neg hs]
      simp only [mem_proper, List.mem_cons]
      constructor
      · rintro ⟨h1, h2⟩
        refine ⟨h1, ?_⟩
        rintro ⟨rfl | h3, h4⟩
        · exact hs h4
        · exact h2 ⟨h3, h4⟩
      · rintro ⟨h1, h2⟩
        exact ⟨h1, fun h3 => h2 ⟨Or.inr h3.1, h3.2⟩⟩

theorem nans_foldl_delete (ks l : List T) :
    nans (ks.foldl (fun acc k => keyDelete k acc) l) = nans l := by
  induction ks generalizing l with
  | nil => rfl
  | cons k ks ih => rw [List.foldl_cons, ih, nans_keyDelete]

/-- The pure form of the loop body of `SymmetricDifference`. -/
theorem mem_proper_foldl_toggle (e : T) (ks l : List T) (hl : (proper l).Nodup)
    (hks : (proper ks).Nodup) :
    e ∈ proper (ks.foldl
        (fun acc k => if keyFound k acc = true then keyDelete k acc else keyInsert k acc) l) ↔
      ((e ∈ proper l ∧ e ∉ proper ks) ∨ (e ∉ proper l ∧ e ∈ proper ks)) := by
  induction ks generalizing l with
  | nil => simp [proper]
  | cons k ks ih =>
    rw [List.foldl_cons]
    by_cases hs : Comparable.selfEq k = true
    · rw [proper_cons, if_pos hs] at hks ⊢
      have hk : k ∉ proper ks := (List.nodup_cons.mp hks).1
      have hks1 : (proper ks).Nodup := (List.nodup_cons.mp hks).2
      by_cases hkl : k ∈ proper l
      · have hf : keyFound k l = true := (keyFound_iff k l).mpr hkl
        have hl1 : (proper (keyDelete k l)).Nodup := by
          rw [proper_keyDelete, if_pos hs]
          exact hl.erase k
        rw [if_pos hf, ih _ hl1 hks1, proper_keyDelete, if_pos hs, hl.mem_erase_iff,
          List.mem_cons]
        by_cases hek : e = k
        · subst hek; tauto
        · tauto
      · have hf : ¬ keyFound k l = true := fun hc => hkl ((keyFound_iff k l).mp hc)
        have hl1 : (proper (keyInsert k l)).Nodup := by
          rw [proper_keyInsert, if_pos hs]
          exact hl.insert
        rw [if_neg hf, ih _ hl1 hks1, proper_keyInsert, if_pos hs, List.mem_insert_iff,
          List.mem_cons]
        by_cases hek : e = k
        · subst hek; tauto
        · tauto
    · rw [proper_cons, if_neg hs] at hks ⊢
      have hf : ¬ keyFound k l = true := fun hc => hs ((keyFound_true k l).mp hc).2
      have hl1 : (proper (keyInsert k l)).Nodup := by
        rw [proper_keyInsert, if_neg hs]
        exact hl
      rw [if_neg hf, ih _ hl1 hks, proper_keyInsert, if_neg hs]

theorem nans_foldl_toggle (ks l : List T) :
    (nans (ks.foldl
        (fun acc k => if keyFound k acc = true then keyDelete k acc else keyInsert k acc)
        l)).length = (nans l).length + (nans ks).length := by
  induction ks generalizing l with
  | nil => simp [nans]
  | cons k ks ih =>
    rw [List.foldl_cons, ih, nans_cons]
    by_cases hs : Comparable.selfEq k = true
    · by_cases hf : keyFound k l = true
      · rw [if_pos hf, nans_keyDelete, if_pos hs]
      · rw [if_neg hf, nans_keyInsert, if_pos hs, if_pos hs]
    · have hf : ¬ keyFound k l = true := fun hc => hs ((keyFound_true k l).mp hc).2
      rw [if_neg hf, nans_keyInsert, if_neg hs, if_neg hs]
      simp only [List.length_cons]
      omega

theorem mem_proper_foldl_filter (p : T → Bool) (e : T) (ks l : List T) :
    e ∈ proper (ks.foldl (fun acc k => if p k = true then keyInsert k acc else acc) l) ↔
      (e ∈ proper l ∨ (e ∈ proper ks ∧ p e = true)) := by
  induction ks generalizing l with
  | nil => simp [proper]
  | cons k ks ih =>
    rw [List.foldl_cons, ih]
    by_cases hp : p k = true
    · rw [if_pos hp, proper_keyInsert]
      by_cases hs : Comparable.selfEq k = true
      · simp only [hs, if_true, List.mem_insert_iff, mem_proper, List.mem_cons]
        constructor
        · rintro ((rfl | h1) | h2)
          · exact Or.inr ⟨⟨Or.inl rfl, hs⟩, hp⟩
          · exact Or.inl h1
          · exact Or.inr ⟨⟨Or.inr h2.1.1, h2.1.2⟩, h2.2⟩
        · rintro (h1 | ⟨⟨rfl | h2, h3⟩, h4⟩)
          · exact Or.inl (Or.inr h1)
          · exact Or.inl (Or.inl rfl)
          · exact Or.inr ⟨⟨h2, h3⟩, h4⟩
      · rw [if_neg hs]
        simp only [mem_proper, List.mem_cons]
        constructor
        · rintro (h1 | h2)
          · exact Or.inl h1
          · exact Or.inr ⟨⟨Or.inr h2.1.1, h2.1.2⟩, h2.2⟩
        · rintro (h1 | ⟨⟨rfl | h2, h3⟩, h4⟩)
          · exact Or.inl h1
          · exact absurd h3 hs
          · exact Or.inr ⟨⟨h2, h3⟩, h4⟩
    · rw [if_neg hp]
      simp only [mem_proper, List.mem_cons]
      constructor
      · rintro (h1 | h2)
        · exact Or.inl h1
        · exact Or.inr ⟨⟨Or.inr h2.1.1, h2.1.2⟩, h2.2⟩
      · rintro (h1 | ⟨⟨rfl | h2, h3⟩, h4⟩)
        · exact Or.inl h1
        · exact absurd h4 hp
        · exact Or.inr ⟨⟨h2, h3⟩, h4⟩

theorem nans_foldl_filter (p : T → Bool) (hp : ∀ k, p k = true → Comparable.selfEq k = true)
    (ks l : List T) :
    nans (ks.foldl (fun acc k => if p k = true then keyInsert k acc else acc) l) = nans l := by
  induction ks generalizing l with
  | nil => rfl
  | cons k ks ih =>
    rw [List.foldl_cons, ih]
    by_cases hk : p k = true
    · rw [if_pos hk, nans_keyInsert, if_pos (hp k hk)]
    · rw [if_neg hk]

/-! ## What a write through one object leaves alone -/

theorem updates_lt (h hh : Heap T) (i j : Nat) (ks : List T) (u : Updates h hh i ks)
    (hj : j < h.objs.length) : j < hh.objs.length := by
  rw [u.1]; exact hj

theorem mapRange_congr (h hh : Heap T) (t : Nat) (e : hh.tables[t]? = h.tables[t]?) :
    mapRange hh (some t) = mapRange h (some t) := by
  simp [mapRange, e]

theorem updates_other (h hh : Heap T) (i j : Nat) (ks : List T) (u : Updates h hh i ks)
    (hj : j ≠ i) (hns : ¬ Shares h i j) :
    hh.objs[j]? = h.objs[j]? ∧ keysOf hh j = keysOf h j := by
  have ho := u.2.2.1 j hj
  refine ⟨ho, ?_⟩
  cases hoj : h.objs[j]? with
  | none => simp [keysOf, ho, hoj]
  | some o =>
    rw [keysOf_of_obj h j o hoj, keysOf_of_obj hh j o (ho.trans hoj)]
    rcases o with ⟨_ | t⟩
    · rfl
    · have ht := (table_of_obj h j t hoj).1
      have hne : h.objs[i]? ≠ some ⟨some t⟩ := fun hc => hns ⟨t, hc, hoj⟩
      exact mapRange_congr h hh t (u.2.2.2.2.1 t ht hne)

theorem updates_observe (h hh : Heap T) (i j : Nat) (ks : List T) (u : Updates h hh i ks)
    (hj : j ≠ i) (hns : ¬ Shares h i j) :
    observe hh (some j) = observe h (some j) := by
  obtain ⟨ho, hk⟩ := updates_other h hh i j ks u hj hns
  cases hoj : h.objs[j]? with
  | none =>
    have h1 : load h (some j) = none := hoj
    have h2 : load hh (some j) = none := ho.trans hoj
    simp [observe, h1, h2]
  | some o => rw [observe_eq h j o hoj, observe_eq hh j o (ho.trans hoj), hk]

theorem updates_shares (h hh : Heap T) (i j : Nat) (ks : List T) (u : Updates h hh i ks)
    (hs : Shares h i j) : keysOf hh j = ks := by
  obtain ⟨t, hi, hj⟩ := hs
  have hi1 : hh.objs[i]? = some ⟨some t⟩ := u.2.2.2.2.2.1 t hi
  by_cases hji : j = i
  · subst hji
    exact u.2.1
  · have hj1 : hh.objs[j]? = some ⟨some t⟩ := (u.2.2.1 j hji).trans hj
    rw [keysOf_of_obj hh j _ hj1, ← keysOf_of_obj hh i _ hi1]
    exact u.2.1

/-! ## Loops that write through one object -/

/-- A loop whose body rewrites the keys of object `i` by `g`, on every heap
reached from `h0` by writes through `i`, rewrites them by the fold of `g`. -/
theorem foldlM_updates (i : Nat) (f : Heap T → T → Option (Heap T))
    (g : List T → T → List T) (P : T → Prop) (h0 : Heap T)
    (hf : ∀ hh k, P k → i < hh.objs.length → (∃ k0, Updates h0 hh i k0) →
      ∃ h1, f hh k = some h1 ∧ Updates hh h1 i (g (keysOf hh i) k)) :
    ∀ (ks : List T) (h : Heap T), (∀ k ∈ ks, P k) → i < h.objs.length →
      (∃ k0, Updates h0 h i k0) →
      ∃ h1, ks.foldlM f h = some h1 ∧ Updates h h1 i (ks.foldl g (keysOf h i)) := by
  intro ks
  induction ks with
  | nil =>
    intro h _ _ _
    exact ⟨h, rfl, updates_refl h i⟩
  | cons k ks ih =>
    intro h hP hi hframe
    obtain ⟨h1, e1, u1⟩ := hf h k (hP k (List.mem_cons_self k ks)) hi hframe
    have hi1 : i < h1.objs.length := updates_lt h h1 i i _ u1 hi
    obtain ⟨k0, u0⟩ := hframe
    have hframe1 : ∃ k1, Updates h0 h1 i k1 := ⟨_, updates_trans h0 h h1 i _ _ u0 u1⟩
    obtain ⟨h2, e2, u2⟩ := ih h1 (fun x hx => hP x (List.mem_cons_of_mem k hx)) hi1 hframe1
    refine ⟨h2, ?_, ?_⟩
    · simp [List.foldlM_cons, e1, e2]
    · have := updates_trans h h1 h2 i _ _ u1 u2
      simpa [List.foldl_cons, u1.2.1] using this

theorem addLoop_updates (h : Heap T) (s : Nat) (hs : s < h.objs.length) (ks : List T)
    (hks : ∀ k ∈ ks, Comparable.hashable k = true) :
    ∃ hh, ks.foldlM (fun hh key => Set.Add hh (some s) key) h = some hh ∧
      Updates h hh s (ks.foldl (fun acc k => keyInsert k acc) (keysOf h s)) :=
  foldlM_updates s (fun hh key => Set.Add hh (some s) key)
    (fun acc k => keyInsert k acc) (fun k => Comparable.hashable k = true) h
    (fun hh k hk hi _ => add_updates hh s hi k hk) ks h hks hs ⟨_, updates_refl h s⟩

theorem addAll_updates (h : Heap T) (s a : Nat) (hs : s < h.objs.length)
    (ha : a < h.objs.length) :
    ∃ hh, Set.AddAll h (some s) (some a) = some hh ∧
      Updates h hh s ((keysOf h a).foldl (fun acc k => keyInsert k acc) (keysOf h s)) := by
  obtain ⟨o, ho, hr⟩ := load_range h a ha
  have := addLoop_updates h s hs (keysOf h a) (keysOf_hashable h a)
  simpa [Set.AddAll, ho, hr] using this

theorem removeLoop_updates (h : Heap T) (s : Nat) (hs : s < h.objs.length) (ks : List T)
    (hks : ∀ k ∈ ks, Comparable.hashable k = true) :
    ∃ hh, ks.foldlM (fun hh key => Set.Remove hh (some s) key) h = some hh ∧
      Updates h hh s (ks.foldl (fun acc k => keyDelete k acc) (keysOf h s)) :=
  foldlM_updates s (fun hh key => Set.Remove hh (some s) key)
    (fun acc k => keyDelete k acc) (fun k => Comparable.hashable k = true) h
    (fun hh k hk hi _ => remove_updates hh s hi k hk) ks h hks hs ⟨_, updates_refl h s⟩

theorem removeAll_updates (h : Heap T) (s a : Nat) (hs : s < h.objs.length)
    (ha : a < h.objs.length) :
    ∃ hh, Set.RemoveAll h (some s) (some a) = some hh ∧
      Updates h hh s ((keysOf h a).foldl (fun acc k => keyDelete k acc) (keysOf h s)) := by
  obtain ⟨o, ho, hr⟩ := load_range h a ha
  have := removeLoop_updates h s hs (keysOf h a) (keysOf_hashable h a)
  simpa [Set.RemoveAll, ho, hr] using this

theorem symStep_updates (h : Heap T) (s : Nat) (hs : s < h.objs.length) (k : T)
    (hk : Comparable.hashable k = true) :
    ∃ hh, SymmetricDifference.step (some s) h k = some hh ∧
      Updates h hh s
        (if keyFound k (keysOf h s) = true then keyDelete k (keysOf h s)
          else keyInsert k (keysOf h s)) := by
  by_cases hf : keyFound k (keysOf h s) = true
  · simpa [SymmetricDifference.step, contains_eq h s hs k hk, hf]
      using remove_updates h s hs k hk
  · simpa [SymmetricDifference.step, contains_eq h s hs k hk, hf]
      using add_updates h s hs k hk

theorem symLoop_updates (h : Heap T) (s : Nat) (hs : s < h.objs.length) (ks : List T)
    (hks : ∀ k ∈ ks, Comparable.hashable k = true) :
    ∃ hh, ks.foldlM (SymmetricDifference.step (some s)) h = some hh ∧
      Updates h hh s
        (ks.foldl (fun acc k => if keyFound k acc = true then keyDelete k acc
          else keyInsert k acc) (keysOf h s)) :=
  foldlM_updates s (SymmetricDifference.step (some s))
    (fun acc k => if keyFound k acc = true then keyDelete k acc else keyInsert k acc)
    (fun k => Comparable.hashable k = true) h
    (fun hh k hk hi _ => symStep_updates hh s hi k hk) ks h hks hs ⟨_, updates_refl h s⟩

theorem interLoop_updates (h : Heap T) (s b : Nat) (hs : s < h.objs.length)
    (hb : b < h.objs.length) (hne : b ≠ s) (hns : ¬ Shares h s b) (ks : List T)
    (hks : ∀ k ∈ ks, Comparable.hashable k = true) :
    ∃ hh, ks.foldlM (Intersection.step (some s) (some b)) h = some hh ∧
      Updates h hh s
        (ks.foldl (fun acc k => if keyFound k (keysOf h b) = true then keyInsert k acc
          else acc) (keysOf h s)) := by
  refine foldlM_updates s (Intersection.step (some s) (some b))
    (fun acc k => if keyFound k (keysOf h b) = true then keyInsert k acc else acc)
    (fun k => Comparable.hashable k = true) h ?_ ks h hks hs ⟨_, updates_refl h s⟩
  intro hh k hk hi hframe
  obtain ⟨k0, u0⟩ := hframe
  have hbb : b < hh.objs.length := updates_lt h hh s b _ u0 hb
  have hkeys : keysOf hh b = keysOf h b := (updates_other h hh s b _ u0 hne hns).2
  by_cases hf : keyFound k (keysOf h b) = true
  · simpa [Intersection.step, contains_eq hh b hbb k hk, hkeys, hf]
      using add_updates hh s hi k hk
  · simpa [Intersection.step, contains_eq hh b hbb k hk, hkeys, hf] using updates_refl hh s

/-! ## The fresh object of `New` -/

theorem new_objs (h : Heap T) : (New h).1.objs = h.objs ++ [⟨some h.tables.length⟩] := rfl

theorem new_tables (h : Heap T) : (New h).1.tables = h.tables ++ [GoMap.make] := rfl

theorem new_ref (h : Heap T) : (New h).2 = some h.objs.length := rfl

theorem new_length (h : Heap T) : (New h).1.objs.length = h.objs.length + 1 := by
  simp [new_objs]

theorem new_old (h : Heap T) (j : Nat) (hj : j < h.objs.length) :
    (New h).1.objs[j]? = h.objs[j]? := by
  rw [new_objs]
  exact List.getElem?_append_left hj

theorem new_obj (h : Heap T) : (New h).1.objs[h.objs.length]? = some ⟨some h.tables.length⟩ := by
  rw [new_objs]
  simp

theorem new_keys (h : Heap T) : keysOf (New h).1 h.objs.length = ([] : List T) := by
  rw [keysOf_of_obj _ _ _ (new_obj h)]
  have : (New h).1.tables[h.tables.length]? = some (GoMap.make : GoMap T) := by
    rw [new_tables]
    simp
  rw [mapRange_table _ _ _ this]
  rfl

theorem new_keys_old (h : Heap T) (j : Nat) (hj : j < h.objs.length) :
    keysOf (New h).1 j = keysOf h j := by
  obtain ⟨o, ho⟩ := exists_obj h j hj
  rw [keysOf_of_obj h j o ho, keysOf_of_obj _ j o ((new_old h j hj).trans ho)]
  rcases o with ⟨_ | t⟩
  · rfl
  · have ht := (table_of_obj h j t ho).1
    apply mapRange_congr
    rw [new_tables]
    exact List.getElem?_append_left ht

theorem new_not_shares (h : Heap T) (j : Nat) (hj : j < h.objs.length) :
    ¬ Shares (New h).1 h.objs.length j := by
  rintro ⟨t, h1, h2⟩
  have e1 : (New h).1.objs[h.objs.length]? = some ⟨some t⟩ := h1
  rw [new_obj] at e1
  have e2 : (New h).1.objs[j]? = some ⟨some t⟩ := h2
  rw [new_old h j hj] at e2
  have ht := (table_of_obj h j t e2).1
  have : h.tables.length = t := by simpa using e1
  omega

/-- After writes through the fresh object of `New`, every older object is as
it was. -/
theorem fresh_frame (h hh : Heap T) (ks : List T)
    (u : Updates (New h).1 hh h.objs.length ks) (j : Nat) (hj : j < h.objs.length) :
    hh.objs[j]? = h.objs[j]? ∧ keysOf hh j = keysOf h j ∧
      observe hh (some j) = observe h (some j) := by
  have hne : j ≠ h.objs.length := Nat.ne_of_lt hj
  obtain ⟨ho, hk⟩ := updates_other _ hh _ j ks u hne (new_not_shares h j hj)
  have ho1 : hh.objs[j]? = h.objs[j]? := ho.trans (new_old h j hj)
  have hk1 : keysOf hh j = keysOf h j := hk.trans (new_keys_old h j hj)
  refine ⟨ho1, hk1, ?_⟩
  obtain ⟨o, hoj⟩ := exists_obj h j hj
  rw [observe_eq h j o hoj, observe_eq hh j o (ho1.trans hoj), hk1]

/-! ## The keys of the sets built by the set algebra -/

theorem new_addAll (h : Heap T) (a : Nat) (ha : a < h.objs.length) :
    ∃ h2, Set.AddAll (New h).1 (some h.objs.length) (some a) = some h2 ∧
      Updates (New h).1 h2 h.objs.length
        ((keysOf h a).foldl (fun acc k => keyInsert k acc) []) := by
  have hs1 : h.objs.length < (New h).1.objs.length := by
    rw [new_length]; exact Nat.lt_succ_self _
  have ha1 : a < (New h).1.objs.length := by rw [new_length]; exact Nat.lt_succ_of_lt ha
  have := addAll_updates (New h).1 h.objs.length a hs1 ha1
  rw [new_keys, new_keys_old h a ha] at this
  exact this

theorem fresh_lt (h hh : Heap T) (ks : List T)
    (u : Updates (New h).1 hh h.objs.length ks) : h.objs.length < hh.objs.length := by
  rw [u.1, new_length]
  exact Nat.lt_succ_self _

theorem difference_keys (h : Heap T) (a b : Nat)
    (ha : a < h.objs.length) (hb : b < h.objs.length) :
    ∃ hh, Difference h (some a) (some b) = some (hh, some h.objs.length) ∧
      (∃ ks, Updates (New h).1 hh h.objs.length ks) ∧
      (∀ e, e ∈ proper (keysOf hh h.objs.length) ↔
        (e ∈ proper (keysOf h a) ∧ e ∉ proper (keysOf h b))) ∧
      (nans (keysOf hh h.objs.length)).length = (nans (keysOf h a)).length := by
  obtain ⟨h2, e2, u2⟩ := new_addAll h a ha
  have hs2 : h.objs.length < h2.objs.length := fresh_lt h h2 _ u2
  have hb2 : b < h2.objs.length := Nat.lt_trans hb hs2
  obtain ⟨ob, eob, rob⟩ := load_range h2 b hb2
  have kb : keysOf h2 b = keysOf h b := (fresh_frame h h2 _ u2 b hb).2.1
  obtain ⟨h3, e3, u3⟩ := removeLoop_updates h2 h.objs.length hs2 (keysOf h b)
    (keysOf_hashable h b)
  have u := updates_trans _ h2 h3 _ _ _ u2 u3
  refine ⟨h3, ?_, ⟨_, u⟩, ?_, ?_⟩
  · have hnew : New h = ((New h).1, some h.objs.length) := rfl
    unfold Difference
    rw [hnew]
    simp [e2, eob, rob, kb, e3]
  · intro e
    rw [u3.2.1, mem_proper_foldl_delete e _ _ (keysOf_nodup h2 h.objs.length), u2.2.1,
      mem_proper_foldl_insert]
    simp [proper]
  · rw [u3.2.1, nans_foldl_delete, u2.2.1]
    have := nans_foldl_insert (keysOf h a) ([] : List T)
    simpa [nans] using this

theorem symmetricDifference_keys (h : Heap T) (a b : Nat)
    (ha : a < h.objs.length) (hb : b < h.objs.length) :
    ∃ hh, SymmetricDifference h (some a) (some b) = some (hh, some h.objs.length) ∧
      (∃ ks, Updates (New h).1 hh h.objs.length ks) ∧
      (∀ e, e ∈ proper (keysOf hh h.objs.length) ↔
        ((e ∈ proper (keysOf h a) ∧ e ∉ proper (keysOf h b)) ∨
          (e ∉ proper (keysOf h a) ∧ e ∈ proper (keysOf h b)))) ∧
      (nans (keysOf hh h.objs.length)).length =
        (nans (keysOf h a)).length + (nans (keysOf h b)).length := by
  obtain ⟨h2, e2, u2⟩ := new_addAll h a ha
  have hs2 : h.objs.length < h2.objs.length := fresh_lt h h2 _ u2
  have hb2 : b < h2.objs.length := Nat.lt_trans hb hs2
  obtain ⟨ob, eob, rob⟩ := load_range h2 b hb2
  have kb : keysOf h2 b = keysOf h b := (fresh_frame h h2 _ u2 b hb).2.1
  obtain ⟨h3, e3, u3⟩ := symLoop_updates h2 h.objs.length hs2 (keysOf h b)
    (keysOf_hashable h b)
  have u := updates_trans _ h2 h3 _ _ _ u2 u3
  have ma : ∀ e, e ∈ proper (keysOf h2 h.objs.length) ↔ e ∈ proper (keysOf h a) := by
    intro e
    rw [u2.2.1, mem_proper_foldl_insert]
    simp [proper]
  have na : (nans (keysOf h2 h.objs.length)).length = (nans (keysOf h a)).length := by
    rw [u2.2.1]
    have := nans_foldl_insert (keysOf h a) ([] : List T)
    simpa [nans] using this
  refine ⟨h3, ?_, ⟨_, u⟩, ?_, ?_⟩
  · have hnew : New h = ((New h).1, some h.objs.length) := rfl
    unfold SymmetricDifference
    rw [hnew]
    simp [e2, eob, rob, kb, e3]
  · intro e
    rw [u3.2.1, mem_proper_foldl_toggle e _ _ (keysOf_nodup h2 h.objs.length)
      (keysOf_nodup h b), ma]
  · rw [u3.2.1, nans_foldl_toggle, na]

theorem intersection_keys (h : Heap T) (a b : Nat)
    (ha : a < h.objs.length) (hb : b < h.objs.length) :
    ∃ hh, Intersection h (some a) (some b) = some (hh, some h.objs.length) ∧
      (∃ ks, Updates (New h).1 hh h.objs.length ks) ∧
      (∀ e, e ∈ proper (keysOf hh h.objs.length) ↔
        (e ∈ proper (keysOf h a) ∧ e ∈ proper (keysOf h b))) ∧
      nans (keysOf hh h.objs.length) = [] := by
  have hs1 : h.objs.length < (New h).1.objs.length := by
    rw [new_length]; exact Nat.lt_succ_self _
  have ha1 : a < (New h).1.objs.length := by rw [new_length]; exact Nat.lt_succ_of_lt ha
  have hb1 : b < (New h).1.objs.length := by rw [new_length]; exact Nat.lt_succ_of_lt hb
  obtain ⟨oa, eoa, roa⟩ := load_range (New h).1 a ha1
  obtain ⟨h2, e2, u2⟩ := interLoop_updates (New h).1 h.objs.length b hs1 hb1
    (Nat.ne_of_lt hb) (new_not_shares h b hb) (keysOf h a) (keysOf_hashable h a)
  rw [new_keys, new_keys_old h b hb] at u2
  refine ⟨h2, ?_, ⟨_, u2⟩, ?_, ?_⟩
  · have hnew : New h = ((New h).1, some h.objs.length) := rfl
    unfold Intersection
    rw [hnew]
    simp [eoa, roa, new_keys_old h a ha, new_keys_old h b hb, e2]
  · intro e
    rw [u2.2.1, mem_proper_foldl_filter (fun k => keyFound k (keysOf h b)) e, keyFound_iff]
    simp [proper]
  · rw [u2.2.1, nans_foldl_filter (fun k => keyFound k (keysOf h b))
      (fun k hk => ((keyFound_true k _).mp hk).2)]
    rfl

theorem union_keys (h : Heap T) (a b : Nat)
    (ha : a < h.objs.length) (hb : b < h.objs.length) :
    ∃ hh, Union h (some a) (some b) = some (hh, some h.objs.length) ∧
      (∃ ks, Updates (New h).1 hh h.objs.length ks) ∧
      (∀ e, e ∈ proper (keysOf hh h.objs.length) ↔
        (e ∈ proper (keysOf h a) ∨ e ∈ proper (keysOf h b))) ∧
      (nans (keysOf hh h.objs.length)).length =
        (nans (keysOf h a)).length + (nans (keysOf h b)).length := by
  obtain ⟨h2, e2, u2⟩ := new_addAll h a ha
  have hs2 : h.objs.length < h2.objs.length := fresh_lt h h2 _ u2
  have hb2 : b < h2.objs.length := Nat.lt_trans hb hs2
  have kb : keysOf h2 b = keysOf h b := (fresh_frame h h2 _ u2 b hb).2.1
  obtain ⟨h3, e3, u3⟩ := addAll_updates h2 h.objs.length b hs2 hb2
  have u := updates_trans _ h2 h3 _ _ _ u2 u3
  have ma : ∀ e, e ∈ proper (keysOf h2 h.objs.length) ↔ e ∈ proper (keysOf h a) := by
    intro e
    rw [u2.2.1, mem_proper_foldl_insert]
    simp [proper]
  have na : (nans (keysOf h2 h.objs.length)).length = (nans (keysOf h a)).length := by
    rw [u2.2.1]
    have := nans_foldl_insert (keysOf h a) ([] : List T)
    simpa [nans] using this
  refine ⟨h3, ?_, ⟨_, u⟩, ?_, ?_⟩
  · have hnew : New h = ((New h).1, some h.objs.length) := rfl
    unfold Union
    rw [hnew]
    simp [e2, e3]
  · intro e
    rw [u3.2.1, mem_proper_foldl_insert, ma, kb]
  · rw [u3.2.1, nans_foldl_insert, na, kb]

/-! ## Equality -/

/-- Two key lists of the same length, every key of the one found in the other:
neither holds a key that differs from itself, and they have the same members.
This is why `Equal` needs only one inclusion. -/
theorem same_members_iff (A B : List T) (hA : (proper A).Nodup) (hB : (proper B).Nodup) :
    (A.length = B.length ∧ B.all (fun k => keyFound k A) = true) ↔
      ((∀ k ∈ A, Comparable.selfEq k = true) ∧ (∀ k ∈ B, Comparable.selfEq k = true) ∧
        ∀ e, e ∈ A ↔ e ∈ B) := by
  constructor
  · rintro ⟨hlen, hall⟩
    rw [List.all_eq_true] at hall
    have hBs : ∀ k ∈ B, Comparable.selfEq k = true :=
      fun k hk => ((keyFound_true k A).mp (hall k hk)).2
    have hBp : proper B = B := proper_eq_self B hBs
    have hBn : B.Nodup := by rw [← hBp]; exact hB
    have hsub : ∀ k ∈ B, k ∈ proper A := fun k hk => (keyFound_iff k A).mp (hall k hk)
    have hle : B.length ≤ (proper A).length := (List.subperm_of_subset hBn hsub).length_le
    have hsum := length_proper_add_nans A
    have hn0 : (nans A).length = 0 := by omega
    have hAn : nans A = [] := List.length_eq_zero.mp hn0
    have hAs : ∀ k ∈ A, Comparable.selfEq k = true := by
      intro k hk
      by_contra hc
      have : k ∈ nans A := by
        unfold nans
        rw [List.mem_filter]
        exact ⟨hk, by simpa using hc⟩
      rw [hAn] at this
      exact absurd this (List.not_mem_nil k)
    have hAp : proper A = A := proper_eq_self A hAs
    have hperm : B.Perm (proper A) :=
      (List.subperm_of_subset hBn hsub).perm_of_length_le (by omega)
    refine ⟨hAs, hBs, fun e => ?_⟩
    rw [← hAp]
    exact (hperm.mem_iff).symm
  · rintro ⟨hAs, hBs, hmem⟩
    have hAp : proper A = A := proper_eq_self A hAs
    have hBp : proper B = B := proper_eq_self B hBs
    have hAn : A.Nodup := by rw [← hAp]; exact hA
    have hBn : B.Nodup := by rw [← hBp]; exact hB
    have hp : A.Perm B := (List.perm_ext_iff_of_nodup hAn hBn).mpr hmem
    refine ⟨hp.length_eq, ?_⟩
    rw [List.all_eq_true]
    intro k hk
    exact (keyFound_true k A).mpr ⟨(hmem k).mpr hk, hBs k hk⟩

theorem equal_eq (h : Heap T) (a b : Nat) (ha : a < h.objs.length) (hb : b < h.objs.length) :
    Set.Equal h (some a) (some b) =
      some (decide (a = b) || (decide ((keysOf h a).length = (keysOf h b).length) &&
        (keysOf h b).all (fun k => keyFound k (keysOf h a)))) := by
  by_cases hab : a = b
  · subst hab
    simp [Set.Equal]
  · by_cases hlen : (keysOf h a).length = (keysOf h b).length <;>
      simp [Set.Equal, hab, len_eq h a ha, len_eq h b hb, hlen, containsAll_eq h a b ha hb]

theorem equal_true_iff (h : Heap T) (a b : Nat) (ha : a < h.objs.length)
    (hb : b < h.objs.length) :
    Set.Equal h (some a) (some b) = some true ↔
      (a = b ∨ ((∀ k ∈ keysOf h a, Comparable.selfEq k = true) ∧
        (∀ k ∈ keysOf h b, Comparable.selfEq k = true) ∧
        ∀ e, e ∈ keysOf h a ↔ e ∈ keysOf h b)) := by
  rw [equal_eq h a b ha hb,
    ← same_members_iff (keysOf h a) (keysOf h b) (keysOf_nodup h a) (keysOf_nodup h b)]
  simp

theorem equal_symm_some (h : Heap T) (a b : Nat) (ha : a < h.objs.length)
    (hb : b < h.objs.length) :
    ∃ r, Set.Equal h (some a) (some b) = some r ∧ Set.Equal h (some b) (some a) = some r := by
  refine ⟨_, equal_eq h a b ha hb, ?_⟩
  rw [equal_eq h b a hb ha, Option.some.injEq, Bool.eq_iff_iff]
  have h1 := equal_true_iff h a b ha hb
  have h2 := equal_true_iff h b a hb ha
  rw [equal_eq h a b ha hb, Option.some.injEq] at h1
  rw [equal_eq h b a hb ha, Option.some.injEq] at h2
  rw [h1, h2]
  constructor
  · rintro (rfl | ⟨x, y, z⟩)
    · exact Or.inl rfl
    · exact Or.inr ⟨y, x, fun e => (z e).symm⟩
  · rintro (rfl | ⟨x, y, z⟩)
    · exact Or.inl rfl
    · exact Or.inr ⟨y, x, fun e => (z e).symm⟩

/-- C2: two nil references are `Equal`; a nil reference and a non-nil one are
not, whichever of the two is the receiver, and neither call panics. -/
theorem equal_nil (h : Heap T) :
    Set.Equal h none none = some true ∧
    ∀ e : Nat, Set.Equal h none (some e) = some false ∧
      Set.Equal h (some e) none = some false := by
  refine ⟨by simp [Set.Equal], fun e => ⟨?_, ?_⟩⟩ <;> simp [Set.Equal]

/-- C3, as the claim states it, fails: on the heap holding only `e = New()`, a
nil receiver's `Equal(e)` does not return true. -/
theorem nil_equal_new_counterexample :
    ¬ (Set.Equal (New emptyHeap).1 none (New emptyHeap).2 = some true) := by
  decide

/-- C3, amended: a nil reference is not `Equal` to the empty set returned by
`New()`, in either direction; `Equal` returns false without reading the set.  A
nil reference is `Equal` only to nil. -/
theorem nil_equal_new (h : Heap T) :
    Set.Equal (New h).1 none (New h).2 = some false ∧
    Set.Equal (New h).1 (New h).2 none = some false ∧
    ∀ (g : Heap T) (r : Ref), (Set.Equal g none r = some true ↔ r = none) := by
  refine ⟨by simp [Set.Equal, new_ref], by simp [Set.Equal, new_ref], fun g r => ?_⟩
  cases r with
  | none => simp [Set.Equal]
  | some i => simp [Set.Equal]

/-- C19: over all set references, nil included, `Equal` returns and is an
equivalence: `a.Equal(a)` is true, `a.Equal(b)` and `b.Equal(a)` return the
same value, and `a.Equal(b)` and `b.Equal(c)` together give `a.Equal(c)`. -/
theorem equal_equivalence (h : Heap T) (a b c : Ref)
    (ha : Valid h a) (hb : Valid h b) (hc : Valid h c) :
    Set.Equal h a a = some true ∧
    (∃ r, Set.Equal h a b = some r ∧ Set.Equal h b a = some r) ∧
    (Set.Equal h a b = some true → Set.Equal h b c = some true →
      Set.Equal h a c = some true) := by
  refine ⟨by simp [Set.Equal], ?_, ?_⟩
  · cases a with
    | none =>
      cases b with
      | none => exact ⟨true, by simp [Set.Equal]⟩
      | some j => exact ⟨false, by simp [Set.Equal]⟩
    | some i =>
      cases b with
      | none => exact ⟨false, by simp [Set.Equal]⟩
      | some j => exact equal_symm_some h i j ha hb
  · cases a with
    | none =>
      cases b with
      | none => intro _ hbc; exact hbc
      | some j => intro hab; simp [Set.Equal] at hab
    | some i =>
      cases b with
      | none => intro hab; simp [Set.Equal] at hab
      | some j =>
        cases c with
        | none => intro _ hbc; simp [Set.Equal] at hbc
        | some k =>
          have hi : i < h.objs.length := ha
          have hj : j < h.objs.length := hb
          have hk : k < h.objs.length := hc
          rw [equal_true_iff h i j hi hj, equal_true_iff h j k hj hk,
            equal_true_iff h i k hi hk]
          rintro (rfl | ⟨x1, y1, z1⟩) (rfl | ⟨x2, y2, z2⟩)
          · exact Or.inl rfl
          · exact Or.inr ⟨x2, y2, z2⟩
          · exact Or.inr ⟨x1, y1, z1⟩
          · exact Or.inr ⟨x1, y2, fun e => (z1 e).trans (z2 e)⟩

theorem equal_equivalence_witness :
    (Valid sampleHeap (some 0) ∧ Valid sampleHeap (some 3) ∧ Valid sampleHeap none) ∧
    Set.Equal sampleHeap (some 0) (some 0) = some true ∧
    (∃ r, Set.Equal sampleHeap (some 0) (some 3) = some r ∧
      Set.Equal sampleHeap (some 3) (some 0) = some r) ∧
    (Set.Equal sampleHeap (some 0) (some 3) = some true →
      Set.Equal sampleHeap (some 3) none = some true →
      Set.Equal sampleHeap (some 0) none = some true) :=
  ⟨⟨(by decide : 0 < sampleHeap.objs.length), (by decide : 3 < sampleHeap.objs.length),
      trivial⟩,
    equal_equivalence sampleHeap (some 0) (some 3) none
      (by decide : 0 < sampleHeap.objs.length) (by decide : 3 < sampleHeap.objs.length)
      trivial⟩

/-! ## Set algebra -/

/-- The three calls `a.Contains(e)`, `b.Contains(e)` and `s.Contains(e)` when
the keys found in `s` are those given by `f`: with a hashable `e` all three
return, with an unhashable `e` all three panic. -/
theorem contains_rel (h hh : Heap T) (a b s : Nat) (ha : a < h.objs.length)
    (hb : b < h.objs.length) (hs : s < hh.objs.length) (f : Bool → Bool → Bool) (e : T)
    (hm : keyFound e (keysOf hh s) = f (keyFound e (keysOf h a)) (keyFound e (keysOf h b))) :
    (Comparable.hashable e = true →
        ∃ ca cb, Set.Contains h (some a) e = some ca ∧
          Set.Contains h (some b) e = some cb ∧
          Set.Contains hh (some s) e = some (f ca cb)) ∧
      (Comparable.hashable e = false →
        Set.Contains h (some a) e = none ∧ Set.Contains h (some b) e = none ∧
          Set.Contains hh (some s) e = none) := by
  constructor
  · intro he
    exact ⟨_, _, contains_eq h a ha e he, contains_eq h b hb e he, by
      rw [contains_eq hh s hs e he, hm]⟩
  · intro he
    exact ⟨contains_unhashable h _ e he, contains_unhashable h _ e he,
      contains_unhashable hh _ e he⟩

/-- C5: for non-nil sets `a` and `b`, `Difference(a, b)` returns a new
set that contains a hashable `e` exactly when `a` contains `e` and `b` does not
(with an unhashable `e` all three calls of `Contains` panic), and the objects
`a` and `b` are as before the call. -/
theorem difference_contains (h : Heap T) (a b : Nat)
    (ha : a < h.objs.length) (hb : b < h.objs.length) :
    ∃ hh s, Difference h (some a) (some b) = some (hh, s) ∧
      (∀ e, (Comparable.hashable e = true →
          ∃ ca cb, Set.Contains h (some a) e = some ca ∧
            Set.Contains h (some b) e = some cb ∧
            Set.Contains hh s e = some (ca && !cb)) ∧
        (Comparable.hashable e = false →
          Set.Contains h (some a) e = none ∧ Set.Contains h (some b) e = none ∧
            Set.Contains hh s e = none)) ∧
      observe hh (some a) = observe h (some a) ∧ observe hh (some b) = observe h (some b) := by
  obtain ⟨hh, e1, ⟨ks, u⟩, hmem, _⟩ := difference_keys h a b ha hb
  refine ⟨hh, some h.objs.length, e1, fun e => ?_, (fresh_frame h hh ks u a ha).2.2,
    (fresh_frame h hh ks u b hb).2.2⟩
  apply contains_rel h hh a b h.objs.length ha hb (fresh_lt h hh ks u) (fun x y => x && !y) e
  · show keyFound e (keysOf hh h.objs.length) = _
    simp only [keyFound_decide]
    rw [Bool.eq_iff_iff]
    simp [hmem e]

theorem difference_contains_witness :
    (0 < sampleHeap.objs.length ∧ 1 < sampleHeap.objs.length) ∧
    ∃ hh s, Difference sampleHeap (some 0) (some 1) = some (hh, s) ∧
      (∀ e, (Comparable.hashable e = true →
          ∃ ca cb, Set.Contains sampleHeap (some 0) e = some ca ∧
            Set.Contains sampleHeap (some 1) e = some cb ∧
            Set.Contains hh s e = some (ca && !cb)) ∧
        (Comparable.hashable e = false →
          Set.Contains sampleHeap (some 0) e = none ∧
            Set.Contains sampleHeap (some 1) e = none ∧
            Set.Contains hh s e = none)) ∧
      observe hh (some 0) = observe sampleHeap (some 0) ∧
      observe hh (some 1) = observe sampleHeap (some 1) :=
  ⟨by decide, difference_contains sampleHeap 0 1 (by decide) (by decide)⟩

/-- C4: for non-nil sets `a` and `b`, `SymmetricDifference(a, b)` returns a new
set that contains a hashable `e` exactly when one of `a` and `b` contains `e`
and the other does not (with an unhashable `e` all three calls of `Contains`
panic).  The heap is arbitrary, so the keys of `b` (and of `a`) are visited in
an arbitrary order.  The objects `a` and `b` are as before the call. -/
theorem symmetricDifference_contains (h : Heap T) (a b : Nat)
    (ha : a < h.objs.length) (hb : b < h.objs.length) :
    ∃ hh s, SymmetricDifference h (some a) (some b) = some (hh, s) ∧
      (∀ e, (Comparable.hashable e = true →
          ∃ ca cb, Set.Contains h (some a) e = some ca ∧
            Set.Contains h (some b) e = some cb ∧
            Set.Contains hh s e = some (Bool.xor ca cb)) ∧
        (Comparable.hashable e = false →
          Set.Contains h (some a) e = none ∧ Set.Contains h (some b) e = none ∧
            Set.Contains hh s e = none)) ∧
      observe hh (some a) = observe h (some a) ∧ observe hh (some b) = observe h (some b) := by
  obtain ⟨hh, e1, ⟨ks, u⟩, hmem, _⟩ := symmetricDifference_keys h a b ha hb
  refine ⟨hh, some h.objs.length, e1, fun e => ?_, (fresh_frame h hh ks u a ha).2.2,
    (fresh_frame h hh ks u b hb).2.2⟩
  apply contains_rel h hh a b h.objs.length ha hb (fresh_lt h hh ks u) (fun x y => Bool.xor x y) e
  · show keyFound e (keysOf hh h.objs.length) = _
    simp only [keyFound_decide]
    rw [Bool.eq_iff_iff]
    by_cases m1 : e ∈ proper (keysOf h a) <;> by_cases m2 : e ∈ proper (keysOf h b) <;>
      simp [hmem e, m1, m2]

theorem symmetricDifference_contains_witness :
    (0 < sampleHeap.objs.length ∧ 1 < sampleHeap.objs.length) ∧
    ∃ hh s, SymmetricDifference sampleHeap (some 0) (some 1) = some (hh, s) ∧
      (∀ e, (Comparable.hashable e = true →
          ∃ ca cb, Set.Contains sampleHeap (some 0) e = some ca ∧
            Set.Contains sampleHeap (some 1) e = some cb ∧
            Set.Contains hh s e = some (Bool.xor ca cb)) ∧
        (Comparable.hashable e = false →
          Set.Contains sampleHeap (some 0) e = none ∧
            Set.Contains sampleHeap (some 1) e = none ∧
            Set.Contains hh s e = none)) ∧
      observe hh (some 0) = observe sampleHeap (some 0) ∧
      observe hh (some 1) = observe sampleHeap (some 1) :=
  ⟨by decide, symmetricDifference_contains sampleHeap 0 1 (by decide) (by decide)⟩

/-- C6: for non-nil sets `a` and `b`, `Intersection(a, b)` returns a new set
that contains a hashable `e` exactly when both `a` and `b` contain `e` (with an
unhashable `e` all three calls of `Contains` panic), and the objects `a` and
`b` are as before the call. -/
theorem intersection_contains (h : Heap T) (a b : Nat)
    (ha : a < h.objs.length) (hb : b < h.objs.length) :
    ∃ hh s, Intersection h (some a) (some b) = some (hh, s) ∧
      (∀ e, (Comparable.hashable e = true →
          ∃ ca cb, Set.Contains h (some a) e = some ca ∧
            Set.Contains h (some b) e = some cb ∧
            Set.Contains hh s e = some (ca && cb)) ∧
        (Comparable.hashable e = false →
          Set.Contains h (some a) e = none ∧ Set.Contains h (some b) e = none ∧
            Set.Contains hh s e = none)) ∧
      observe hh (some a) = observe h (some a) ∧ observe hh (some b) = observe h (some b) := by
  obtain ⟨hh, e1, ⟨ks, u⟩, hmem, _⟩ := intersection_keys h a b ha hb
  refine ⟨hh, some h.objs.length, e1, fun e => ?_, (fresh_frame h hh ks u a ha).2.2,
    (fresh_frame h hh ks u b hb).2.2⟩
  apply contains_rel h hh a b h.objs.length ha hb (fresh_lt h hh ks u) (fun x y => x && y) e
  · show keyFound e (keysOf hh h.objs.length) = _
    simp only [keyFound_decide]
    rw [Bool.eq_iff_iff]
    simp [hmem e]

theorem intersection_contains_witness :
    (0 < sampleHeap.objs.length ∧ 1 < sampleHeap.objs.length) ∧
    ∃ hh s, Intersection sampleHeap (some 0) (some 1) = some (hh, s) ∧
      (∀ e, (Comparable.hashable e = true →
          ∃ ca cb, Set.Contains sampleHeap (some 0) e = some ca ∧
            Set.Contains sampleHeap (some 1) e = some cb ∧
            Set.Contains hh s e = some (ca && cb)) ∧
        (Comparable.hashable e = false →
          Set.Contains sampleHeap (some 0) e = none ∧
            Set.Contains sampleHeap (some 1) e = none ∧
            Set.Contains hh s e = none)) ∧
      observe hh (some 0) = observe sampleHeap (some 0) ∧
      observe hh (some 1) = observe sampleHeap (some 1) :=
  ⟨by decide, intersection_contains sampleHeap 0 1 (by decide) (by decide)⟩

/-- C7: for non-nil sets `a` and `b`, `Union(a, b)` returns a new set that
contains a hashable `e` exactly when `a` or `b` contains `e` (with an
unhashable `e` all three calls of `Contains` panic), and the objects `a` and
`b` are as before the call. -/
theorem union_contains (h : Heap T) (a b : Nat)
    (ha : a < h.objs.length) (hb : b < h.objs.length) :
    ∃ hh s, Union h (some a) (some b) = some (hh, s) ∧
      (∀ e, (Comparable.hashable e = true →
          ∃ ca cb, Set.Contains h (some a) e = some ca ∧
            Set.Contains h (some b) e = some cb ∧
            Set.Contains hh s e = some (ca || cb)) ∧
        (Comparable.hashable e = false →
          Set.Contains h (some a) e = none ∧ Set.Contains h (some b) e = none ∧
            Set.Contains hh s e = none)) ∧
      observe hh (some a) = observe h (some a) ∧ observe hh (some b) = observe h (some b) := by
  obtain ⟨hh, e1, ⟨ks, u⟩, hmem, _⟩ := union_keys h a b ha hb
  refine ⟨hh, some h.objs.length, e1, fun e => ?_, (fresh_frame h hh ks u a ha).2.2,
    (fresh_frame h hh ks u b hb).2.2⟩
  apply contains_rel h hh a b h.objs.length ha hb (fresh_lt h hh ks u) (fun x y => x || y) e
  · show keyFound e (keysOf hh h.objs.length) = _
    simp only [keyFound_decide]
    rw [Bool.eq_iff_iff]
    simp [hmem e]

theorem union_contains_witness :
    (0 < sampleHeap.objs.length ∧ 1 < sampleHeap.objs.length) ∧
    ∃ hh s, Union sampleHeap (some 0) (some 1) = some (hh, s) ∧
      (∀ e, (Comparable.hashable e = true →
          ∃ ca cb, Set.Contains sampleHeap (some 0) e = some ca ∧
            Set.Contains sampleHeap (some 1) e = some cb ∧
            Set.Contains hh s e = some (ca || cb)) ∧
        (Comparable.hashable e = false →
          Set.Contains sampleHeap (some 0) e = none ∧
            Set.Contains sampleHeap (some 1) e = none ∧
            Set.Contains hh s e = none)) ∧
      observe hh (some 0) = observe sampleHeap (some 0) ∧
      observe hh (some 1) = observe sampleHeap (some 1) :=
  ⟨by decide, union_contains sampleHeap 0 1 (by decide) (by decide)⟩

/-! ## Members, as `Contains` reports them -/

theorem contains_true_iff (h : Heap T) (i : Nat) (hi : i < h.objs.length) (e : T) :
    Set.Contains h (some i) e = some true ↔ e ∈ proper (keysOf h i) := by
  cases he : Comparable.hashable e with
  | true =>
    rw [contains_eq h i hi e he, Option.some.injEq, keyFound_iff]
  | false =>
    rw [contains_unhashable h _ e he]
    constructor
    · intro hc
      exact absurd hc (by simp)
    · intro hc
      have := keysOf_hashable h i e ((mem_proper e _).mp hc).1
      rw [he] at this
      exact absurd this (by simp)

theorem contains_agree_iff (h : Heap T) (a b : Nat) (ha : a < h.objs.length)
    (hb : b < h.objs.length) :
    (∀ e, Set.Contains h (some a) e = Set.Contains h (some b) e) ↔
      ∀ e, e ∈ proper (keysOf h a) ↔ e ∈ proper (keysOf h b) := by
  constructor
  · intro hall e
    rw [← contains_true_iff h a ha e, ← contains_true_iff h b hb e, hall e]
  · intro hall e
    cases he : Comparable.hashable e with
    | true =>
      rw [contains_eq h a ha e he, contains_eq h b hb e he, keyFound_decide, keyFound_decide,
        Option.some.injEq, Bool.eq_iff_iff]
      simp [hall e]
    | false => rw [contains_unhashable h _ e he, contains_unhashable h _ e he]

/-- The nan heap: the set at address 0 contains nothing, as `Contains` reports
it, although it holds one key. -/
theorem nan_contains (e : Float64) : Set.Contains nanHeap (some 0) e = some false := by
  rw [contains_eq nanHeap 0 (by decide) e (by cases e <;> rfl)]
  cases e <;> rfl

theorem nan_contains_new (e : Float64) : Set.Contains nanHeap (some 1) e = some false := by
  rw [contains_eq nanHeap 1 (by decide) e (by cases e <;> rfl)]
  cases e <;> rfl

/-- C1, as the claim states it, fails on `float64` keys: for `a = Of(NaN)` and
`b = New()`, `a.Contains(e)` and `b.Contains(e)` agree for every `e`, yet
`a.Equal(b)` is false. -/
theorem equal_nan_counterexample :
    Set.Equal nanHeap (some 0) (some 1) = some false ∧
    ∀ e, Set.Contains nanHeap (some 0) e = Set.Contains nanHeap (some 1) e :=
  ⟨by decide, fun e => by rw [nan_contains, nan_contains_new]⟩

/-- C1, amended: for non-nil sets `a` and `b`, `a.Equal(b)` returns; when it
returns true, `a.Contains(e)` and `b.Contains(e)` agree for every element `e`;
and when neither `a` nor `b` holds an element that differs from itself and
`a.Contains(e)` and `b.Contains(e)` agree for every `e`, it returns true. -/
theorem equal_iff_same_members (h : Heap T) (a b : Nat)
    (ha : a < h.objs.length) (hb : b < h.objs.length) :
    ∃ r, Set.Equal h (some a) (some b) = some r ∧
      (r = true → ∀ e, Set.Contains h (some a) e = Set.Contains h (some b) e) ∧
      (SelfEqual h (some a) → SelfEqual h (some b) →
        (∀ e, Set.Contains h (some a) e = Set.Contains h (some b) e) → r = true) := by
  refine ⟨_, equal_eq h a b ha hb, ?_, ?_⟩
  · intro hr
    have key := (equal_true_iff h a b ha hb).mp (by rw [equal_eq h a b ha hb, hr])
    rcases key with hab | ⟨la, lb, hm⟩
    · intro e
      rw [hab]
    · rw [contains_agree_iff h a b ha hb, proper_eq_self _ la, proper_eq_self _ lb]
      exact hm
  · intro sa sb hm
    have la := (selfEqual_iff h a ha).mp sa
    have lb := (selfEqual_iff h b hb).mp sb
    rw [contains_agree_iff h a b ha hb, proper_eq_self _ la, proper_eq_self _ lb] at hm
    have key := (equal_true_iff h a b ha hb).mpr (Or.inr ⟨la, lb, hm⟩)
    rw [equal_eq h a b ha hb] at key
    exact Option.some.inj key

theorem equal_iff_same_members_witness :
    (0 < sampleHeap.objs.length ∧ 3 < sampleHeap.objs.length) ∧
    ∃ r, Set.Equal sampleHeap (some 0) (some 3) = some r ∧
      (r = true →
        ∀ e, Set.Contains sampleHeap (some 0) e = Set.Contains sampleHeap (some 3) e) ∧
      (SelfEqual sampleHeap (some 0) → SelfEqual sampleHeap (some 3) →
        (∀ e, Set.Contains sampleHeap (some 0) e = Set.Contains sampleHeap (some 3) e) →
        r = true) :=
  ⟨⟨by decide, by decide⟩, equal_iff_same_members sampleHeap 0 3 (by decide) (by decide)⟩

/-! ## Subsets and supersets -/

/-- The element-wise check of `ContainsAll`, for a set that holds no element
differing from itself, is inclusion of members. -/
theorem all_mem_iff (h : Heap T) (s o : Nat) (hs : s < h.objs.length)
    (ho : o < h.objs.length) (ls : ∀ k ∈ keysOf h s, Comparable.selfEq k = true) :
    ((keysOf h s).all (fun k => keyFound k (keysOf h o)) = true) ↔
      ∀ e, Set.Contains h (some s) e = some true → Set.Contains h (some o) e = some true := by
  rw [List.all_eq_true]
  constructor
  · intro hall e he
    rw [contains_true_iff h s hs e] at he
    rw [contains_true_iff h o ho e]
    exact (keyFound_iff e _).mp (hall e ((mem_proper e _).mp he).1)
  · intro hall k hk
    have h1 : Set.Contains h (some s) k = some true :=
      (contains_true_iff h s hs k).mpr ((mem_proper k _).mpr ⟨hk, ls k hk⟩)
    exact (keyFound_iff k _).mpr ((contains_true_iff h o ho k).mp (hall k h1))

theorem isSubsetOf_eq (h : Heap T) (s o : Nat) (hs : s < h.objs.length)
    (ho : o < h.objs.length) :
    Set.IsSubsetOf h (some s) (some o) =
      some (if (keysOf h s).length > (keysOf h o).length then false
        else (keysOf h s).all (fun k => keyFound k (keysOf h o))) := by
  by_cases hlen : (keysOf h s).length > (keysOf h o).length <;>
    simp [Set.IsSubsetOf, len_eq h s hs, len_eq h o ho, containsAll_eq h o s ho hs, hlen]

theorem isProperSubsetOf_eq (h : Heap T) (s o : Nat) (hs : s < h.objs.length)
    (ho : o < h.objs.length) :
    Set.IsProperSubsetOf h (some s) (some o) =
      some (if (keysOf h s).length ≥ (keysOf h o).length then false
        else (keysOf h s).all (fun k => keyFound k (keysOf h o))) := by
  by_cases hlen : (keysOf h s).length ≥ (keysOf h o).length <;>
    simp [Set.IsProperSubsetOf, len_eq h s hs, len_eq h o ho, containsAll_eq h o s ho hs, hlen]

theorem isSupersetOf_eq (h : Heap T) (s o : Nat) (hs : s < h.objs.length)
    (ho : o < h.objs.length) :
    Set.IsSupersetOf h (some s) (some o) =
      some (if (keysOf h s).length < (keysOf h o).length then false
        else (keysOf h o).all (fun k => keyFound k (keysOf h s))) := by
  by_cases hlen : (keysOf h s).length < (keysOf h o).length <;>
    simp [Set.IsSupersetOf, len_eq h s hs, len_eq h o ho, containsAll_eq h s o hs ho, hlen]

theorem isProperSupersetOf_eq (h : Heap T) (s o : Nat) (hs : s < h.objs.length)
    (ho : o < h.objs.length) :
    Set.IsProperSupersetOf h (some s) (some o) =
      some (if (keysOf h s).length ≤ (keysOf h o).length then false
        else (keysOf h o).all (fun k => keyFound k (keysOf h s))) := by
  by_cases hlen : (keysOf h s).length ≤ (keysOf h o).length <;>
    simp [Set.IsProperSupersetOf, len_eq h s hs, len_eq h o ho, containsAll_eq h s o hs ho,
      hlen]

/-- A set whose keys are all found in another is not longer than it. -/
theorem length_le_of_all (h : Heap T) (s o : Nat)
    (hall : (keysOf h s).all (fun k => keyFound k (keysOf h o)) = true) :
    (keysOf h s).length ≤ (keysOf h o).length := by
  rw [List.all_eq_true] at hall
  have hs : ∀ k ∈ keysOf h s, Comparable.selfEq k = true :=
    fun k hk => ((keyFound_true k _).mp (hall k hk)).2
  have hp : proper (keysOf h s) = keysOf h s := proper_eq_self _ hs
  have hn : (keysOf h s).Nodup := by
    rw [← hp]
    exact keysOf_nodup h s
  have hsub : ∀ k ∈ keysOf h s, k ∈ proper (keysOf h o) :=
    fun k hk => (keyFound_iff k _).mp (hall k hk)
  have h1 := (List.subperm_of_subset hn hsub).length_le
  have h2 := length_proper_add_nans (keysOf h o)
  omega

/-- The element-wise check of `ContainsAll` succeeds exactly when the visited
set holds no element differing from itself and each of its members is a member
of the other set. -/
theorem all_true_iff (h : Heap T) (s o : Nat) (hs : s < h.objs.length)
    (ho : o < h.objs.length) :
    ((keysOf h s).all (fun k => keyFound k (keysOf h o)) = true) ↔
      (SelfEqual h (some s) ∧ ∀ e, Set.Contains h (some s) e = some true →
        Set.Contains h (some o) e = some true) := by
  rw [selfEqual_iff h s hs]
  constructor
  · intro hall
    have ls : ∀ k ∈ keysOf h s, Comparable.selfEq k = true :=
      fun k hk => ((keyFound_true k _).mp (List.all_eq_true.mp hall k hk)).2
    exact ⟨ls, (all_mem_iff h s o hs ho ls).mp hall⟩
  · rintro ⟨ls, hsub⟩
    exact (all_mem_iff h s o hs ho ls).mpr hsub

/-- C8, as the claim states it, fails on `float64` keys: for `s = Of(NaN)` and
`other = New()` no `e` has `s.Contains(e)` true, so every member of `s` is a
member of `other`, yet `s.IsSubsetOf(other)` is false. -/
theorem isSubsetOf_nan_counterexample :
    Set.IsSubsetOf nanHeap (some 0) (some 1) = some false ∧
    ∀ e, Set.Contains nanHeap (some 0) e = some true →
      Set.Contains nanHeap (some 1) e = some true :=
  ⟨by decide, fun e he => by rw [nan_contains] at he; exact absurd he (by simp)⟩

/-- C8, amended: for non-nil sets `s` and `other`, `s.IsSubsetOf(other)`
returns; when it returns true, every member of `s` is a member of `other`; it
is true when `s` is empty; and when `s` holds no element that differs from
itself and every member of `s` is a member of `other`, it returns true and `s`
is not longer than `other`, so the early return on `s.Len() > other.Len()`
rejects no such subset. -/
theorem isSubsetOf_iff (h : Heap T) (s o : Nat) (hs : s < h.objs.length)
    (ho : o < h.objs.length) :
    ∃ r ls lo, Set.IsSubsetOf h (some s) (some o) = some r ∧
      Set.Len h (some s) = some ls ∧ Set.Len h (some o) = some lo ∧
      (r = true →
        ∀ e, Set.Contains h (some s) e = some true → Set.Contains h (some o) e = some true) ∧
      (Set.IsEmpty h (some s) = some true → r = true) ∧
      (SelfEqual h (some s) →
        (∀ e, Set.Contains h (some s) e = some true → Set.Contains h (some o) e = some true) →
        r = true ∧ ¬ ls > lo) := by
  have hiff : (if (keysOf h s).length > (keysOf h o).length then false
      else (keysOf h s).all (fun k => keyFound k (keysOf h o))) = true ↔
      (keysOf h s).all (fun k => keyFound k (keysOf h o)) = true := by
    by_cases hlen : (keysOf h s).length > (keysOf h o).length
    · simp only [hlen, if_true]
      constructor
      · intro hc; exact absurd hc (by simp)
      · intro hall; exact absurd (length_le_of_all h s o hall) (Nat.not_le_of_gt hlen)
    · simp only [hlen, if_false]
  refine ⟨_, _, _, isSubsetOf_eq h s o hs ho, len_eq h s hs, len_eq h o ho, ?_, ?_, ?_⟩
  · intro hr
    exact ((all_true_iff h s o hs ho).mp (hiff.mp hr)).2
  · intro hempty
    have h0 : (keysOf h s).length = 0 := by
      simpa [isEmpty_eq h s hs] using hempty
    have hnil : keysOf h s = [] := List.length_eq_zero.mp h0
    simp [hnil]
  · intro ss hall
    have hk := (all_true_iff h s o hs ho).mpr ⟨ss, hall⟩
    exact ⟨hiff.mpr hk, Nat.not_lt_of_le (length_le_of_all h s o hk)⟩

theorem isSubsetOf_iff_witness :
    (0 < nestedHeap.objs.length ∧ 1 < nestedHeap.objs.length) ∧
    ∃ r ls lo, Set.IsSubsetOf nestedHeap (some 0) (some 1) = some r ∧
      Set.Len nestedHeap (some 0) = some ls ∧ Set.Len nestedHeap (some 1) = some lo ∧
      (r = true →
        ∀ e, Set.Contains nestedHeap (some 0) e = some true →
          Set.Contains nestedHeap (some 1) e = some true) ∧
      (Set.IsEmpty nestedHeap (some 0) = some true → r = true) ∧
      (SelfEqual nestedHeap (some 0) →
        (∀ e, Set.Contains nestedHeap (some 0) e = some true →
          Set.Contains nestedHeap (some 1) e = some true) →
        r = true ∧ ¬ ls > lo) :=
  ⟨⟨by decide, by decide⟩, isSubsetOf_iff nestedHeap 0 1 (by decide) (by decide)⟩

/-- C9: for non-nil sets `s` and `other`, `s.IsProperSubsetOf(other)` returns,
and it returns true exactly when `s.IsSubsetOf(other)` is true and
`s.Len() < other.Len()`; `s.IsProperSubsetOf(s)` is false. -/
theorem isProperSubsetOf_iff (h : Heap T) (s o : Nat) (hs : s < h.objs.length)
    (ho : o < h.objs.length) :
    (∃ r sub ls lo, Set.IsProperSubsetOf h (some s) (some o) = some r ∧
      Set.IsSubsetOf h (some s) (some o) = some sub ∧
      Set.Len h (some s) = some ls ∧ Set.Len h (some o) = some lo ∧
      (r = true ↔ sub = true ∧ ls < lo)) ∧
    Set.IsProperSubsetOf h (some s) (some s) = some false := by
  refine ⟨⟨_, _, _, _, isProperSubsetOf_eq h s o hs ho, isSubsetOf_eq h s o hs ho,
    len_eq h s hs, len_eq h o ho, ?_⟩, ?_⟩
  · by_cases hlt : (keysOf h s).length < (keysOf h o).length
    · have h1 : ¬ (keysOf h s).length ≥ (keysOf h o).length := Nat.not_le_of_lt hlt
      have h2 : ¬ (keysOf h s).length > (keysOf h o).length := Nat.lt_asymm hlt
      simp [h1, h2, hlt]
    · have h1 : (keysOf h s).length ≥ (keysOf h o).length := Nat.le_of_not_lt hlt
      simp [h1, hlt]
  · rw [isProperSubsetOf_eq h s s hs hs]
    simp

theorem isProperSubsetOf_iff_witness :
    (0 < nestedHeap.objs.length ∧ 1 < nestedHeap.objs.length) ∧
    (∃ r sub ls lo, Set.IsProperSubsetOf nestedHeap (some 0) (some 1) = some r ∧
      Set.IsSubsetOf nestedHeap (some 0) (some 1) = some sub ∧
      Set.Len nestedHeap (some 0) = some ls ∧ Set.Len nestedHeap (some 1) = some lo ∧
      (r = true ↔ sub = true ∧ ls < lo)) ∧
    Set.IsProperSubsetOf nestedHeap (some 0) (some 0) = some false :=
  ⟨by decide, isProperSubsetOf_iff nestedHeap 0 1 (by decide) (by decide)⟩

/-- C10, as the claim states it, fails on `float64` keys: for `other = Of(NaN)`
and `s = New()` no `e` has `other.Contains(e)` true, so every member of `other`
is a member of `s`, yet `s.IsSupersetOf(other)` is false. -/
theorem isSupersetOf_nan_counterexample :
    Set.IsSupersetOf nanHeap (some 1) (some 0) = some false ∧
    ∀ e, Set.Contains nanHeap (some 0) e = some true →
      Set.Contains nanHeap (some 1) e = some true :=
  ⟨by decide, fun e he => by rw [nan_contains] at he; exact absurd he (by simp)⟩

/-- C10, amended: for non-nil sets `s` and `other`, `s.IsSupersetOf(other)`
returns what `other.IsSubsetOf(s)` returns; when that is true, every member of
`other` is a member of `s`, and when `other` holds no element that differs from
itself and every member of `other` is a member of `s`, it is true.
`s.IsProperSupersetOf(other)` returns what `other.IsProperSubsetOf(s)` returns,
which is true exactly when `s.IsSupersetOf(other)` is true and
`s.Len() > other.Len()`. -/
theorem superset_mirrors_subset (h : Heap T) (s o : Nat)
    (hs : s < h.objs.length) (ho : o < h.objs.length) :
    ∃ r p ls lo, Set.IsSupersetOf h (some s) (some o) = some r ∧
      Set.IsSubsetOf h (some o) (some s) = some r ∧
      (r = true →
        ∀ e, Set.Contains h (some o) e = some true → Set.Contains h (some s) e = some true) ∧
      (SelfEqual h (some o) →
        (∀ e, Set.Contains h (some o) e = some true → Set.Contains h (some s) e = some true) →
        r = true) ∧
      Set.IsProperSupersetOf h (some s) (some o) = some p ∧
      Set.IsProperSubsetOf h (some o) (some s) = some p ∧
      Set.Len h (some s) = some ls ∧ Set.Len h (some o) = some lo ∧
      (p = true ↔ r = true ∧ ls > lo) := by
  have hiff : (if (keysOf h s).length < (keysOf h o).length then false
      else (keysOf h o).all (fun k => keyFound k (keysOf h s))) = true ↔
      (keysOf h o).all (fun k => keyFound k (keysOf h s)) = true := by
    by_cases hlen : (keysOf h s).length < (keysOf h o).length
    · simp only [hlen, if_true]
      constructor
      · intro hc; exact absurd hc (by simp)
      · intro hall; exact absurd (length_le_of_all h o s hall) (Nat.not_le_of_gt hlen)
    · simp only [hlen, if_false]
  refine ⟨_, _, _, _, isSupersetOf_eq h s o hs ho, ?_, ?_, ?_,
    isProperSupersetOf_eq h s o hs ho, ?_, len_eq h s hs, len_eq h o ho, ?_⟩
  · rw [isSubsetOf_eq h o s ho hs]
  · intro hr
    exact ((all_true_iff h o s ho hs).mp (hiff.mp hr)).2
  · intro so hall
    exact hiff.mpr ((all_true_iff h o s ho hs).mpr ⟨so, hall⟩)
  · rw [isProperSubsetOf_eq h o s ho hs]
  · by_cases hlt : (keysOf h o).length < (keysOf h s).length
    · have h1 : ¬ (keysOf h s).length ≤ (keysOf h o).length := Nat.not_le_of_lt hlt
      have h2 : ¬ (keysOf h s).length < (keysOf h o).length := Nat.lt_asymm hlt
      simp [h1, h2, hlt]
    · have h1 : (keysOf h s).length ≤ (keysOf h o).length := Nat.le_of_not_lt hlt
      simp [h1, hlt]

theorem superset_mirrors_subset_witness :
    (1 < nestedHeap.objs.length ∧ 0 < nestedHeap.objs.length) ∧
    ∃ r p ls lo, Set.IsSupersetOf nestedHeap (some 1) (some 0) = some r ∧
      Set.IsSubsetOf nestedHeap (some 0) (some 1) = some r ∧
      (r = true →
        ∀ e, Set.Contains nestedHeap (some 0) e = some true →
          Set.Contains nestedHeap (some 1) e = some true) ∧
      (SelfEqual nestedHeap (some 0) →
        (∀ e, Set.Contains nestedHeap (some 0) e = some true →
          Set.Contains nestedHeap (some 1) e = some true) →
        r = true) ∧
      Set.IsProperSupersetOf nestedHeap (some 1) (some 0) = some p ∧
      Set.IsProperSubsetOf nestedHeap (some 0) (some 1) = some p ∧
      Set.Len nestedHeap (some 1) = some ls ∧ Set.Len nestedHeap (some 0) = some lo ∧
      (p = true ↔ r = true ∧ ls > lo) :=
  ⟨⟨by decide, by decide⟩, superset_mirrors_subset nestedHeap 1 0 (by decide) (by decide)⟩

/-! ## Cardinalities -/

theorem card_lemma (A B U I S : List T) (hA : (proper A).Nodup) (hB : (proper B).Nodup)
    (hU : (proper U).Nodup) (hI : (proper I).Nodup) (hS : (proper S).Nodup)
    (mU : ∀ e, e ∈ proper U ↔ (e ∈ proper A ∨ e ∈ proper B))
    (mI : ∀ e, e ∈ proper I ↔ (e ∈ proper A ∧ e ∈ proper B))
    (mS : ∀ e, e ∈ proper S ↔
      ((e ∈ proper A ∧ e ∉ proper B) ∨ (e ∉ proper A ∧ e ∈ proper B)))
    (nU : (nans U).length = (nans A).length + (nans B).length)
    (nI : nans I = [])
    (nS : (nans S).length = (nans A).length + (nans B).length) :
    U.length + I.length = A.length + B.length ∧ S.length = U.length - I.length := by
  have eU : (proper U).toFinset = (proper A).toFinset ∪ (proper B).toFinset := by
    ext e; simp [mU]
  have eI : (proper I).toFinset = (proper A).toFinset ∩ (proper B).toFinset := by
    ext e; simp [mI]
  have eS : (proper S).toFinset =
      ((proper A).toFinset ∪ (proper B).toFinset) \ ((proper A).toFinset ∩ (proper B).toFinset) := by
    ext e
    simp only [List.mem_toFinset, mS, Finset.mem_sdiff, Finset.mem_union, Finset.mem_inter]
    tauto
  have cU := List.toFinset_card_of_nodup hU
  have cI := List.toFinset_card_of_nodup hI
  have cS := List.toFinset_card_of_nodup hS
  have cA := List.toFinset_card_of_nodup hA
  have cB := List.toFinset_card_of_nodup hB
  have hsub : (proper A).toFinset ∩ (proper B).toFinset ⊆
      (proper A).toFinset ∪ (proper B).toFinset := Finset.inter_subset_union
  have k1 : (proper U).length + (proper I).length = (proper A).length + (proper B).length := by
    rw [← cU, ← cI, ← cA, ← cB, eU, eI]
    exact Finset.card_union_add_card_inter _ _
  have k2 : (proper S).length = (proper U).length - (proper I).length := by
    rw [← cS, ← cU, ← cI, eS, eU, eI]
    exact Finset.card_sdiff hsub
  have sA := length_proper_add_nans A
  have sB := length_proper_add_nans B
  have sU := length_proper_add_nans U
  have sI := length_proper_add_nans I
  have sS := length_proper_add_nans S
  have nI0 : (nans I).length = 0 := by rw [nI]; rfl
  have hle : (proper I).length ≤ (proper U).length := by
    rw [← cU, ← cI, eU, eI]
    exact Finset.card_le_card hsub
  constructor
  · omega
  · rw [← sS, ← sU, ← sI, k2, nS, nU, nI0]
    omega

/-- C20: for non-nil sets `a` and `b`, `Union`, `Intersection` and
`SymmetricDifference` return, and the lengths `Len()` reports satisfy
`Union.Len + Intersection.Len = a.Len + b.Len` and
`SymmetricDifference.Len = Union.Len - Intersection.Len`. -/
theorem inclusion_exclusion (h : Heap T) (a b : Nat)
    (ha : a < h.objs.length) (hb : b < h.objs.length) :
    ∃ hu u hi i hs s nu ni ns na nb,
      Union h (some a) (some b) = some (hu, u) ∧
      Intersection h (some a) (some b) = some (hi, i) ∧
      SymmetricDifference h (some a) (some b) = some (hs, s) ∧
      Set.Len hu u = some nu ∧ Set.Len hi i = some ni ∧ Set.Len hs s = some ns ∧
      Set.Len h (some a) = some na ∧ Set.Len h (some b) = some nb ∧
      nu + ni = na + nb ∧ ns = nu - ni := by
  obtain ⟨hu, eu, ⟨ku, uu⟩, mu, nu⟩ := union_keys h a b ha hb
  obtain ⟨hi, ei, ⟨ki, ui⟩, mi, ni⟩ := intersection_keys h a b ha hb
  obtain ⟨hs, es, ⟨ks, us⟩, ms, ns⟩ := symmetricDifference_keys h a b ha hb
  have key := card_lemma (keysOf h a) (keysOf h b) (keysOf hu h.objs.length)
    (keysOf hi h.objs.length) (keysOf hs h.objs.length) (keysOf_nodup _ _) (keysOf_nodup _ _)
    (keysOf_nodup _ _) (keysOf_nodup _ _) (keysOf_nodup _ _) mu mi ms nu ni ns
  exact ⟨hu, _, hi, _, hs, _, _, _, _, _, _, eu, ei, es, len_eq hu _ (fresh_lt h hu ku uu),
    len_eq hi _ (fresh_lt h hi ki ui), len_eq hs _ (fresh_lt h hs ks us), len_eq h a ha,
    len_eq h b hb, key.1, key.2⟩

theorem inclusion_exclusion_witness :
    (0 < sampleHeap.objs.length ∧ 1 < sampleHeap.objs.length) ∧
    ∃ hu u hi i hs s nu ni ns na nb,
      Union sampleHeap (some 0) (some 1) = some (hu, u) ∧
      Intersection sampleHeap (some 0) (some 1) = some (hi, i) ∧
      SymmetricDifference sampleHeap (some 0) (some 1) = some (hs, s) ∧
      Set.Len hu u = some nu ∧ Set.Len hi i = some ni ∧ Set.Len hs s = some ns ∧
      Set.Len sampleHeap (some 0) = some na ∧ Set.Len sampleHeap (some 1) = some nb ∧
      nu + ni = na + nb ∧ ns = nu - ni :=
  ⟨by decide, inclusion_exclusion sampleHeap 0 1 (by decide) (by decide)⟩

/-! ## Add and Remove -/

theorem heap_ext (h1 h2 : Heap T) (ho : h1.objs = h2.objs) (ht : h1.tables = h2.tables) :
    h1 = h2 := by
  cases h1
  cases h2
  simp only [Heap.mk.injEq]
  exact ⟨ho, ht⟩

theorem map_ext (m1 m2 : GoMap T) (hk : m1.keys = m2.keys) : m1 = m2 := by
  cases m1
  cases m2
  simp only [GoMap.mk.injEq]
  exact hk

theorem setTable_same (h : Heap T) (t : Nat) (m : GoMap T) (ht : h.tables[t]? = some m) :
    h.setTable t m = h := by
  apply heap_ext
  · rfl
  · show h.tables.set t m = h.tables
    apply List.ext_getElem?
    intro j
    by_cases hj : j = t
    · subst hj
      have hlt : j < h.tables.length := by
        by_contra hcon
        rw [List.getElem?_eq_none (Nat.le_of_not_lt hcon)] at ht
        exact absurd ht (by simp)
      rw [List.getElem?_set_self hlt, ht]
    · rw [List.getElem?_set_ne (Ne.symm hj)]

/-- Adding a key that the object already holds and finds leaves the heap as it
is. -/
theorem add_present (h : Heap T) (i : Nat) (hi : i < h.objs.length) (e : T)
    (he : Comparable.hashable e = true) (hf : keyFound e (keysOf h i) = true) :
    Set.Add h (some i) e = some h := by
  obtain ⟨o, ho⟩ := exists_obj h i hi
  rcases o with ⟨_ | t⟩
  · rw [keysOf_of_obj h i _ ho] at hf
    simp [mapRange, keyFound] at hf
  · obtain ⟨_, tbl, htb⟩ := table_of_obj h i t ho
    rw [keysOf_of_obj h i _ ho, mapRange_table h t tbl htb] at hf
    have hm : tbl.assign e he = tbl := by
      apply map_ext
      show keyInsert e tbl.keys = tbl.keys
      unfold keyInsert
      rw [if_pos ((keyFound_true e _).mp hf).symm]
    rw [add_table h i t tbl e he ho htb, hm, setTable_same h t tbl htb]

/-- Removing a key that the object does not find leaves the heap as it is. -/
theorem remove_absent (h : Heap T) (i : Nat) (hi : i < h.objs.length) (e : T)
    (he : Comparable.hashable e = true) (hf : keyFound e (keysOf h i) = false) :
    Set.Remove h (some i) e = some h := by
  obtain ⟨o, ho⟩ := exists_obj h i hi
  rcases o with ⟨_ | t⟩
  · exact remove_nil h i e he ho
  · obtain ⟨_, tbl, htb⟩ := table_of_obj h i t ho
    rw [keysOf_of_obj h i _ ho, mapRange_table h t tbl htb] at hf
    have hm : tbl.delete e = tbl := by
      apply map_ext
      show keyDelete e tbl.keys = tbl.keys
      unfold keyDelete
      split
      · rename_i hs
        have : e ∉ tbl.keys := by
          intro hc
          have := (keyFound_true e _).mpr ⟨hc, hs⟩
          rw [hf] at this
          exact absurd this (by simp)
        exact List.erase_of_not_mem this
      · rfl
    rw [remove_table h i t tbl e he ho htb, hm, setTable_same h t tbl htb]

theorem keyFound_keyInsert (x e : T) (l : List T) :
    keyFound x (keyInsert e l) =
      (keyFound x l || (decide (x = e) && Comparable.selfEq e)) := by
  rw [keyFound_decide, keyFound_decide, proper_keyInsert, Bool.eq_iff_iff]
  by_cases hs : Comparable.selfEq e = true
  · rw [if_pos hs]
    simp [List.mem_insert_iff, hs, or_comm]
  · rw [if_neg hs]
    simp [hs]

theorem keyFound_keyDelete (x e : T) (l : List T) (hl : (proper l).Nodup) :
    keyFound x (keyDelete e l) = (keyFound x l && !(decide (x = e) && Comparable.selfEq e)) := by
  rw [keyFound_decide, keyFound_decide, proper_keyDelete, Bool.eq_iff_iff]
  by_cases hs : Comparable.selfEq e = true
  · rw [if_pos hs]
    simp [hl.mem_erase_iff, hs, and_comm]
  · rw [if_neg hs]
    simp [hs]

/-- C11, as the claim states it, fails at two kinds of element.  On `float64`
keys, after `s.Add(NaN)` on `s = New()` the call `s.Contains(NaN)` is false and
a second `s.Add(NaN)` raises `s.Len()` from 1 to 2; on `any` keys, `Add` of a
slice panics. -/
theorem add_counterexample :
    (Set.Add nanHeap (some 1) Float64.nan).bind
        (fun h1 => Set.Contains h1 (some 1) Float64.nan) = some false ∧
    (Set.Add nanHeap (some 1) Float64.nan).bind (fun h1 => Set.Len h1 (some 1)) = some 1 ∧
    ((Set.Add nanHeap (some 1) Float64.nan).bind
        (fun h1 => Set.Add h1 (some 1) Float64.nan)).bind
      (fun h2 => Set.Len h2 (some 1)) = some 2 ∧
    (Set.Add anyHeap (some 0) (AnyVal.ints [1])).isNone = true := by
  decide

/-- C11, amended: for a non-nil set `s` and a hashable element `e`, `s.Add(e)`
returns and every other element is a member exactly when it was before.  When
`e` is equal to itself, after the call `s` contains `e`, `s.Len()` is the old
length when `e` was already a member and the old length plus one when it was
not, and a second `s.Add(e)` changes nothing at all, so `Add` is idempotent. -/
theorem add_spec (h : Heap T) (s : Nat) (hs : s < h.objs.length) (e : T)
    (he : Comparable.hashable e = true) :
    ∃ h1, Set.Add h (some s) e = some h1 ∧
      (∀ x, x ≠ e → Set.Contains h1 (some s) x = Set.Contains h (some s) x) ∧
      (Comparable.selfEq e = true →
        Set.Contains h1 (some s) e = some true ∧
        (∃ c n, Set.Contains h (some s) e = some c ∧
          Set.Len h (some s) = some n ∧
          Set.Len h1 (some s) = some (if c = true then n else n + 1)) ∧
        Set.Add h1 (some s) e = some h1) := by
  obtain ⟨h1, e1, u1⟩ := add_updates h s hs e he
  have hs1 : s < h1.objs.length := updates_lt h h1 s s _ u1 hs
  refine ⟨h1, e1, ?_, ?_⟩
  · intro x hx
    cases hxh : Comparable.hashable x with
    | true =>
      rw [contains_eq h1 s hs1 x hxh, contains_eq h s hs x hxh, u1.2.1, keyFound_keyInsert]
      simp [hx]
    | false => rw [contains_unhashable h1 _ x hxh, contains_unhashable h _ x hxh]
  · intro hse
    have hfound : keyFound e (keysOf h1 s) = true := by
      rw [u1.2.1, keyFound_keyInsert]
      simp [hse]
    refine ⟨?_, ⟨_, _, contains_eq h s hs e he, len_eq h s hs, ?_⟩,
      add_present h1 s hs1 e he hfound⟩
    · rw [contains_eq h1 s hs1 e he, hfound]
    · rw [len_eq h1 s hs1, u1.2.1]
      unfold keyInsert
      by_cases hk : keyFound e (keysOf h s) = true
      · rw [if_pos ((keyFound_true e _).mp hk).symm, if_pos hk]
      · rw [if_neg (fun hc => hk ((keyFound_true e _).mpr hc.symm)), if_neg hk]
        rfl

theorem add_spec_witness :
    (2 < sampleHeap.objs.length ∧ Comparable.hashable (7 : Nat) = true) ∧
    ∃ h1, Set.Add sampleHeap (some 2) 7 = some h1 ∧
      (∀ x, x ≠ 7 → Set.Contains h1 (some 2) x = Set.Contains sampleHeap (some 2) x) ∧
      (Comparable.selfEq (7 : Nat) = true →
        Set.Contains h1 (some 2) 7 = some true ∧
        (∃ c n, Set.Contains sampleHeap (some 2) 7 = some c ∧
          Set.Len sampleHeap (some 2) = some n ∧
          Set.Len h1 (some 2) = some (if c = true then n else n + 1)) ∧
        Set.Add h1 (some 2) 7 = some h1) :=
  ⟨by decide, add_spec sampleHeap 2 (by decide) 7 rfl⟩

/-- C13, as the claim states it, fails on `any` keys: `Remove` of a slice on a
zero-valued set panics. -/
theorem remove_counterexample :
    (Set.Remove anyHeap (some 0) (AnyVal.ints [1])).isNone = true := by
  decide

/-- C13, amended: for a non-nil set `s`, also an empty one and a zero-valued
one with a nil map, and a hashable element `e`, `s.Remove(e)` returns; after it
`s` does not contain `e` and every other element is a member exactly when it
was before.  When `e` was not a member nothing changes; when it was, `s.Len()`
is at least one and decreases by exactly one. -/
theorem remove_spec (h : Heap T) (s : Nat) (hs : s < h.objs.length) (e : T)
    (he : Comparable.hashable e = true) :
    ∃ h1 c n, Set.Remove h (some s) e = some h1 ∧
      Set.Contains h1 (some s) e = some false ∧
      (∀ x, x ≠ e → Set.Contains h1 (some s) x = Set.Contains h (some s) x) ∧
      Set.Contains h (some s) e = some c ∧
      Set.Len h (some s) = some n ∧
      (c = false → h1 = h ∧ Set.Len h1 (some s) = some n) ∧
      (c = true → 1 ≤ n ∧ Set.Len h1 (some s) = some (n - 1)) := by
  obtain ⟨h1, e1, u1⟩ := remove_updates h s hs e he
  have hs1 : s < h1.objs.length := updates_lt h h1 s s _ u1 hs
  have hnd := keysOf_nodup h s
  refine ⟨h1, _, _, e1, ?_, ?_, contains_eq h s hs e he, len_eq h s hs, ?_, ?_⟩
  · rw [contains_eq h1 s hs1 e he, u1.2.1, keyFound_keyDelete e e _ hnd]
    cases hk : keyFound e (keysOf h s) with
    | false => rfl
    | true => simp [((keyFound_true e _).mp hk).2]
  · intro x hx
    cases hxh : Comparable.hashable x with
    | true =>
      rw [contains_eq h1 s hs1 x hxh, contains_eq h s hs x hxh, u1.2.1,
        keyFound_keyDelete x e _ hnd]
      simp [hx]
    | false => rw [contains_unhashable h1 _ x hxh, contains_unhashable h _ x hxh]
  · intro hc
    have heq : h1 = h := by
      have := remove_absent h s hs e he hc
      rw [e1] at this
      exact Option.some.inj this
    exact ⟨heq, by rw [heq]; exact len_eq h s hs⟩
  · intro hc
    obtain ⟨hk, hse⟩ := (keyFound_true e _).mp hc
    refine ⟨List.length_pos_of_mem hk, ?_⟩
    rw [len_eq h1 s hs1, u1.2.1]
    unfold keyDelete
    rw [if_pos hse, List.length_erase_of_mem hk]

theorem remove_spec_witness :
    (0 < sampleHeap.objs.length ∧ Comparable.hashable (2 : Nat) = true) ∧
    ∃ h1 c n, Set.Remove sampleHeap (some 0) 2 = some h1 ∧
      Set.Contains h1 (some 0) 2 = some false ∧
      (∀ x, x ≠ 2 → Set.Contains h1 (some 0) x = Set.Contains sampleHeap (some 0) x) ∧
      Set.Contains sampleHeap (some 0) 2 = some c ∧
      Set.Len sampleHeap (some 0) = some n ∧
      (c = false → h1 = sampleHeap ∧ Set.Len h1 (some 0) = some n) ∧
      (c = true → 1 ≤ n ∧ Set.Len h1 (some 0) = some (n - 1)) :=
  ⟨by decide, remove_spec sampleHeap 0 (by decide) 2 rfl⟩

/-! ## Of and AsSlice -/

theorem selfEq_of_nans_nil (l : List T) (hn : nans l = []) :
    ∀ k ∈ l, Comparable.selfEq k = true := by
  intro k hk
  by_contra hc
  have : k ∈ nans l := by
    unfold nans
    rw [List.mem_filter]
    exact ⟨hk, by simpa using hc⟩
  rw [hn] at this
  exact absurd this (List.not_mem_nil k)

/-- The object built by `Of` from hashable values: a fresh object at address
`h.objs.length`, every older object being as it was. -/
theorem of_keys (h : Heap T) (xs : List T) (hx : ∀ x ∈ xs, Comparable.hashable x = true) :
    ∃ hh, Of h xs = some (hh, some h.objs.length) ∧
      (∃ ks, Updates (New h).1 hh h.objs.length ks) ∧
      (∀ e, e ∈ proper (keysOf hh h.objs.length) ↔ e ∈ proper xs) ∧
      (nans (keysOf hh h.objs.length)).length = (nans xs).length := by
  have hs1 : h.objs.length < (New h).1.objs.length := by
    rw [new_length]; exact Nat.lt_succ_self _
  obtain ⟨hh, e1, u1⟩ := addLoop_updates (New h).1 h.objs.length hs1 xs hx
  rw [new_keys] at u1
  refine ⟨hh, ?_, ⟨_, u1⟩, ?_, ?_⟩
  · have hnew : alloc h = ((New h).1, some h.objs.length) := rfl
    unfold Of
    rw [hnew]
    simp [e1]
  · intro e
    rw [u1.2.1, mem_proper_foldl_insert]
    simp [proper]
  · rw [u1.2.1]
    have := nans_foldl_insert xs ([] : List T)
    simpa [nans] using this

/-- The keys of the object built by `Of` from hashable values that are equal to
themselves: a duplicate-free list with the members of `xs`. -/
theorem of_keys_lawful (h : Heap T) (xs : List T)
    (hx : ∀ x ∈ xs, Comparable.hashable x = true ∧ Comparable.selfEq x = true) :
    ∃ hh, Of h xs = some (hh, some h.objs.length) ∧
      (∃ ks, Updates (New h).1 hh h.objs.length ks) ∧
      (∀ k ∈ keysOf hh h.objs.length, Comparable.selfEq k = true) ∧
      (keysOf hh h.objs.length).Nodup ∧
      (∀ e, e ∈ keysOf hh h.objs.length ↔ e ∈ xs) := by
  obtain ⟨hh, e1, u, hm, hn⟩ := of_keys h xs (fun x hxm => (hx x hxm).1)
  have hxn : nans xs = [] := nans_eq_nil xs (fun x hxm => (hx x hxm).2)
  have hkn : nans (keysOf hh h.objs.length) = [] := by
    apply List.length_eq_zero.mp
    rw [hn, hxn]
    rfl
  have hks := selfEq_of_nans_nil _ hkn
  have hp := proper_eq_self _ hks
  refine ⟨hh, e1, u, hks, ?_, ?_⟩
  · rw [← hp]
    exact keysOf_nodup hh _
  · intro e
    rw [← hp, hm e, proper_eq_self xs (fun x hxm => (hx x hxm).2)]

theorem perm_dedup_of_mem (l xs : List T) (hl : l.Nodup) (hmem : ∀ e, e ∈ l ↔ e ∈ xs) :
    l.Perm xs.dedup :=
  (List.perm_ext_iff_of_nodup hl (List.nodup_dedup xs)).mpr
    (fun e => by rw [hmem e, List.mem_dedup])

/-- C12, as the claim states it, fails at two kinds of value.  On `float64`
keys `Of(NaN).Contains(NaN)` is false although NaN occurs in the sequence, and
`Of(NaN)` is not `Equal` to a second `Of(NaN)`; on `any` keys `Of` of a slice
panics. -/
theorem of_counterexample :
    (Of nanHeap [Float64.nan]).bind (fun r => Set.Contains r.1 r.2 Float64.nan)
      = some false ∧
    (Of nanHeap [Float64.nan]).bind
      (fun r => (Of r.1 [Float64.nan]).bind (fun q => Set.Equal q.1 r.2 q.2)) = some false ∧
    (Of anyHeap [AnyVal.ints [1]]).isNone = true := by
  decide

/-- C12, amended: for a sequence `xs` of hashable values, `Of(xs...)` returns a
new set that contains a hashable `e` that is equal to itself exactly when `e`
occurs in `xs`.  When every value of `xs` is equal to itself,
`Of(xs...).Len()` is the number of distinct values of `xs` and, for every
permutation `ys` of `xs`, `Of(xs...)` is `Equal` to `Of(ys...)`, in both
directions. -/
theorem of_spec (h : Heap T) (xs ys : List T)
    (hx : ∀ x ∈ xs, Comparable.hashable x = true) (hp : ys.Perm xs) :
    ∃ h1 s, Of h xs = some (h1, s) ∧
      (∀ e, Comparable.hashable e = true → Comparable.selfEq e = true →
        Set.Contains h1 s e = some (decide (e ∈ xs))) ∧
      ∃ h2 t, Of h1 ys = some (h2, t) ∧
        ((∀ x ∈ xs, Comparable.selfEq x = true) →
          Set.Len h1 s = some xs.dedup.length ∧
          Set.Equal h2 s t = some true ∧ Set.Equal h2 t s = some true) := by
  have hy : ∀ y ∈ ys, Comparable.hashable y = true := fun y hym => hx y (hp.mem_iff.mp hym)
  obtain ⟨h1, e1, ⟨k1, u1⟩, hm1, _⟩ := of_keys h xs hx
  obtain ⟨h2, e2, ⟨k2, u2⟩, hm2, _⟩ := of_keys h1 ys hy
  have hs1 : h.objs.length < h1.objs.length := fresh_lt h h1 k1 u1
  have ht2 : h1.objs.length < h2.objs.length := fresh_lt h1 h2 k2 u2
  have hs2 : h.objs.length < h2.objs.length := Nat.lt_trans hs1 ht2
  have ks : keysOf h2 h.objs.length = keysOf h1 h.objs.length :=
    (fresh_frame h1 h2 k2 u2 h.objs.length hs1).2.1
  refine ⟨h1, some h.objs.length, e1, ?_, h2, some h1.objs.length, e2, ?_⟩
  · intro e he hse
    rw [contains_eq h1 _ hs1 e he, keyFound_decide, Option.some.injEq, Bool.eq_iff_iff]
    simp [hm1 e, mem_proper, hse]
  · intro hself
    have hxl : ∀ x ∈ xs, Comparable.hashable x = true ∧ Comparable.selfEq x = true :=
      fun x hxm => ⟨hx x hxm, hself x hxm⟩
    have hyl : ∀ y ∈ ys, Comparable.hashable y = true ∧ Comparable.selfEq y = true :=
      fun y hym => hxl y (hp.mem_iff.mp hym)
    obtain ⟨g1, f1, _, ls1, nd1, mem1⟩ := of_keys_lawful h xs hxl
    obtain ⟨g2, f2, _, ls2, nd2, mem2⟩ := of_keys_lawful h1 ys hyl
    have hg1 : g1 = h1 := by
      have := f1.symm.trans e1
      exact (Prod.mk.inj (Option.some.inj this)).1
    have hg2 : g2 = h2 := by
      have := f2.symm.trans e2
      exact (Prod.mk.inj (Option.some.inj this)).1
    subst hg1
    subst hg2
    refine ⟨?_, ?_, ?_⟩
    · rw [len_eq g1 _ hs1]
      exact congrArg some (perm_dedup_of_mem _ xs nd1 mem1).length_eq
    · rw [equal_true_iff g2 _ _ hs2 ht2]
      refine Or.inr ⟨by rw [ks]; exact ls1, ls2, fun e => ?_⟩
      rw [ks, mem1, mem2, hp.mem_iff]
    · rw [equal_true_iff g2 _ _ ht2 hs2]
      refine Or.inr ⟨ls2, by rw [ks]; exact ls1, fun e => ?_⟩
      rw [ks, mem1, mem2, hp.mem_iff]

theorem of_spec_witness :
    ((∀ x ∈ ([1, 2, 2, 3] : List Nat), Comparable.hashable x = true) ∧
      ([3, 2, 1, 2] : List Nat).Perm [1, 2, 2, 3]) ∧
    ∃ h1 s, Of emptyHeap [1, 2, 2, 3] = some (h1, s) ∧
      (∀ e, Comparable.hashable e = true → Comparable.selfEq e = true →
        Set.Contains h1 s e = some (decide (e ∈ [1, 2, 2, 3]))) ∧
      ∃ h2 t, Of h1 [3, 2, 1, 2] = some (h2, t) ∧
        ((∀ x ∈ ([1, 2, 2, 3] : List Nat), Comparable.selfEq x = true) →
          Set.Len h1 s = some ([1, 2, 2, 3] : List Nat).dedup.length ∧
          Set.Equal h2 s t = some true ∧ Set.Equal h2 t s = some true) :=
  ⟨⟨fun _ _ => rfl, by decide⟩,
    of_spec emptyHeap [1, 2, 2, 3] [3, 2, 1, 2] (fun _ _ => rfl) (by decide)⟩

/-- C16, as the claim states it, fails on `float64` keys: `Of(NaN).AsSlice()`
is `[NaN]` while `Of(NaN).Contains(NaN)` is false, and `Of(NaN, NaN).AsSlice()`
lists NaN twice. -/
theorem asSlice_counterexample :
    (Of nanHeap [Float64.nan]).bind (fun r => Set.AsSlice r.1 r.2) = some [Float64.nan] ∧
    (Of nanHeap [Float64.nan]).bind (fun r => Set.Contains r.1 r.2 Float64.nan)
      = some false ∧
    (Of nanHeap [Float64.nan, Float64.nan]).bind (fun r => Set.AsSlice r.1 r.2)
      = some [Float64.nan, Float64.nan] := by
  decide

/-- C16, amended: for a non-nil set `s`, `s.AsSlice()` returns a slice of
length `s.Len()` in which a hashable value that is equal to itself occurs
exactly when `s` contains it, and no value that is equal to itself occurs
twice; when `s` holds no element differing from itself the slice has no
duplicates.  Hence, for a sequence `xs` of hashable values that are equal to
themselves, `Of(xs...).AsSlice()` is a permutation of the distinct values of
`xs`, and `Of(1, 2, 3).AsSlice()`, once sorted, is `[1, 2, 3]`. -/
theorem asSlice_spec (h : Heap T) (s : Nat) (hs : s < h.objs.length) :
    (∃ l, Set.AsSlice h (some s) = some l ∧
      Set.Len h (some s) = some l.length ∧
      (∀ e, Comparable.hashable e = true → Comparable.selfEq e = true →
        Set.Contains h (some s) e = some (decide (e ∈ l))) ∧
      (∀ e, Comparable.selfEq e = true → l.count e ≤ 1) ∧
      (SelfEqual h (some s) → l.Nodup)) ∧
    (∀ xs : List T, (∀ x ∈ xs, Comparable.hashable x = true ∧ Comparable.selfEq x = true) →
      ∃ h1 t l, Of h xs = some (h1, t) ∧ Set.AsSlice h1 t = some l ∧ l.Perm xs.dedup) ∧
    (∀ g : Heap Nat, ∃ g1 t l, Of g [1, 2, 3] = some (g1, t) ∧
      Set.AsSlice g1 t = some l ∧ l.insertionSort (fun x y => x ≤ y) = [1, 2, 3]) := by
  refine ⟨⟨keysOf h s, asSlice_eq h s hs, len_eq h s hs, ?_, ?_, ?_⟩, ?_, ?_⟩
  · intro e he hse
    rw [contains_eq h s hs e he]
    simp [keyFound, hse]
  · intro e hse
    have hnd := keysOf_nodup h s
    have hc : (proper (keysOf h s)).count e = (keysOf h s).count e := by
      unfold proper
      exact List.count_filter (by simpa using hse)
    rw [← hc]
    exact List.nodup_iff_count_le_one.mp hnd e
  · intro ss
    have ls := (selfEqual_iff h s hs).mp ss
    rw [← proper_eq_self _ ls]
    exact keysOf_nodup h s
  · intro xs hx
    obtain ⟨h1, e1, ⟨k1, u1⟩, _, nd1, mem1⟩ := of_keys_lawful h xs hx
    exact ⟨h1, some h.objs.length, keysOf h1 h.objs.length, e1,
      asSlice_eq h1 _ (fresh_lt h h1 k1 u1), perm_dedup_of_mem _ xs nd1 mem1⟩
  · intro g
    obtain ⟨g1, e1, ⟨k1, u1⟩, _, nd1, mem1⟩ :=
      of_keys_lawful g [1, 2, 3] (fun _ _ => ⟨rfl, rfl⟩)
    refine ⟨g1, some g.objs.length, keysOf g1 g.objs.length, e1,
      asSlice_eq g1 _ (fresh_lt g g1 k1 u1), ?_⟩
    have hperm : (keysOf g1 g.objs.length).Perm [1, 2, 3] := by
      have := perm_dedup_of_mem _ [1, 2, 3] nd1 mem1
      simpa using this
    apply List.eq_of_perm_of_sorted
      ((List.perm_insertionSort (fun x y : Nat => x ≤ y) _).trans hperm)
      (List.sorted_insertionSort (fun x y : Nat => x ≤ y) _)
    simp

theorem asSlice_spec_witness :
    (0 < sampleHeap.objs.length) ∧
    (∃ l, Set.AsSlice sampleHeap (some 0) = some l ∧
      Set.Len sampleHeap (some 0) = some l.length ∧
      (∀ e, Comparable.hashable e = true → Comparable.selfEq e = true →
        Set.Contains sampleHeap (some 0) e = some (decide (e ∈ l))) ∧
      (∀ e, Comparable.selfEq e = true → l.count e ≤ 1) ∧
      (SelfEqual sampleHeap (some 0) → l.Nodup)) ∧
    (∀ xs : List Nat,
      (∀ x ∈ xs, Comparable.hashable x = true ∧ Comparable.selfEq x = true) →
      ∃ h1 t l, Of sampleHeap xs = some (h1, t) ∧ Set.AsSlice h1 t = some l ∧
        l.Perm xs.dedup) ∧
    (∀ g : Heap Nat, ∃ g1 t l, Of g [1, 2, 3] = some (g1, t) ∧
      Set.AsSlice g1 t = some l ∧ l.insertionSort (fun x y => x ≤ y) = [1, 2, 3]) :=
  ⟨by decide, asSlice_spec sampleHeap 0 (by decide)⟩

/-! ## Sharing of tables -/

theorem shares_symm (h : Heap T) (i j : Nat) (hs : Shares h i j) : Shares h j i := by
  obtain ⟨t, hi, hj⟩ := hs
  exact ⟨t, hj, hi⟩

theorem keysOf_of_shares (h : Heap T) (i j : Nat) (hs : Shares h i j) :
    keysOf h i = keysOf h j := by
  obtain ⟨t, hi, hj⟩ := hs
  rw [keysOf_of_obj h i _ hi, keysOf_of_obj h j _ hj]

/-- Writes through object `i` do not change which other objects hold the same
table. -/
theorem updates_shares_iff (h hh : Heap T) (i : Nat) (ks : List T) (u : Updates h hh i ks)
    (j k : Nat) (hjk : j ≠ k) : Shares hh j k ↔ Shares h j k := by
  have key : ∀ a b : Nat, a ≠ b → a ≠ i → (Shares hh a b ↔ Shares h a b) := by
    intro a b hab hai
    have ea : hh.objs[a]? = h.objs[a]? := u.2.2.1 a hai
    by_cases hbi : b = i
    · subst hbi
      constructor
      · rintro ⟨t, h1, h2⟩
        have h1' : h.objs[a]? = some ⟨some t⟩ := ea.symm.trans h1
        have ht := (table_of_obj h a t h1').1
        have hib : b < h.objs.length := by
          rw [← u.1]
          exact lt_of_obj hh b _ h2
        obtain ⟨o, ho⟩ := exists_obj h b hib
        rcases o with ⟨_ | t1⟩
        · rcases u.2.2.2.2.2.2 ho with hn | ⟨t2, ht2, hs2⟩
          · have h2' : hh.objs[b]? = some ⟨some t⟩ := h2
            rw [hn] at h2'
            exact absurd h2' (by simp)
          · have h2' : hh.objs[b]? = some ⟨some t⟩ := h2
            rw [hs2] at h2'
            have : t2 = t := by simpa using h2'
            omega
        · have h3 := u.2.2.2.2.2.1 t1 ho
          have h2' : hh.objs[b]? = some ⟨some t⟩ := h2
          rw [h3] at h2'
          have : t1 = t := by simpa using h2'
          rw [this] at ho
          exact ⟨t, h1', ho⟩
      · rintro ⟨t, h1, h2⟩
        exact ⟨t, ea.trans h1, u.2.2.2.2.2.1 t h2⟩
    · have eb : hh.objs[b]? = h.objs[b]? := u.2.2.1 b hbi
      constructor
      · rintro ⟨t, h1, h2⟩
        exact ⟨t, ea.symm.trans h1, eb.symm.trans h2⟩
      · rintro ⟨t, h1, h2⟩
        exact ⟨t, ea.trans h1, eb.trans h2⟩
  by_cases hji : j = i
  · have hki : k ≠ i := fun hc => hjk (hji.trans hc.symm)
    constructor
    · intro hs
      exact shares_symm h k j ((key k j (Ne.symm hjk) hki).mp (shares_symm hh j k hs))
    · intro hs
      exact shares_symm hh k j ((key k j (Ne.symm hjk) hki).mpr (shares_symm h j k hs))
  · exact key j k hjk hji

theorem fresh_not_shares (h hh : Heap T) (ks : List T)
    (u : Updates (New h).1 hh h.objs.length ks) (j : Nat) (hj : j < h.objs.length) :
    ¬ Shares hh j h.objs.length := by
  intro hs
  have := (updates_shares_iff _ hh _ ks u j h.objs.length (Nat.ne_of_lt hj)).mp hs
  exact new_not_shares h j hj (shares_symm _ _ _ this)

/-! ## AddAll and RemoveAll -/

theorem mem_keyInsert_self (x : T) (l : List T) : x ∈ keyInsert x l := by
  unfold keyInsert
  split
  · rename_i hc
    exact hc.2
  · exact List.mem_cons_self x l

theorem addLoop_noop (h : Heap T) (s : Nat) (hs : s < h.objs.length) (ks : List T)
    (hks : ∀ k ∈ ks, Comparable.hashable k = true ∧ keyFound k (keysOf h s) = true) :
    ks.foldlM (fun hh key => Set.Add hh (some s) key) h = some h := by
  induction ks with
  | nil => rfl
  | cons k ks ih =>
    have hk := hks k (List.mem_cons_self k ks)
    rw [List.foldlM_cons, add_present h s hs k hk.1 hk.2]
    exact ih (fun x hx => hks x (List.mem_cons_of_mem k hx))

/-- When every key of `b` is found in `a`, `a.AddAll(b)` leaves the heap as it
is. -/
theorem addAll_noop (h : Heap T) (a b : Nat) (ha : a < h.objs.length)
    (hb : b < h.objs.length)
    (hks : ∀ k ∈ keysOf h b, keyFound k (keysOf h a) = true) :
    Set.AddAll h (some a) (some b) = some h := by
  obtain ⟨o, ho, hr⟩ := load_range h b hb
  simp only [Set.AddAll, ho, Option.bind_eq_bind, Option.some_bind, hr]
  exact addLoop_noop h a ha (keysOf h b) (fun k hk => ⟨keysOf_hashable h b k hk, hks k hk⟩)

/-- C14, as the claim states it, fails in three ways.  When `a` and `b` are the
same set `Of(1)`, or when `b` is a struct copy of `a = Of(1)` and so holds the
same map, after `a.AddAll(b)` the element 2 is not in `a`, yet the later
`b.Add(2)` puts 2 into `a`.  On `float64` keys, after `a.AddAll(b)` with
`a = New()` and `b = Of(NaN)`, `a.ContainsAll(b)` is false. -/
theorem addAll_counterexample :
    ((Set.AddAll aliasHeap (some 0) (some 0)).bind
        (fun h1 => Set.Contains h1 (some 0) 2) = some false ∧
      ((Set.AddAll aliasHeap (some 0) (some 0)).bind (fun h1 => Set.Add h1 (some 0) 2)).bind
        (fun h2 => Set.Contains h2 (some 0) 2) = some true) ∧
    ((Set.AddAll sharedHeap (some 0) (some 1)).bind
        (fun h1 => Set.Contains h1 (some 0) 2) = some false ∧
      ((Set.AddAll sharedHeap (some 0) (some 1)).bind (fun h1 => Set.Add h1 (some 1) 2)).bind
        (fun h2 => Set.Contains h2 (some 0) 2) = some true) ∧
    (Set.AddAll nanHeap (some 1) (some 0)).bind
      (fun h1 => Set.ContainsAll h1 (some 1) (some 0)) = some false := by
  decide

/-- C14, amended: let `a` and `b` be non-nil sets (`a` possibly zero-valued)
such that `b` holds no element differing from itself, or `a` and `b` are
distinct objects that do not hold the same map.  Then `a.AddAll(b)` returns;
after it `a` contains a hashable `e` exactly when `a` or `b` contained it
before, and `b` is unchanged.  When `b` holds no element differing from itself,
`a.ContainsAll(b)` is then true.  When `a` and `b` are distinct objects that do
not hold the same map, a later `b.Add(x)` with `x` not in `a` leaves `a`
unchanged and makes `a.ContainsAll(b)` false. -/
theorem addAll_spec (h : Heap T) (a b : Nat) (ha : a < h.objs.length)
    (hb : b < h.objs.length)
    (hd : SelfEqual h (some b) ∨ (a ≠ b ∧ ¬ Shares h a b)) :
    ∃ h1, Set.AddAll h (some a) (some b) = some h1 ∧
      (∀ e, Comparable.hashable e = true →
        ∃ ca cb, Set.Contains h (some a) e = some ca ∧
          Set.Contains h (some b) e = some cb ∧
          Set.Contains h1 (some a) e = some (ca || cb)) ∧
      observe h1 (some b) = observe h (some b) ∧
      (SelfEqual h (some b) → Set.ContainsAll h1 (some a) (some b) = some true) ∧
      (a ≠ b → ¬ Shares h a b →
        ∀ x, Set.Contains h1 (some a) x = some false →
          ∃ h2, Set.Add h1 (some b) x = some h2 ∧
            observe h2 (some a) = observe h1 (some a) ∧
            Set.ContainsAll h2 (some a) (some b) = some false) := by
  obtain ⟨h1, e1, u1⟩ := addAll_updates h a b ha hb
  have ha1 : a < h1.objs.length := updates_lt h h1 a a _ u1 ha
  have hb1 : b < h1.objs.length := updates_lt h h1 a b _ u1 hb
  have mema : ∀ e, e ∈ proper (keysOf h1 a) ↔
      (e ∈ proper (keysOf h a) ∨ e ∈ proper (keysOf h b)) := by
    intro e
    rw [u1.2.1, mem_proper_foldl_insert]
  have hobs : observe h1 (some b) = observe h (some b) := by
    by_cases hsep : a ≠ b ∧ ¬ Shares h a b
    · exact updates_observe h h1 a b _ u1 (Ne.symm hsep.1) hsep.2
    · have sb : SelfEqual h (some b) := by
        rcases hd with hd | hd
        · exact hd
        · exact absurd hd hsep
      have lb := (selfEqual_iff h b hb).mp sb
      have hkeys : keysOf h a = keysOf h b := by
        by_cases hab : a = b
        · rw [hab]
        · have hsh : Shares h a b := by
            by_contra hc
            exact hsep ⟨hab, hc⟩
          exact keysOf_of_shares h a b hsh
      have hn := addAll_noop h a b ha hb (fun k hk => by
        rw [hkeys]
        exact (keyFound_true k _).mpr ⟨hk, lb k hk⟩)
      rw [e1] at hn
      rw [Option.some.inj hn]
  have kb : keysOf h1 b = keysOf h b := by
    obtain ⟨o, ho⟩ := exists_obj h b hb
    obtain ⟨o1, ho1⟩ := exists_obj h1 b hb1
    rw [observe_eq h b o ho, observe_eq h1 b o1 ho1] at hobs
    exact (Prod.mk.inj (Option.some.inj hobs)).2
  refine ⟨h1, e1, ?_, hobs, ?_, ?_⟩
  · intro e he
    refine ⟨_, _, contains_eq h a ha e he, contains_eq h b hb e he, ?_⟩
    rw [contains_eq h1 a ha1 e he]
    simp only [keyFound_decide]
    rw [Option.some.injEq, Bool.eq_iff_iff]
    simp [mema e]
  · intro sb
    have lb := (selfEqual_iff h b hb).mp sb
    rw [containsAll_eq h1 a b ha1 hb1, Option.some.injEq, List.all_eq_true]
    intro k hk
    rw [kb] at hk
    rw [keyFound_iff, mema k]
    exact Or.inr ((mem_proper k _).mpr ⟨hk, lb k hk⟩)
  · intro hab hns x hx
    have hxh : Comparable.hashable x = true := by
      cases hc : Comparable.hashable x with
      | true => rfl
      | false =>
        rw [contains_unhashable h1 _ x hc] at hx
        exact absurd hx (by simp)
    have hxa : keyFound x (keysOf h1 a) = false := by
      rw [contains_eq h1 a ha1 x hxh] at hx
      exact Option.some.inj hx
    obtain ⟨h2, e2, u2⟩ := add_updates h1 b hb1 x hxh
    have ha2 : a < h2.objs.length := updates_lt h1 h2 b a _ u2 ha1
    have hb2 : b < h2.objs.length := updates_lt h1 h2 b b _ u2 hb1
    have hns1 : ¬ Shares h1 b a := by
      intro hc
      exact hns (shares_symm h b a ((updates_shares_iff h h1 a _ u1 b a (Ne.symm hab)).mp hc))
    refine ⟨h2, e2, updates_observe h1 h2 b a _ u2 hab hns1, ?_⟩
    rw [containsAll_eq h2 a b ha2 hb2, Option.some.injEq, Bool.eq_false_iff]
    intro hall
    rw [List.all_eq_true] at hall
    have hxb : x ∈ keysOf h2 b := by
      rw [u2.2.1]
      exact mem_keyInsert_self x _
    have := hall x hxb
    rw [(updates_other h1 h2 b a _ u2 hab hns1).2, hxa] at this
    exact absurd this (by simp)

theorem addAll_spec_witness :
    (2 < sampleHeap.objs.length ∧ 0 < sampleHeap.objs.length ∧
      (SelfEqual sampleHeap (some 0) ∨ (2 ≠ 0 ∧ ¬ Shares sampleHeap 2 0))) ∧
    ∃ h1, Set.AddAll sampleHeap (some 2) (some 0) = some h1 ∧
      (∀ e, Comparable.hashable e = true →
        ∃ ca cb, Set.Contains sampleHeap (some 2) e = some ca ∧
          Set.Contains sampleHeap (some 0) e = some cb ∧
          Set.Contains h1 (some 2) e = some (ca || cb)) ∧
      observe h1 (some 0) = observe sampleHeap (some 0) ∧
      (SelfEqual sampleHeap (some 0) →
        Set.ContainsAll h1 (some 2) (some 0) = some true) ∧
      (2 ≠ 0 → ¬ Shares sampleHeap 2 0 →
        ∀ x, Set.Contains h1 (some 2) x = some false →
          ∃ h2, Set.Add h1 (some 0) x = some h2 ∧
            observe h2 (some 2) = observe h1 (some 2) ∧
            Set.ContainsAll h2 (some 2) (some 0) = some false) :=
  ⟨⟨by decide, by decide, Or.inl (fun _ _ _ _ => rfl)⟩,
    addAll_spec sampleHeap 2 0 (by decide) (by decide) (Or.inl (fun _ _ _ _ => rfl))⟩

/-- C15, as the claim states it, fails in three ways.  When `a` and `b` are the
same set `Of(1)`, or when `b` is a struct copy of `a = Of(1)` and so holds the
same map, `b` contains 1 before `a.RemoveAll(b)` and not after it.  On
`float64` keys, for `a = Of(NaN)` and `b = New()`, `a` after `a.RemoveAll(b)` is
not `Equal` to `Difference(a, b)`. -/
theorem removeAll_counterexample :
    (Set.Contains aliasHeap (some 0) 1 = some true ∧
      (Set.RemoveAll aliasHeap (some 0) (some 0)).bind
        (fun h1 => Set.Contains h1 (some 0) 1) = some false) ∧
    (Set.Contains sharedHeap (some 1) 1 = some true ∧
      (Set.RemoveAll sharedHeap (some 0) (some 1)).bind
        (fun h1 => Set.Contains h1 (some 1) 1) = some false) ∧
    (Difference nanHeap (some 0) (some 1)).bind
      (fun r => (Set.RemoveAll r.1 (some 0) (some 1)).bind
        (fun h2 => Set.Equal h2 (some 0) r.2)) = some false := by
  decide

/-- C15, amended: for non-nil sets `a` and `b`, `a.RemoveAll(b)` returns; after
it `a` contains a hashable `e` exactly when `a` contained it before and `b` did
not, elements of `b` that were not in `a` being ignored, and `b` is unchanged
when `a` and `b` are distinct objects that do not hold the same map.  When `a`
holds no element differing from itself, the resulting `a` is `Equal` to
`Difference(a, b)` computed before the call. -/
theorem removeAll_spec (h : Heap T) (a b : Nat) (ha : a < h.objs.length)
    (hb : b < h.objs.length) :
    ∃ h1, Set.RemoveAll h (some a) (some b) = some h1 ∧
      (∀ e, Comparable.hashable e = true →
        ∃ ca cb, Set.Contains h (some a) e = some ca ∧
          Set.Contains h (some b) e = some cb ∧
          Set.Contains h1 (some a) e = some (ca && !cb)) ∧
      (a ≠ b → ¬ Shares h a b → observe h1 (some b) = observe h (some b)) ∧
      ∃ hd d h2, Difference h (some a) (some b) = some (hd, d) ∧
        Set.RemoveAll hd (some a) (some b) = some h2 ∧
        (SelfEqual h (some a) → Set.Equal h2 (some a) d = some true) := by
  obtain ⟨h1, e1, u1⟩ := removeAll_updates h a b ha hb
  have ha1 : a < h1.objs.length := updates_lt h h1 a a _ u1 ha
  refine ⟨h1, e1, ?_, fun hab hns => updates_observe h h1 a b _ u1 (Ne.symm hab) hns, ?_⟩
  · intro e he
    refine ⟨_, _, contains_eq h a ha e he, contains_eq h b hb e he, ?_⟩
    rw [contains_eq h1 a ha1 e he, u1.2.1]
    simp only [keyFound_decide]
    rw [Option.some.injEq, Bool.eq_iff_iff]
    simp [mem_proper_foldl_delete e _ _ (keysOf_nodup h a)]
  · obtain ⟨hd, ed, ⟨kd, ud⟩, memd, nd⟩ := difference_keys h a b ha hb
    have hsd : h.objs.length < hd.objs.length := fresh_lt h hd kd ud
    have had : a < hd.objs.length := Nat.lt_trans ha hsd
    have hbd : b < hd.objs.length := Nat.lt_trans hb hsd
    have ka : keysOf hd a = keysOf h a := (fresh_frame h hd kd ud a ha).2.1
    have kb : keysOf hd b = keysOf h b := (fresh_frame h hd kd ud b hb).2.1
    obtain ⟨h2, e2, u2⟩ := removeAll_updates hd a b had hbd
    have ha2 : a < h2.objs.length := updates_lt hd h2 a a _ u2 had
    have hs2 : h.objs.length < h2.objs.length := updates_lt hd h2 a _ _ u2 hsd
    refine ⟨hd, some h.objs.length, h2, ed, e2, ?_⟩
    intro sa
    have la := (selfEqual_iff h a ha).mp sa
    have hna : nans (keysOf h a) = [] := nans_eq_nil _ la
    have kd2 : keysOf h2 h.objs.length = keysOf hd h.objs.length :=
      (updates_other hd h2 a _ _ u2 (Nat.ne_of_gt ha)
        (fresh_not_shares h hd kd ud a ha)).2
    have l1 : ∀ k ∈ keysOf h2 a, Comparable.selfEq k = true := by
      apply selfEq_of_nans_nil
      rw [u2.2.1, nans_foldl_delete, ka, hna]
    have l2 : ∀ k ∈ keysOf h2 h.objs.length, Comparable.selfEq k = true := by
      apply selfEq_of_nans_nil
      apply List.length_eq_zero.mp
      rw [kd2, nd, hna]
      rfl
    rw [equal_true_iff h2 a _ ha2 hs2]
    refine Or.inr ⟨l1, l2, fun e => ?_⟩
    rw [← proper_eq_self _ l1, ← proper_eq_self _ l2, kd2, memd, u2.2.1,
      mem_proper_foldl_delete e _ _ (keysOf_nodup hd a), ka, kb]

theorem removeAll_spec_witness :
    (0 < sampleHeap.objs.length ∧ 1 < sampleHeap.objs.length) ∧
    ∃ h1, Set.RemoveAll sampleHeap (some 0) (some 1) = some h1 ∧
      (∀ e, Comparable.hashable e = true →
        ∃ ca cb, Set.Contains sampleHeap (some 0) e = some ca ∧
          Set.Contains sampleHeap (some 1) e = some cb ∧
          Set.Contains h1 (some 0) e = some (ca && !cb)) ∧
      (0 ≠ 1 → ¬ Shares sampleHeap 0 1 →
        observe h1 (some 1) = observe sampleHeap (some 1)) ∧
      ∃ hd d h2, Difference sampleHeap (some 0) (some 1) = some (hd, d) ∧
        Set.RemoveAll hd (some 0) (some 1) = some h2 ∧
        (SelfEqual sampleHeap (some 0) → Set.Equal h2 (some 0) d = some true) :=
  ⟨by decide, removeAll_spec sampleHeap 0 1 (by decide) (by decide)⟩

/-! ## Queries on a nil receiver and on the zero value -/

/-- C18, as the claim states it, fails: on a nil receiver `Len()` does not
return 0, it panics, as do `Contains` and, for a non-empty argument,
`ContainsAll`.  On `any` keys `Contains` of a slice panics on a zero-valued set
too. -/
theorem nil_len_counterexample :
    ¬ (Set.Len sampleHeap none = some 0) ∧
    Set.Len sampleHeap none = none ∧
    Set.Contains sampleHeap none 1 = none ∧
    Set.ContainsAll sampleHeap none (some 0) = none ∧
    Set.Contains anyHeap (some 0) (AnyVal.ints [1]) = none := by
  decide

/-- C18, amended: on a zero-valued set `z` (a non-nil reference to a `Set`
whose map is nil) no read-only query fails and each behaves as on an empty set:
`Len()` is 0, `IsEmpty()` is true, `Contains(e)` is false for every hashable
`e`, `AsSlice()` is empty and, for every non-nil set `x`, `ContainsAll(x)`,
`Equal(x)` and `IsSupersetOf(x)` return `x.IsEmpty()`, `IsSubsetOf(x)` returns
true, `IsProperSubsetOf(x)` returns the negation of `x.IsEmpty()` and
`IsProperSupersetOf(x)` returns false.  On a nil reference `Len`, `IsEmpty`,
`Contains`, `AsSlice` and the four subset predicates panic, `ContainsAll(x)`
returns true when `x` is empty and panics otherwise, and `Equal(x)` returns
false. -/
theorem zero_value_queries (h : Heap T) (z x : Nat)
    (hz : load h (some z) = some ⟨none⟩) (hx : x < h.objs.length) :
    ∃ r, Set.IsEmpty h (some x) = some r ∧
      (Set.Len h (some z) = some 0 ∧
        Set.IsEmpty h (some z) = some true ∧
        (∀ e, Comparable.hashable e = true → Set.Contains h (some z) e = some false) ∧
        Set.AsSlice h (some z) = some [] ∧
        Set.ContainsAll h (some z) (some x) = some r ∧
        Set.Equal h (some z) (some x) = some r ∧
        Set.IsSupersetOf h (some z) (some x) = some r ∧
        Set.IsSubsetOf h (some z) (some x) = some true ∧
        Set.IsProperSubsetOf h (some z) (some x) = some (!r) ∧
        Set.IsProperSupersetOf h (some z) (some x) = some false) ∧
      (Set.Len h none = none ∧
        Set.IsEmpty h none = none ∧
        (∀ e, Set.Contains h none e = none) ∧
        Set.AsSlice h none = none ∧
        Set.ContainsAll h none (some x) = (if r = true then some true else none) ∧
        Set.Equal h none (some x) = some false ∧
        Set.IsSupersetOf h none (some x) = none ∧
        Set.IsSubsetOf h none (some x) = none ∧
        Set.IsProperSubsetOf h none (some x) = none ∧
        Set.IsProperSupersetOf h none (some x) = none) := by
  have hzo : h.objs[z]? = some ⟨none⟩ := hz
  have hzl : z < h.objs.length := lt_of_obj h z _ hzo
  have kz : keysOf h z = [] := by
    rw [keysOf_of_obj h z _ hzo]
    rfl
  refine ⟨_, isEmpty_eq h x hx, ⟨?_, ?_, ?_, ?_, ?_, ?_, ?_, ?_, ?_, ?_⟩,
    ?_, ?_, ?_, ?_, ?_, ?_, ?_, ?_, ?_, ?_⟩
  · rw [len_eq h z hzl, kz]; rfl
  · rw [isEmpty_eq h z hzl, kz]; rfl
  · intro e he
    rw [contains_eq h z hzl e he, kz]
    simp [keyFound]
  · rw [asSlice_eq h z hzl, kz]
  · rw [containsAll_eq h z x hzl hx, kz]
    cases hk : keysOf h x <;> simp [keyFound]
  · rw [equal_eq h z x hzl hx, kz]
    cases hk : keysOf h x with
    | nil => simp
    | cons k ks =>
      have hne : z ≠ x := by
        intro hc
        rw [hc, hk] at kz
        exact absurd kz (by simp)
      simp [hne]
  · rw [isSupersetOf_eq h z x hzl hx, kz]
    cases hk : keysOf h x <;> simp [keyFound]
  · rw [isSubsetOf_eq h z x hzl hx, kz]
    simp
  · rw [isProperSubsetOf_eq h z x hzl hx, kz]
    cases hk : keysOf h x <;> simp
  · rw [isProperSupersetOf_eq h z x hzl hx, kz]
    simp
  · rfl
  · rfl
  · intro e; rfl
  · rfl
  · obtain ⟨o, ho, hr⟩ := load_range h x hx
    cases hk : keysOf h x with
    | nil => simp [Set.ContainsAll, ho, hr, hk, Set.ContainsAll.loop]
    | cons k ks =>
      simp only [Set.ContainsAll, ho, Option.bind_eq_bind, Option.some_bind, hr, hk]
      simp [Set.ContainsAll.loop, Set.Contains, load]
  · simp [Set.Equal]
  · rfl
  · rfl
  · rfl
  · rfl

theorem zero_value_queries_witness :
    (load sampleHeap (some 2) = some ⟨none⟩ ∧ 0 < sampleHeap.objs.length) ∧
    ∃ r, Set.IsEmpty sampleHeap (some 0) = some r ∧
      (Set.Len sampleHeap (some 2) = some 0 ∧
        Set.IsEmpty sampleHeap (some 2) = some true ∧
        (∀ e, Comparable.hashable e = true →
          Set.Contains sampleHeap (some 2) e = some false) ∧
        Set.AsSlice sampleHeap (some 2) = some [] ∧
        Set.ContainsAll sampleHeap (some 2) (some 0) = some r ∧
        Set.Equal sampleHeap (some 2) (some 0) = some r ∧
        Set.IsSupersetOf sampleHeap (some 2) (some 0) = some r ∧
        Set.IsSubsetOf sampleHeap (some 2) (some 0) = some true ∧
        Set.IsProperSubsetOf sampleHeap (some 2) (some 0) = some (!r) ∧
        Set.IsProperSupersetOf sampleHeap (some 2) (some 0) = some false) ∧
      (Set.Len sampleHeap none = none ∧
        Set.IsEmpty sampleHeap none = none ∧
        (∀ e, Set.Contains sampleHeap none e = none) ∧
        Set.AsSlice sampleHeap none = none ∧
        Set.ContainsAll sampleHeap none (some 0) = (if r = true then some true else none) ∧
        Set.Equal sampleHeap none (some 0) = some false ∧
        Set.IsSupersetOf sampleHeap none (some 0) = none ∧
        Set.IsSubsetOf sampleHeap none (some 0) = none ∧
        Set.IsProperSubsetOf sampleHeap none (some 0) = none ∧
        Set.IsProperSupersetOf sampleHeap none (some 0) = none) :=
  ⟨⟨rfl, by decide⟩, zero_value_queries sampleHeap 2 0 rfl (by decide)⟩

/-! ## Heaps that differ by nil maps against empty maps -/

theorem similar_of_updates (h1 h2 g1 g2 : Heap T) (s : Nat) (k1 k2 : List T)
    (sim : Similar h1 h2) (u1 : Updates h1 g1 s k1) (u2 : Updates h2 g2 s k2)
    (hk : k1 = k2) : Similar g1 g2 := by
  refine ⟨by rw [u1.1, u2.1, sim.1], fun j => ?_, fun i j hij => ?_⟩
  · by_cases hj : j = s
    · subst hj
      rw [u1.2.1, u2.2.1, hk]
    · by_cases hs : Shares h1 s j
      · rw [updates_shares h1 g1 s j _ u1 hs,
          updates_shares h2 g2 s j _ u2 ((sim.2.2 s j (Ne.symm hj)).mp hs), hk]
      · have hs2 : ¬ Shares h2 s j := fun hc => hs ((sim.2.2 s j (Ne.symm hj)).mpr hc)
        rw [(updates_other h1 g1 s j _ u1 hj hs).2, (updates_other h2 g2 s j _ u2 hj hs2).2,
          sim.2.1 j]
  · rw [updates_shares_iff h1 g1 s _ u1 i j hij, updates_shares_iff h2 g2 s _ u2 i j hij]
    exact sim.2.2 i j hij

theorem load_none_of_ge (h : Heap T) (i : Nat) (hi : ¬ i < h.objs.length) :
    load h (some i) = none :=
  List.getElem?_eq_none (Nat.le_of_not_lt hi)

theorem len_congr (h1 h2 : Heap T) (sim : Similar h1 h2) (r : Ref) :
    Set.Len h1 r = Set.Len h2 r := by
  cases r with
  | none => rfl
  | some i =>
    by_cases hi : i < h1.objs.length
    · rw [len_eq h1 i hi, len_eq h2 i (by rw [← sim.1]; exact hi), sim.2.1 i]
    · have hi2 : ¬ i < h2.objs.length := by rw [← sim.1]; exact hi
      simp [Set.Len, load_none_of_ge h1 i hi, load_none_of_ge h2 i hi2]

theorem isEmpty_congr (h1 h2 : Heap T) (sim : Similar h1 h2) (r : Ref) :
    Set.IsEmpty h1 r = Set.IsEmpty h2 r := by
  simp only [Set.IsEmpty, len_congr h1 h2 sim r]

theorem asSlice_congr (h1 h2 : Heap T) (sim : Similar h1 h2) (r : Ref) :
    Set.AsSlice h1 r = Set.AsSlice h2 r := by
  cases r with
  | none => rfl
  | some i =>
    by_cases hi : i < h1.objs.length
    · rw [asSlice_eq h1 i hi, asSlice_eq h2 i (by rw [← sim.1]; exact hi), sim.2.1 i]
    · have hi2 : ¬ i < h2.objs.length := by rw [← sim.1]; exact hi
      simp [Set.AsSlice, Set.Len, load_none_of_ge h1 i hi, load_none_of_ge h2 i hi2]

theorem contains_congr (h1 h2 : Heap T) (sim : Similar h1 h2) (r : Ref) (e : T) :
    Set.Contains h1 r e = Set.Contains h2 r e := by
  cases he : Comparable.hashable e with
  | false => rw [contains_unhashable h1 r e he, contains_unhashable h2 r e he]
  | true =>
    cases r with
    | none => rfl
    | some i =>
      by_cases hi : i < h1.objs.length
      · rw [contains_eq h1 i hi e he, contains_eq h2 i (by rw [← sim.1]; exact hi) e he,
          sim.2.1 i]
      · have hi2 : ¬ i < h2.objs.length := by rw [← sim.1]; exact hi
        simp [Set.Contains, load_none_of_ge h1 i hi, load_none_of_ge h2 i hi2]

theorem containsAll_loop_congr (h1 h2 : Heap T) (sim : Similar h1 h2) (s : Ref)
    (ks : List T) : Set.ContainsAll.loop h1 s ks = Set.ContainsAll.loop h2 s ks := by
  induction ks with
  | nil => rfl
  | cons k ks ih => simp only [Set.ContainsAll.loop, contains_congr h1 h2 sim s k, ih]

theorem containsAll_congr (h1 h2 : Heap T) (sim : Similar h1 h2) (s xs : Ref) :
    Set.ContainsAll h1 s xs = Set.ContainsAll h2 s xs := by
  cases xs with
  | none => rfl
  | some j =>
    by_cases hj : j < h1.objs.length
    · have hj2 : j < h2.objs.length := by rw [← sim.1]; exact hj
      obtain ⟨o1, ho1, hr1⟩ := load_range h1 j hj
      obtain ⟨o2, ho2, hr2⟩ := load_range h2 j hj2
      simp only [Set.ContainsAll, ho1, ho2, Option.bind_eq_bind, Option.some_bind, hr1, hr2,
        sim.2.1 j]
      exact containsAll_loop_congr h1 h2 sim s _
    · have hj2 : ¬ j < h2.objs.length := by rw [← sim.1]; exact hj
      simp [Set.ContainsAll, load_none_of_ge h1 j hj, load_none_of_ge h2 j hj2]

theorem equal_congr (h1 h2 : Heap T) (sim : Similar h1 h2) (s o : Ref) :
    Set.Equal h1 s o = Set.Equal h2 s o := by
  simp only [Set.Equal, len_congr h1 h2 sim, containsAll_congr h1 h2 sim]

theorem isSubsetOf_congr (h1 h2 : Heap T) (sim : Similar h1 h2) (s o : Ref) :
    Set.IsSubsetOf h1 s o = Set.IsSubsetOf h2 s o := by
  simp only [Set.IsSubsetOf, len_congr h1 h2 sim, containsAll_congr h1 h2 sim]

theorem isProperSubsetOf_congr (h1 h2 : Heap T) (sim : Similar h1 h2) (s o : Ref) :
    Set.IsProperSubsetOf h1 s o = Set.IsProperSubsetOf h2 s o := by
  simp only [Set.IsProperSubsetOf, len_congr h1 h2 sim, containsAll_congr h1 h2 sim]

theorem isSupersetOf_congr (h1 h2 : Heap T) (sim : Similar h1 h2) (s o : Ref) :
    Set.IsSupersetOf h1 s o = Set.IsSupersetOf h2 s o := by
  simp only [Set.IsSupersetOf, len_congr h1 h2 sim, containsAll_congr h1 h2 sim]

theorem isProperSupersetOf_congr (h1 h2 : Heap T) (sim : Similar h1 h2) (s o : Ref) :
    Set.IsProperSupersetOf h1 s o = Set.IsProperSupersetOf h2 s o := by
  simp only [Set.IsProperSupersetOf, len_congr h1 h2 sim, containsAll_congr h1 h2 sim]

/-! ## Call sequences on similar heaps -/

theorem call_similar (h1 h2 : Heap T) (s : Nat) (c : Call T) (sim : Similar h1 h2)
    (hs : s < h1.objs.length) (hc : Call.ok s c) :
    ∃ g1 g2, c.run h1 (some s) = some g1 ∧ c.run h2 (some s) = some g2 ∧
      Similar g1 g2 ∧ g1.objs.length = h1.objs.length := by
  have hs2 : s < h2.objs.length := by rw [← sim.1]; exact hs
  cases c with
  | add e =>
    have he : Comparable.hashable e = true := hc
    obtain ⟨g1, e1, u1⟩ := add_updates h1 s hs e he
    obtain ⟨g2, e2, u2⟩ := add_updates h2 s hs2 e he
    exact ⟨g1, g2, e1, e2, similar_of_updates h1 h2 g1 g2 s _ _ sim u1 u2 (by rw [sim.2.1 s]),
      u1.1⟩
  | remove e =>
    have he : Comparable.hashable e = true := hc
    obtain ⟨g1, e1, u1⟩ := remove_updates h1 s hs e he
    obtain ⟨g2, e2, u2⟩ := remove_updates h2 s hs2 e he
    exact ⟨g1, g2, e1, e2, similar_of_updates h1 h2 g1 g2 s _ _ sim u1 u2 (by rw [sim.2.1 s]),
      u1.1⟩
  | addAll o =>
    have ho : o < h1.objs.length := Nat.lt_of_le_of_lt hc hs
    have ho2 : o < h2.objs.length := by rw [← sim.1]; exact ho
    obtain ⟨g1, e1, u1⟩ := addAll_updates h1 s o hs ho
    obtain ⟨g2, e2, u2⟩ := addAll_updates h2 s o hs2 ho2
    exact ⟨g1, g2, e1, e2,
      similar_of_updates h1 h2 g1 g2 s _ _ sim u1 u2 (by rw [sim.2.1 s, sim.2.1 o]), u1.1⟩
  | removeAll o =>
    have ho : o < h1.objs.length := Nat.lt_of_le_of_lt hc hs
    have ho2 : o < h2.objs.length := by rw [← sim.1]; exact ho
    obtain ⟨g1, e1, u1⟩ := removeAll_updates h1 s o hs ho
    obtain ⟨g2, e2, u2⟩ := removeAll_updates h2 s o hs2 ho2
    exact ⟨g1, g2, e1, e2,
      similar_of_updates h1 h2 g1 g2 s _ _ sim u1 u2 (by rw [sim.2.1 s, sim.2.1 o]), u1.1⟩

theorem runCalls_similar (s : Nat) (cs : List (Call T)) (hcs : ∀ c ∈ cs, Call.ok s c) :
    ∀ h1 h2 : Heap T, Similar h1 h2 → s < h1.objs.length →
      ∃ g1 g2, runCalls h1 (some s) cs = some g1 ∧ runCalls h2 (some s) cs = some g2 ∧
        Similar g1 g2 ∧ g1.objs.length = h1.objs.length := by
  induction cs with
  | nil =>
    intro h1 h2 sim _
    exact ⟨h1, h2, rfl, rfl, sim, rfl⟩
  | cons c cs ih =>
    intro h1 h2 sim hs
    obtain ⟨g1, g2, e1, e2, sim1, len1⟩ :=
      call_similar h1 h2 s c sim hs (hcs c (List.mem_cons_self c cs))
    obtain ⟨k1, k2, f1, f2, sim2, len2⟩ :=
      ih (fun d hd => hcs d (List.mem_cons_of_mem c hd)) g1 g2 sim1 (by rw [len1]; exact hs)
    refine ⟨k1, k2, ?_, ?_, sim2, len2.trans len1⟩
    · simpa [runCalls, List.foldlM_cons, e1] using f1
    · simpa [runCalls, List.foldlM_cons, e2] using f2

/-! ## The zero value against `New()` -/

theorem zero_objs (h : Heap T) : (allocZero h).1.objs = h.objs ++ [⟨none⟩] := rfl

theorem zero_tables (h : Heap T) : (allocZero h).1.tables = h.tables := rfl

theorem zero_length (h : Heap T) : (allocZero h).1.objs.length = h.objs.length + 1 := by
  simp [zero_objs]

theorem zero_obj (h : Heap T) : (allocZero h).1.objs[h.objs.length]? = some ⟨none⟩ := by
  rw [zero_objs]
  simp

theorem zero_old (h : Heap T) (j : Nat) (hj : j < h.objs.length) :
    (allocZero h).1.objs[j]? = h.objs[j]? := by
  rw [zero_objs]
  exact List.getElem?_append_left hj

theorem zero_keys (h : Heap T) : keysOf (allocZero h).1 h.objs.length = ([] : List T) := by
  rw [keysOf_of_obj _ _ _ (zero_obj h)]
  rfl

theorem zero_keys_old (h : Heap T) (j : Nat) (hj : j < h.objs.length) :
    keysOf (allocZero h).1 j = keysOf h j := by
  obtain ⟨o, ho⟩ := exists_obj h j hj
  rw [keysOf_of_obj h j o ho, keysOf_of_obj _ j o ((zero_old h j hj).trans ho)]
  rcases o with ⟨_ | t⟩
  · rfl
  · rfl

theorem shares_lt (h : Heap T) (i j : Nat) (hs : Shares h i j) :
    i < h.objs.length ∧ j < h.objs.length := by
  obtain ⟨t, hi, hj⟩ := hs
  exact ⟨lt_of_obj h i _ hi, lt_of_obj h j _ hj⟩

theorem zero_shares (h : Heap T) (i j : Nat) :
    Shares (allocZero h).1 i j ↔ Shares h i j := by
  constructor
  · intro hs
    obtain ⟨t, hi, hj⟩ := hs
    have hi0 : (allocZero h).1.objs[i]? = some ⟨some t⟩ := hi
    have hj0 : (allocZero h).1.objs[j]? = some ⟨some t⟩ := hj
    have hil : i < h.objs.length := by
      have := lt_of_obj _ i _ hi0
      rw [zero_length] at this
      rcases Nat.lt_succ_iff_lt_or_eq.mp this with hlt | heq
      · exact hlt
      · rw [heq, zero_obj] at hi0
        exact absurd hi0 (by simp)
    have hjl : j < h.objs.length := by
      have := lt_of_obj _ j _ hj0
      rw [zero_length] at this
      rcases Nat.lt_succ_iff_lt_or_eq.mp this with hlt | heq
      · exact hlt
      · rw [heq, zero_obj] at hj0
        exact absurd hj0 (by simp)
    exact ⟨t, (zero_old h i hil).symm.trans hi0, (zero_old h j hjl).symm.trans hj0⟩
  · intro hs
    obtain ⟨hil, hjl⟩ := shares_lt h i j hs
    obtain ⟨t, hi, hj⟩ := hs
    exact ⟨t, (zero_old h i hil).trans hi, (zero_old h j hjl).trans hj⟩

theorem new_shares (h : Heap T) (i j : Nat) (hij : i ≠ j) :
    Shares (New h).1 i j ↔ Shares h i j := by
  constructor
  · intro hs
    obtain ⟨hi1, hj1⟩ := shares_lt _ i j hs
    rw [new_length] at hi1 hj1
    have hil : i < h.objs.length := by
      rcases Nat.lt_succ_iff_lt_or_eq.mp hi1 with hlt | heq
      · exact hlt
      · rcases Nat.lt_succ_iff_lt_or_eq.mp hj1 with hlt | heq2
        · rw [heq] at hs
          exact absurd hs (new_not_shares h j hlt)
        · exact absurd (heq.trans heq2.symm) hij
    have hjl : j < h.objs.length := by
      rcases Nat.lt_succ_iff_lt_or_eq.mp hj1 with hlt | heq
      · exact hlt
      · rw [heq] at hs
        exact absurd (shares_symm _ _ _ hs) (new_not_shares h i hil)
    obtain ⟨t, hi, hj⟩ := hs
    exact ⟨t, (new_old h i hil).symm.trans hi, (new_old h j hjl).symm.trans hj⟩
  · intro hs
    obtain ⟨hil, hjl⟩ := shares_lt h i j hs
    obtain ⟨t, hi, hj⟩ := hs
    exact ⟨t, (new_old h i hil).trans hi, (new_old h j hjl).trans hj⟩

theorem zero_similar_new (h : Heap T) : Similar (allocZero h).1 (New h).1 := by
  refine ⟨by rw [zero_length, new_length], fun j => ?_, fun i j hij => ?_⟩
  · rcases Nat.lt_trichotomy j h.objs.length with hj | hj | hj
    · rw [zero_keys_old h j hj, new_keys_old h j hj]
    · subst hj
      rw [zero_keys, new_keys]
    · have e1 : (allocZero h).1.objs[j]? = none :=
        List.getElem?_eq_none (by rw [zero_length]; omega)
      have e2 : (New h).1.objs[j]? = none :=
        List.getElem?_eq_none (by rw [new_length]; omega)
      simp [keysOf, e1, e2]
  · rw [zero_shares, new_shares h i j hij]

/-- C17, as the claim states it, fails on a set of `any` keys: on the zero
value `Contains` of a slice is not false, it panics, and `Add` of a slice
fails. -/
theorem zero_value_counterexample :
    load anyHeap (some 0) = some ⟨none⟩ ∧
    ¬ (Set.Contains anyHeap (some 0) (AnyVal.ints [1]) = some false) ∧
    (Set.Add anyHeap (some 0) (AnyVal.ints [1])).isNone = true := by
  decide

/-- C17, amended: the zero value of `Set` (an object whose map is nil) is an
empty set and cannot be told from `New()`.  Its `Len()` is 0, `IsEmpty()` is
true, `Contains(e)` is false for every hashable `e`, `AsSlice()` is empty, and
it is `Equal` to `New()` in both directions.  Take any sequence of `Add` and
`Remove` calls with hashable elements and of `AddAll` and `RemoveAll` calls
whose argument is a set allocated earlier or the receiver itself; when the
sequence adds the receiver to itself, let none of its calls bring in an element
that differs from itself.  Then every call returns on the zero value as on
`New()`, and after the calls `Len`, `IsEmpty`, `Contains`, `ContainsAll`,
`Equal`, `IsSubsetOf`, `IsProperSubsetOf`, `IsSupersetOf` and
`IsProperSupersetOf` give the same result on every reference and pair of
references of the two heaps, `AsSlice` gives the same elements up to their
order, and on the allocated sets, the receiver included, all these queries
return (`Contains` for a hashable element). -/
theorem zero_value_as_new (h : Heap T) (cs : List (Call T)) (hcs : okCalls h cs) :
    (Set.Len (allocZero h).1 (some h.objs.length) = some 0 ∧
      Set.IsEmpty (allocZero h).1 (some h.objs.length) = some true ∧
      (∀ e, Comparable.hashable e = true →
        Set.Contains (allocZero h).1 (some h.objs.length) e = some false) ∧
      Set.AsSlice (allocZero h).1 (some h.objs.length) = some []) ∧
    (Set.Equal (New (allocZero h).1).1 (some h.objs.length) (New (allocZero h).1).2
        = some true ∧
      Set.Equal (New (allocZero h).1).1 (New (allocZero h).1).2 (some h.objs.length)
        = some true) ∧
    ∃ hz hn,
      runCalls (allocZero h).1 (some h.objs.length) cs = some hz ∧
      runCalls (New h).1 (some h.objs.length) cs = some hn ∧
      (∀ (r o : Ref) (e : T),
        Set.Len hz r = Set.Len hn r ∧
        Set.IsEmpty hz r = Set.IsEmpty hn r ∧
        Set.Contains hz r e = Set.Contains hn r e ∧
        ((Set.AsSlice hz r = none ∧ Set.AsSlice hn r = none) ∨
          ∃ l1 l2, Set.AsSlice hz r = some l1 ∧ Set.AsSlice hn r = some l2 ∧ l1.Perm l2) ∧
        Set.ContainsAll hz r o = Set.ContainsAll hn r o ∧
        Set.Equal hz r o = Set.Equal hn r o ∧
        Set.IsSubsetOf hz r o = Set.IsSubsetOf hn r o ∧
        Set.IsProperSubsetOf hz r o = Set.IsProperSubsetOf hn r o ∧
        Set.IsSupersetOf hz r o = Set.IsSupersetOf hn r o ∧
        Set.IsProperSupersetOf hz r o = Set.IsProperSupersetOf hn r o) ∧
      (∀ (i j : Nat) (e : T), i ≤ h.objs.length → j ≤ h.objs.length →
        (Set.Len hz (some i)).isSome = true ∧
        (Set.IsEmpty hz (some i)).isSome = true ∧
        (Comparable.hashable e = true → (Set.Contains hz (some i) e).isSome = true) ∧
        (Set.AsSlice hz (some i)).isSome = true ∧
        (Set.ContainsAll hz (some i) (some j)).isSome = true ∧
        (Set.Equal hz (some i) (some j)).isSome = true ∧
        (Set.IsSubsetOf hz (some i) (some j)).isSome = true ∧
        (Set.IsProperSubsetOf hz (some i) (some j)).isSome = true ∧
        (Set.IsSupersetOf hz (some i) (some j)).isSome = true ∧
        (Set.IsProperSupersetOf hz (some i) (some j)).isSome = true) := by
  have lz : (allocZero h).1.objs.length = h.objs.length + 1 := zero_length h
  have hzl : h.objs.length < (allocZero h).1.objs.length := by
    rw [lz]; exact Nat.lt_succ_self _
  refine ⟨⟨?_, ?_, ?_, ?_⟩, ⟨?_, ?_⟩, ?_⟩
  · rw [len_eq _ _ hzl, zero_keys]; rfl
  · rw [isEmpty_eq _ _ hzl, zero_keys]; rfl
  · intro e he
    rw [contains_eq _ _ hzl e he, zero_keys]
    simp [keyFound]
  · rw [asSlice_eq _ _ hzl, zero_keys]
  · have hn1 : h.objs.length < (New (allocZero h).1).1.objs.length := by
      rw [new_length, lz]; omega
    have hn2 : h.objs.length + 1 < (New (allocZero h).1).1.objs.length := by
      rw [new_length, lz]; omega
    rw [new_ref, lz, equal_true_iff _ _ _ hn1 hn2]
    right
    have k1 : keysOf (New (allocZero h).1).1 h.objs.length = ([] : List T) := by
      rw [new_keys_old _ _ hzl, zero_keys]
    have k2 : keysOf (New (allocZero h).1).1 (h.objs.length + 1) = ([] : List T) := by
      rw [← lz, new_keys]
    rw [k1, k2]
    simp
  · have hn1 : h.objs.length < (New (allocZero h).1).1.objs.length := by
      rw [new_length, lz]; omega
    have hn2 : h.objs.length + 1 < (New (allocZero h).1).1.objs.length := by
      rw [new_length, lz]; omega
    rw [new_ref, lz, equal_true_iff _ _ _ hn2 hn1]
    right
    have k1 : keysOf (New (allocZero h).1).1 h.objs.length = ([] : List T) := by
      rw [new_keys_old _ _ hzl, zero_keys]
    have k2 : keysOf (New (allocZero h).1).1 (h.objs.length + 1) = ([] : List T) := by
      rw [← lz, new_keys]
    rw [k1, k2]
    simp
  · obtain ⟨hz, hn, ez, en, sim, lenz⟩ :=
      runCalls_similar h.objs.length cs hcs.1 _ _ (zero_similar_new h) hzl
    refine ⟨hz, hn, ez, en, ?_, ?_⟩
    · intro r o e
      refine ⟨len_congr hz hn sim r, isEmpty_congr hz hn sim r, contains_congr hz hn sim r e,
        ?_, containsAll_congr hz hn sim r o, equal_congr hz hn sim r o,
        isSubsetOf_congr hz hn sim r o, isProperSubsetOf_congr hz hn sim r o,
        isSupersetOf_congr hz hn sim r o, isProperSupersetOf_congr hz hn sim r o⟩
      rw [asSlice_congr hz hn sim r]
      cases Set.AsSlice hn r with
      | none => exact Or.inl ⟨rfl, rfl⟩
      | some l => exact Or.inr ⟨l, l, rfl, rfl, List.Perm.refl l⟩
    · intro i j e hi hj
      have hi1 : i < hz.objs.length := by rw [lenz, lz]; omega
      have hj1 : j < hz.objs.length := by rw [lenz, lz]; omega
      refine ⟨?_, ?_, ?_, ?_, ?_, ?_, ?_, ?_, ?_, ?_⟩
      · rw [len_eq hz i hi1]; rfl
      · rw [isEmpty_eq hz i hi1]; rfl
      · intro he
        rw [contains_eq hz i hi1 e he]; rfl
      · rw [asSlice_eq hz i hi1]; rfl
      · rw [containsAll_eq hz i j hi1 hj1]; rfl
      · rw [equal_eq hz i j hi1 hj1]; rfl
      · rw [isSubsetOf_eq hz i j hi1 hj1]; rfl
      · rw [isProperSubsetOf_eq hz i j hi1 hj1]; rfl
      · rw [isSupersetOf_eq hz i j hi1 hj1]; rfl
      · rw [isProperSupersetOf_eq hz i j hi1 hj1]; rfl

theorem zero_value_as_new_witness :
    okCalls sampleHeap [Call.add 5, Call.addAll 0, Call.remove 2, Call.removeAll 1,
      Call.addAll 4, Call.removeAll 4, Call.add 7] ∧
    ∃ hz hn,
      runCalls (allocZero sampleHeap).1 (some sampleHeap.objs.length)
        [Call.add 5, Call.addAll 0, Call.remove 2, Call.removeAll 1, Call.addAll 4,
          Call.removeAll 4, Call.add 7] = some hz ∧
      runCalls (New sampleHeap).1 (some sampleHeap.objs.length)
        [Call.add 5, Call.addAll 0, Call.remove 2, Call.removeAll 1, Call.addAll 4,
          Call.removeAll 4, Call.add 7] = some hn ∧
      (∀ (r o : Ref) (e : Nat),
        Set.Len hz r = Set.Len hn r ∧
        Set.IsEmpty hz r = Set.IsEmpty hn r ∧
        Set.Contains hz r e = Set.Contains hn r e ∧
        ((Set.AsSlice hz r = none ∧ Set.AsSlice hn r = none) ∨
          ∃ l1 l2, Set.AsSlice hz r = some l1 ∧ Set.AsSlice hn r = some l2 ∧ l1.Perm l2) ∧
        Set.ContainsAll hz r o = Set.ContainsAll hn r o ∧
        Set.Equal hz r o = Set.Equal hn r o ∧
        Set.IsSubsetOf hz r o = Set.IsSubsetOf hn r o ∧
        Set.IsProperSubsetOf hz r o = Set.IsProperSubsetOf hn r o ∧
        Set.IsSupersetOf hz r o = Set.IsSupersetOf hn r o ∧
        Set.IsProperSupersetOf hz r o = Set.IsProperSupersetOf hn r o) ∧
      (∀ (i j : Nat) (e : Nat), i ≤ sampleHeap.objs.length → j ≤ sampleHeap.objs.length →
        (Set.Len hz (some i)).isSome = true ∧
        (Set.IsEmpty hz (some i)).isSome = true ∧
        (Comparable.hashable e = true → (Set.Contains hz (some i) e).isSome = true) ∧
        (Set.AsSlice hz (some i)).isSome = true ∧
        (Set.ContainsAll hz (some i) (some j)).isSome = true ∧
        (Set.Equal hz (some i) (some j)).isSome = true ∧
        (Set.IsSubsetOf hz (some i) (some j)).isSome = true ∧
        (Set.IsProperSubsetOf hz (some i) (some j)).isSome = true ∧
        (Set.IsSupersetOf hz (some i) (some j)).isSome = true ∧
        (Set.IsProperSupersetOf hz (some i) (some j)).isSome = true) :=
  have hargs : okCalls sampleHeap [Call.add 5, Call.addAll 0, Call.remove 2,
      Call.removeAll 1, Call.addAll 4, Call.removeAll 4, Call.add 7] := by
    refine ⟨?_, fun _ => ?_⟩
    · intro c hc
      simp only [List.mem_cons, List.mem_singleton, List.not_mem_nil, or_false] at hc
      rcases hc with rfl | rfl | rfl | rfl | rfl | rfl | rfl
      · rfl
      · exact (by decide : 0 ≤ sampleHeap.objs.length)
      · rfl
      · exact (by decide : 1 ≤ sampleHeap.objs.length)
      · exact (by decide : 4 ≤ sampleHeap.objs.length)
      · exact (by decide : 4 ≤ sampleHeap.objs.length)
      · rfl
    · intro c hc
      simp only [List.mem_cons, List.mem_singleton, List.not_mem_nil, or_false] at hc
      rcases hc with rfl | rfl | rfl | rfl | rfl | rfl | rfl
      · rfl
      · exact Or.inr (fun _ _ _ _ => rfl)
      · trivial
      · trivial
      · exact Or.inl rfl
      · trivial
      · rfl
  ⟨hargs, (zero_value_as_new sampleHeap _ hargs).2.2⟩

end GoSet
